import Mathlib

/-! # Component tracker of the synchronized-planarity code (OGDF)

A shallow embedding of `include/ogdf/cluster/sync_plan/PQPlanarityComponents.h`.

Node handles (`node`, a pointer that may be `nullptr`) are `Option Nat`: `some i` is the
node with index `i`, `none` is the null pointer.  A `NodeArray<T>` is a table from node
index to `T`.  C++ `int` fields are `Int`.  The operations embedded from the header only
store constants and copy values.  The counters `conn_count` and `conn_next_id` advance by
one for a new node of the BC-tree, and a graph has fewer than 2^31 nodes (node indices are
`int`), so the increments never wrap around and are plain integer additions here.

The header declares most methods without a body; the file with the bodies is not part of
the sources at hand.  Such a method is modelled from the specification, and its
documentation says so.
-/

namespace PQPlanarityComponents

/-- The type `BCTree::BNodeType` of a BC-tree node. -/
inductive BNodeType where
  | BComp
  | CComp
  deriving DecidableEq, Repr

/-- The type `BCTree::GNodeType` of a node of the original graph. -/
inductive GNodeType where
  | Normal
  | CutVertex
  deriving DecidableEq, Repr

/-- An edge of a graph: its index and the indices of its two end nodes. -/
structure EdgeElement where
  index : Nat
  source : Nat
  target : Nat
  deriving DecidableEq, Repr

/-- An adjacency entry: one end of an edge (`isSource` tells which end). -/
structure AdjEntry where
  theEdge : Nat
  isSource : Bool
  deriving DecidableEq, Repr

/-- Modelled from the spec: the class `ogdf::Graph` (ogdf/basic/Graph.h is not among the
sources).  A graph has a list of nodes, a list of (visible) edges and, for every node, the
rotation: the sequence of its adjacency entries. -/
structure Graph where
  nodes : List Nat
  edges : List EdgeElement
  adjEntries : Nat → List AdjEntry

/-- The empty graph, as built by the default constructor `Graph()`. -/
def Graph.empty : Graph := ⟨[], [], fun _ => []⟩

/-- Modelled from the spec: `NodeArray<T>::init(G, x)` (ogdf/basic/NodeArray.h is not among
the sources): the array is attached to `G` and every entry gets the value `x`. -/
def NodeArray.init {α : Type} (_g : Graph) (x : α) : Nat → α := fun _ => x

/-- The fields of `class PQPlanarityComponents`. -/
structure Tracker where
  G : Graph
  BC : Graph
  conn_count : Int
  conn_next_id : Int
  bc_type : Nat → BNodeType
  bc_conn_id : Nat → Int
  bc_size : Nat → Int
  bc_g : Nat → Option Nat
  g_bc : Nat → Option Nat
  counter : Int
  marker : Nat → Int × Option Nat

/-- The private method `reset()`. -/
def reset (s : Tracker) : Tracker :=
  { s with
    conn_count := 0
    conn_next_id := 0
    bc_conn_id := NodeArray.init s.BC (-1)
    g_bc := NodeArray.init s.G none
    bc_g := NodeArray.init s.BC none
    bc_size := NodeArray.init s.BC 0
    bc_type := NodeArray.init s.BC BNodeType.BComp }

/-- The constructor `PQPlanarityComponents(Graph* g)`: `G(g), BC(), marker(BC, (0, nullptr))`,
the default member initialiser `counter = 1`, then `reset()`.  The members without an
initialiser hold indeterminate values before `reset()` runs; they are taken from `junk`. -/
def construct (g : Graph) (junk : Tracker) : Tracker :=
  reset { junk with
    G := g
    BC := Graph.empty
    counter := 1
    marker := NodeArray.init Graph.empty (0, none) }

/-- The query `connectedCount()`. -/
def connectedCount (s : Tracker) : Int := s.conn_count

/-- Modelled from the spec: `biconnectedComponent(n)` (its body, in
PQPlanarityComponents.cpp, is not among the sources): the BC-tree node that `g_bc` records
for the original node `n`; `none` is the null handle. -/
def biconnectedComponent (s : Tracker) (n : Nat) : Option Nat := s.g_bc n

/-- Modelled from the spec: `bcConnectedId(bc)` (body not among the sources): the accessor
reading `bc_conn_id` at the BC-tree node `bc`.  Reading through the null handle has no
defined result, which is `none` here. -/
def bcConnectedId (s : Tracker) (bc : Option Nat) : Option Int :=
  bc.map s.bc_conn_id

/-- Modelled from the spec: `bcNodeType(bc)` (body not among the sources): the accessor
reading `bc_type` at the BC-tree node `bc`; no defined result at the null handle. -/
def bcNodeType (s : Tracker) (bc : Option Nat) : Option BNodeType :=
  bc.map s.bc_type

/-- The query `connectedId(n)`: `bcConnectedId(biconnectedComponent(n))`. -/
def connectedId (s : Tracker) (n : Nat) : Option Int :=
  bcConnectedId s (biconnectedComponent s n)

/-- The query `isCutComponent(n)`: `bcNodeType(n) == BCTree::BNodeType::CComp`. -/
def isCutComponent (s : Tracker) (bc : Option Nat) : Option Bool :=
  (bcNodeType s bc).map (fun t => decide (t = BNodeType.CComp))

/-! ## Connectivity of a graph -/

/-- Two nodes are adjacent when some edge of the graph joins them. -/
def Graph.Adj (g : Graph) (u v : Nat) : Prop :=
  ∃ e ∈ g.edges, (e.source = u ∧ e.target = v) ∨ (e.source = v ∧ e.target = u)

/-- Two nodes are connected when a path of edges leads from one to the other. -/
def Graph.Connected (g : Graph) (u v : Nat) : Prop :=
  Relation.ReflTransGen g.Adj u v

/-- The degree of a node: the number of edge ends at it. -/
def Graph.degree (g : Graph) (n : Nat) : Nat :=
  (g.edges.filter (fun e => e.source = n)).length +
    (g.edges.filter (fun e => e.target = n)).length

/-- The neighbours of a node, one per incident edge. -/
def Graph.neighbours (g : Graph) (n : Nat) : List Nat :=
  g.edges.filterMap (fun e =>
    if e.source = n then some e.target
    else if e.target = n then some e.source
    else none)

/-- One merging step of component labels: every node labelled like `b` is relabelled
like `a`. -/
def mergeLabel {α : Type} [DecidableEq α] (lbl : Nat → α) (a b : Nat) : Nat → α :=
  fun x => if lbl x = lbl b then lbl a else lbl x

/-- Merge the labels along every pair of end nodes of the list, in order. -/
def mergeLabels {α : Type} [DecidableEq α] (ps : List (Nat × Nat)) (lbl : Nat → α) : Nat → α :=
  ps.foldl (fun l p => mergeLabel l p.1 p.2) lbl

/-- Two nodes are joined by a pair of the list, in either direction. -/
def AdjP (ps : List (Nat × Nat)) (x y : Nat) : Prop := (x, y) ∈ ps ∨ (y, x) ∈ ps

/-- The pairs of end nodes of the edges of a graph. -/
def Graph.ends (g : Graph) : List (Nat × Nat) := g.edges.map (fun e => (e.source, e.target))

/-- Component labels of a graph: every node starts with its own index as label and the
labels are merged along the edges, so two nodes end with one label exactly when they are
connected. -/
def Graph.labels (g : Graph) : Nat → Nat := mergeLabels g.ends id

/-- The number of connected components: the number of distinct component labels among the
nodes. -/
def Graph.numComponents (g : Graph) : Nat :=
  ((g.nodes.map g.labels).dedup).length

/-- The subgraph induced by the nodes that satisfy `keep`. -/
def Graph.induce (g : Graph) (keep : Nat → Bool) : Graph :=
  let es := g.edges.filter (fun e => keep e.source && keep e.target)
  { nodes := g.nodes.filter keep
    edges := es
    adjEntries := fun n =>
      if keep n then (g.adjEntries n).filter (fun a => es.any (fun e => e.index = a.theEdge))
      else [] }

/-- The connected component of `n`, as a graph of its own. -/
def Graph.componentOf (g : Graph) (n : Nat) : Graph :=
  g.induce (fun m => decide (g.labels m = g.labels n))

/-- The graph without the node `n` and without the edges at `n`. -/
def Graph.removeNode (g : Graph) (n : Nat) : Graph :=
  g.induce (fun m => decide (m ≠ n))

/-- Modelled from the spec: `nodeType(n)` (body not among the sources): the standard
block-cut-tree classification, by which a node is a cut vertex iff removing it increases
the number of connected components of its connected component. -/
def nodeType (s : Tracker) (n : Nat) : GNodeType :=
  if (s.G.componentOf n).numComponents < ((s.G.componentOf n).removeNode n).numComponents
  then GNodeType.CutVertex else GNodeType.Normal

/-- The query `isCutVertex(n)`: `nodeType(n) == BCTree::GNodeType::CutVertex`. -/
def isCutVertex (s : Tracker) (n : Nat) : Bool :=
  decide (nodeType s n = GNodeType.CutVertex)

/-- Modelled from the spec: `findCommonBiconComp(bc_cut1, bc_cut2)` (body not among the
sources): the unique block node adjacent to both arguments in the BC-tree if exactly one
exists, else the null handle.  A block node is a BC-tree node of type `BComp` (one that
`isCutComponent` denies). -/
def findCommonBiconComp (s : Tracker) (bc_cut1 bc_cut2 : Nat) : Option Nat :=
  match ((s.BC.neighbours bc_cut1).filter (fun b =>
      decide (b ∈ s.BC.neighbours bc_cut2) && decide (s.bc_type b = BNodeType.BComp))).dedup with
  | [b] => some b
  | _ => none

/-! ## The operations of the tracker as steps on its state -/

/-- The `const` queries whose bodies the header gives inline. -/
inductive Query where
  | connectedCount
  | connectedId (n : Nat)
  | biconnectedId (n : Nat)
  | isCutVertex (n : Nat)
  | graph
  | bcTree
  | isCutComponent (bc : Option Nat)

/-- An operation on an existing tracker: `reset()` or one of the inline queries. -/
inductive Op where
  | reset
  | query (q : Query)

/-- The state after an operation.  The inline queries are `const` and their bodies assign
to no member, so they leave the state as it is. -/
def Op.run : Op → Tracker → Tracker
  | Op.reset, s => PQPlanarityComponents.reset s
  | Op.query _, s => s

/-! ## BiconnectedIsolation -/

/-- Modelled from the spec: `Graph::sort(n, list)` (ogdf/basic/Graph.h is not among the
sources): the rotation at `n` becomes the given sequence of adjacency entries. -/
def Graph.sort (g : Graph) (n : Nat) (l : List AdjEntry) : Graph :=
  { g with adjEntries := Function.update g.adjEntries n l }

/-- The fields of `class BiconnectedIsolation`.  `m_comps` is a reference to the tracker,
whose `G` is the graph the isolation works on. -/
structure BiconnectedIsolation where
  m_comps : Tracker
  m_bicon : Option Nat
  m_to_restore : List Nat
  m_adjEntries : Nat → List AdjEntry
  m_hiddenEdges : List EdgeElement

/-- Modelled from the spec: `BiconnectedIsolation::restore(restore_embedding)` (body not
among the sources): it re-inserts all hidden edges and, if `restore_embedding` is true,
additionally restores the recorded adjacency-list rotation at each node of `m_to_restore`;
if it is false, the adjacency order is left as it is.  How one hidden edge is put back into
the graph is the business of `Graph::HiddenEdgeSet`, which is not among the sources either
and about which the spec says nothing more: it is the parameter `restoreEdge`.

After the call the isolation is restored, and a later call (the destructor calls
`restore()` without any test) has to find that: by the spec the destructor restores only
"if not already restored" and a second invocation is a no-op, also after `restore(false)`.
The class has no field but the five of the header, so the restored state is the one in
which nothing is left to restore: the set of hidden edges and the set `m_to_restore` are
both empty after the call. -/
def BiconnectedIsolation.restore (restoreEdge : Graph → EdgeElement → Graph)
    (s : BiconnectedIsolation) (restore_embedding : Bool := true) : BiconnectedIsolation :=
  let g1 := s.m_hiddenEdges.foldl restoreEdge s.m_comps.G
  let g2 :=
    if restore_embedding then
      s.m_to_restore.foldl (fun g n => g.sort n (s.m_adjEntries n)) g1
    else g1
  { s with m_comps := { s.m_comps with G := g2 }, m_hiddenEdges := [], m_to_restore := [] }

/-- The destructor `~BiconnectedIsolation() { restore(); }`. -/
def BiconnectedIsolation.destructor (restoreEdge : Graph → EdgeElement → Graph)
    (s : BiconnectedIsolation) : BiconnectedIsolation :=
  s.restore restoreEdge

/-! ## Building the tracker for a graph -/

/-- An index above every node index of the graph: the index of the next new node. -/
def Graph.freshIndex (g : Graph) : Nat :=
  g.nodes.foldr (fun x m => max (x + 1) m) 0

/-- Modelled from the spec: `Graph::newNode(index)` (ogdf/basic/Graph.h is not among the
sources): a new node with no edges. -/
def Graph.newNode (g : Graph) (i : Nat) : Graph :=
  { g with nodes := g.nodes ++ [i] }

/-- Modelled from the spec: `Graph::newEdge(a, b)` (ogdf/basic/Graph.h is not among the
sources): a new edge from `a` to `b`, whose adjacency entries come last in both
rotations. -/
def Graph.newEdge (g : Graph) (a b : Nat) : Graph :=
  let i := g.edges.foldr (fun e m => max (e.index + 1) m) 0
  { g with
    edges := g.edges ++ [⟨i, a, b⟩]
    adjEntries := fun n =>
      g.adjEntries n ++ (if n = a then [⟨i, true⟩] else []) ++ (if n = b then [⟨i, false⟩] else []) }

/-- Modelled from the spec: the result of the external BC-tree construction routine (the
class `BCTree` of ogdf/decomposition/BCTree.h, not among the sources): a forest `bcTree`
of block nodes and cut nodes, the type and size of each of them, and for an original node
the node of the forest it belongs to (`bcproper`; null for a node the decomposition does
not cover). -/
structure BCTree where
  bcTree : Graph
  typeOfBNode : Nat → BNodeType
  numberOfNodes : Nat → Int
  bcproper : Nat → Option Nat

/-- First step of `insert`: the node `t` of the fresh BC-tree gets a copy `off + t` in the
tracked BC-tree, with the next connected-component id from `conn_next_id`. -/
def insertNode (tmp : BCTree) (off : Nat) (s : Tracker) (t : Nat) : Tracker :=
  { s with
    BC := s.BC.newNode (off + t)
    bc_type := Function.update s.bc_type (off + t) (tmp.typeOfBNode t)
    bc_size := Function.update s.bc_size (off + t) (tmp.numberOfNodes t)
    bc_conn_id := Function.update s.bc_conn_id (off + t) s.conn_next_id
    conn_next_id := s.conn_next_id + 1
    conn_count := s.conn_count + 1 }

/-- Second step of `insert`: an edge of the fresh BC-tree is copied, and the connected
components of its two ends become one: every BC-tree node with the id of the target gets
the id of the source. -/
def insertEdge (off : Nat) (s : Tracker) (e : EdgeElement) : Tracker :=
  { s with
    BC := s.BC.newEdge (off + e.source) (off + e.target)
    bc_conn_id := mergeLabel s.bc_conn_id (off + e.source) (off + e.target)
    conn_count :=
      if s.bc_conn_id (off + e.source) = s.bc_conn_id (off + e.target) then s.conn_count
      else s.conn_count - 1 }

/-- Third step of `insert`: an original node that the fresh BC-tree covers is mapped to the
copy of its BC-tree node, and becomes the representative of that node if there is none. -/
def insertMap (tmp : BCTree) (off : Nat) (s : Tracker) (n : Nat) : Tracker :=
  match tmp.bcproper n with
  | some t =>
    { s with
      g_bc := Function.update s.g_bc n (some (off + t))
      bc_g := if s.bc_g (off + t) = none then Function.update s.bc_g (off + t) (some n)
              else s.bc_g }
  | none => s

/-- Modelled from the spec: `insert(tmp_bc)` (body not among the sources): it merges a
freshly computed BC-tree into the tracked BC-tree, assigning new connected-component ids
via `conn_next_id`. -/
def insert (s : Tracker) (tmp : BCTree) : Tracker :=
  let off := s.BC.freshIndex
  let s1 := tmp.bcTree.nodes.foldl (insertNode tmp off) s
  let s2 := tmp.bcTree.edges.foldl (insertEdge off) s1
  s.G.nodes.foldl (insertMap tmp off) s2

/-- Every BC-tree node that `g_bc` names is below the fresh index of the BC-tree, and its
connected-component id is below the counter `conn_next_id`. -/
def Tracker.IdsInRange (s : Tracker) : Prop :=
  ∀ n b, s.g_bc n = some b → b < s.BC.freshIndex ∧ s.bc_conn_id b < s.conn_next_id

/-- One step of `labelIsolatedNodes`: an original node of degree zero that is not yet
labelled gets a single-node component of its own, with a fresh connected-component id. -/
def labelIsolatedNode (s : Tracker) (n : Nat) : Tracker :=
  if s.G.degree n = 0 ∧ s.g_bc n = none then
    { s with
      BC := s.BC.newNode s.BC.freshIndex
      bc_type := Function.update s.bc_type s.BC.freshIndex BNodeType.BComp
      bc_size := Function.update s.bc_size s.BC.freshIndex 1
      bc_conn_id := Function.update s.bc_conn_id s.BC.freshIndex s.conn_next_id
      bc_g := Function.update s.bc_g s.BC.freshIndex (some n)
      g_bc := Function.update s.g_bc n (some s.BC.freshIndex)
      conn_next_id := s.conn_next_id + 1
      conn_count := s.conn_count + 1 }
  else s

/-- Modelled from the spec: `labelIsolatedNodes()` (body not among the sources): it assigns
a fresh trivial connected-component id to every original node with degree zero that is not
yet labelled. -/
def labelIsolatedNodes (s : Tracker) : Tracker :=
  s.G.nodes.foldl labelIsolatedNode s

/-- Building the tracker for a graph: construction, `insert` of the BC-tree that the
external routine computed for the graph, then `labelIsolatedNodes`. -/
def build (g : Graph) (tmp : BCTree) (junk : Tracker) : Tracker :=
  labelIsolatedNodes (insert (construct g junk) tmp)

/-- What the tracker relies on from the external BC-tree routine when it is run on the
graph `g`: the forest is a well-formed graph, every node of `g` with an edge is covered,
and two covered nodes lie in one tree of the forest exactly when they are connected in
`g`. -/
structure BCTree.ValidFor (tmp : BCTree) (g : Graph) : Prop where
  nodup : tmp.bcTree.nodes.Nodup
  ends_mem : ∀ e ∈ tmp.bcTree.edges, e.source ∈ tmp.bcTree.nodes ∧ e.target ∈ tmp.bcTree.nodes
  covered : ∀ n ∈ g.nodes, 0 < g.degree n → ∃ t, tmp.bcproper n = some t
  proper_mem : ∀ n t, tmp.bcproper n = some t → t ∈ tmp.bcTree.nodes
  connected_iff : ∀ u ∈ g.nodes, ∀ v ∈ g.nodes, ∀ t t', tmp.bcproper u = some t →
    tmp.bcproper v = some t' → (tmp.bcTree.Connected t t' ↔ g.Connected u v)

/-! ## Example graphs -/

/-- A tracker value standing for memory that holds arbitrary data. -/
def Examples.junk : Tracker :=
  { G := Graph.empty, BC := Graph.empty, conn_count := 7, conn_next_id := 9,
    bc_type := fun _ => BNodeType.CComp, bc_conn_id := fun _ => 3, bc_size := fun _ => 5,
    bc_g := fun _ => some 1, g_bc := fun _ => some 2, counter := 0,
    marker := fun _ => (4, none) }

/-- The graph with the single node 0 and no edge. -/
def Examples.oneNode : Graph := ⟨[0], [], fun _ => []⟩

/-- The BC-tree of a graph without edges: it has no node. -/
def Examples.noBC : BCTree := ⟨Graph.empty, fun _ => BNodeType.BComp, fun _ => 0, fun _ => none⟩

/-- The rotations that `newEdge` gives when the edges are added one after the other. -/
def Examples.ofEdges (nodes : List Nat) (ends : List (Nat × Nat)) : Graph :=
  ends.foldl (fun g p => g.newEdge p.1 p.2) ⟨nodes, [], fun _ => []⟩

/-- The path A-B-C-D (nodes 0, 1, 2, 3). -/
def Examples.path : Graph := Examples.ofEdges [0, 1, 2, 3] [(0, 1), (1, 2), (2, 3)]

/-- The path A-B-C-D (nodes 0, 1, 2, 3) and the isolated node 4. -/
def Examples.pathAndNode : Graph := Examples.ofEdges [0, 1, 2, 3, 4] [(0, 1), (1, 2), (2, 3)]

/-- The BC-tree of the path: the blocks 0 (edge AB), 1 (edge BC) and 2 (edge CD), the cut
nodes 3 (for B) and 4 (for C). -/
def Examples.pathBC : BCTree :=
  { bcTree := Examples.ofEdges [0, 1, 2, 3, 4] [(0, 3), (3, 1), (1, 4), (4, 2)]
    typeOfBNode := fun t => if t < 3 then BNodeType.BComp else BNodeType.CComp
    numberOfNodes := fun t => if t < 3 then 2 else 1
    bcproper := fun n => [some 0, some 3, some 4, some 2].getD n none }

/-- The simple cycle on the nodes 0, ..., k-1 (for k at least 3). -/
def Examples.cycle (k : Nat) : Graph :=
  Examples.ofEdges (List.range k) ((List.range k).map (fun i => (i, (i + 1) % k)))

/-- The BC-tree of a cycle: one block, which holds every node. -/
def Examples.cycleBC (k : Nat) : BCTree :=
  { bcTree := ⟨[0], [], fun _ => []⟩
    typeOfBNode := fun _ => BNodeType.BComp
    numberOfNodes := fun _ => k
    bcproper := fun n => if n < k then some 0 else none }

/-- One way in which `Graph::HiddenEdgeSet` may put a hidden edge back: the edge comes last
in the list of edges and its two adjacency entries come last in the two rotations. -/
def Examples.restoreLast (g : Graph) (e : EdgeElement) : Graph :=
  { g with
    edges := g.edges ++ [e]
    adjEntries := fun n =>
      g.adjEntries n ++ (if n = e.source then [⟨e.index, true⟩] else []) ++
        (if n = e.target then [⟨e.index, false⟩] else []) }

/-- An isolation of the block BC (node 1 of the BC-tree) of the path A-B-C-D: the edges AB
(index 0) and CD (index 2) are hidden, the graph is left with the edge BC (index 1), and
the rotations of B and C before the hiding are recorded. -/
def Examples.isolation : BiconnectedIsolation :=
  { m_comps := construct
      ⟨[0, 1, 2, 3], [⟨1, 1, 2⟩], fun n => [[], [⟨1, true⟩], [⟨1, false⟩], []].getD n []⟩
      Examples.junk
    m_bicon := some 1
    m_to_restore := [1, 2]
    m_adjEntries := fun n =>
      [[], [⟨0, false⟩, ⟨1, true⟩], [⟨1, false⟩, ⟨2, true⟩], []].getD n []
    m_hiddenEdges := [⟨0, 0, 1⟩, ⟨2, 2, 3⟩] }

end PQPlanarityComponents

namespace PQPlanarityComponents

/-- The query `biconnectedId(n)`: `biconnectedComponent(n)->index()`.  The method `index()`
of a node (ogdf/basic/Graph.h, which is not among the sources) is the parameter `index`;
calling it through the null handle has no defined result, which is `none` here. -/
def biconnectedId (index : Nat → Int) (s : Tracker) (n : Nat) : Option Int :=
  (biconnectedComponent s n).map index

end PQPlanarityComponents

/-! # PlanarSubgraphEmpty

A shallow embedding of `include/ogdf/planarity/PlanarSubgraphEmpty.h`. -/

namespace PlanarSubgraphEmpty

/-- The values of `Module::ReturnType` (ogdf/basic/Module.h). -/
inductive ReturnType where
  | Feasible
  | Optimal
  | NoFeasibleSolution
  | TimeoutFeasible
  | TimeoutInfeasible
  | Error
  deriving DecidableEq, Repr

/-- The method `doCall(graph, preferredEdges, delEdges, pCost, preferedImplyPlanar)`:
`graph.allEdges(delEdges); return Module::ReturnType::Feasible;`.  The result is the
returned value and the final content of the reference parameter `delEdges`.  The function
`Graph::allEdges` (ogdf/basic/Graph.h, which is not among the sources) is the parameter
`allEdges`: it maps the graph and the old content of the container to the new content. -/
def doCall {TCost : Type}
    (allEdges : PQPlanarityComponents.Graph → List Nat → List Nat)
    (graph : PQPlanarityComponents.Graph) (_preferredEdges : List Nat) (delEdges : List Nat)
    (_pCost : Option (Nat → TCost)) (_preferedImplyPlanar : Bool) :
    ReturnType × List Nat :=
  (ReturnType.Feasible, allEdges graph delEdges)

/-- The indices of the edges of a graph, in the order of its edge list. -/
def edgeIds (g : PQPlanarityComponents.Graph) : List Nat := g.edges.map (fun e => e.index)

end PlanarSubgraphEmpty

/-! # SimDrawCreator

A shallow embedding of `randomESG` of `src/ogdf/simultaneous/SimDrawCreator.cpp`.  An `int`
is a 32-bit two's complement number: a result is brought back into range by `wrapInt32`. -/

namespace SimDrawCreator

/-- The 32-bit two's complement number congruent to `x`. -/
def wrapInt32 (x : Int) : Int := (x + 2 ^ 31) % 2 ^ 32 - 2 ^ 31

/-- The method `randomESG(graphNumber)`.  `edges` are the edges of `m_G` in the order of
the loop, `rand k` is the value that the `k`-th call of `rand()` returns, and the result
is the new content of `subGraphBits`:
`max = (1 << (graphNumber + 1)) - 1` and, for each edge,
`subGraphBits(e) = 1 + rand() % max`. -/
def randomESG (graphNumber : Int) (rand : Nat → Int) (edges : List Nat)
    (subGraphBits : Nat → Int) : Nat → Int :=
  let max := wrapInt32 (wrapInt32 (1 * 2 ^ (graphNumber + 1).toNat) - 1)
  (edges.foldl
    (fun (st : (Nat → Int) × Nat) e =>
      (Function.update st.1 e (wrapInt32 (1 + (rand st.2).tmod max)), st.2 + 1))
    (subGraphBits, 0)).1

/-- The edge with the given `subGraphBits` belongs to the basic graph `i`: bit `i` is
set. -/
def inSubGraph (bits : Int) (i : Nat) : Bool := (bits / 2 ^ i) % 2 = 1

/-- The method `clearESG()`: `subGraphBits(e) = 0` for every edge of `m_G`. -/
def clearESG (edges : List Nat) (subGraphBits : Nat → Int) : Nat → Int :=
  edges.foldl (fun bits e => Function.update bits e 0) subGraphBits

/-- Modelled from the spec: `GraphAttributes::addSubGraph(e, n)` (GraphAttributes.h is not
among the sources): the edge `e` is put into the basic graph `n`, that is
`subGraphBits(e) |= (1 << n)`. -/
def addSubGraph (subGraphBits : Nat → Int) (e : Nat) (n : Int) : Nat → Int :=
  Function.update subGraphBits e (Int.lor (subGraphBits e) (wrapInt32 (1 * 2 ^ n.toNat)))

/-- The body of the edge loop of `randomESG2` for the edge `e`.  The state is the content
of `subGraphBits` and the number of calls of `rand()` so far: `rand st.2` is the next
value that `rand()` returns. -/
def randomESG2Body (doubleESGProbability : Int) (rand : Nat → Int)
    (st : (Nat → Int) × Nat) (e : Nat) : (Nat → Int) × Nat :=
  if (rand st.2).tmod 100 < doubleESGProbability then
    (addSubGraph (addSubGraph st.1 e 0) e 1, st.2 + 1)
  else
    (addSubGraph st.1 e ((rand (st.2 + 1)).tmod 2), st.2 + 2)

/-- The method `randomESG2(doubleESGProbability)`: the new content of `subGraphBits`,
`none` when one of the two assertions on `doubleESGProbability` fails. -/
def randomESG2 (doubleESGProbability : Int) (rand : Nat → Int) (edges : List Nat)
    (subGraphBits : Nat → Int) : Option (Nat → Int) :=
  if doubleESGProbability ≤ 100 ∧ doubleESGProbability ≥ 0 then
    some (edges.foldl (randomESG2Body doubleESGProbability rand)
      (clearESG edges subGraphBits, 0)).1
  else none

end SimDrawCreator

/-! # ConvexHull

A shallow embedding of `ConvexHull::conv` of `src/ogdf/graphalg/ConvexHull.cpp`.

The coordinates of a `DPoint` are `double` in the source.  Here they are integers, on
which sums, differences and products are exact, and `calcNormal` leaves out the division
by the length `len` of the segment: `conv` only compares `leftOfLine(norm, g, h)` with
`0.0`, and dividing by the positive `len` does not change that comparison.  Two points
are equal when both coordinates are. -/

namespace ConvexHull

/-- A point `DPoint` with its coordinates `m_x`, `m_y`. -/
structure DPoint where
  m_x : Int
  m_y : Int
  deriving DecidableEq, Repr

/-- A polygon `DPolygon`: the list of its points and the flag `counterclock()`. -/
structure DPolygon where
  points : List DPoint
  counterclock : Bool
  deriving DecidableEq, Repr

/-- `calcNormal(start, end)` times the length of the segment:
`(start.m_y - end.m_y, end.m_x - start.m_x)`. -/
def calcNormal (start stop : DPoint) : DPoint :=
  ⟨start.m_y - stop.m_y, stop.m_x - start.m_x⟩

/-- `leftOfLine(normal, point, pointOnLine)`:
`(point.m_x - pointOnLine.m_x) * normal.m_x + (point.m_y - pointOnLine.m_y) * normal.m_y`. -/
def leftOfLine (normal point pointOnLine : DPoint) : Int :=
  (point.m_x - pointOnLine.m_x) * normal.m_x + (point.m_y - pointOnLine.m_y) * normal.m_y

/-- `cyclicPred` on positions of a list with `n` elements. -/
def cyclicPred (n i : Nat) : Nat := if i = 0 then n - 1 else i - 1

/-- `cyclicSucc` on positions of a list with `n` elements. -/
def cyclicSucc (n i : Nat) : Nat := if i + 1 = n then 0 else i + 1

/-- The position, after the element at position `h` has been deleted, of the element that
was at position `k`. -/
def afterDel (h k : Nat) : Nat := if h < k then k - 1 else k

/-- The loop of `conv`.  An iterator is the position of its element in `res`; `fuel` bounds
the number of passes through the loop body, and `none` means that it did not suffice. -/
def convLoop (counterclock : Bool) : Nat → List DPoint → Nat → Nat → Option (List DPoint)
  | 0, _, _, _ => none
  | fuel + 1, res, i, lastChange =>
    if i = lastChange then some res
    else
      let h := cyclicPred res.length i
      let g := cyclicPred res.length h
      if res.get? i = res.get? h then
        convLoop counterclock fuel (res.eraseIdx h) (afterDel h i) (afterDel h g)
      else if g = i then
        convLoop counterclock fuel res (cyclicSucc res.length i) lastChange
      else
        match res.get? g, res.get? h, res.get? i with
        | some pg, some ph, some pi =>
          let norm := calcNormal ph pi
          if (counterclock && decide (leftOfLine norm pg ph ≤ 0)) ||
              (!counterclock && decide (leftOfLine norm pg ph ≥ 0)) then
            convLoop counterclock fuel (res.eraseIdx h) (afterDel h i) (afterDel h g)
          else
            convLoop counterclock fuel res (cyclicSucc res.length i) lastChange
        | _, _, _ => none

/-- The method `conv(poly)`: the loop starts with `i = res.begin()` and
`lastChange = res.cyclicPred(res.begin())`. -/
def conv (fuel : Nat) (poly : DPolygon) : Option DPolygon :=
  (convLoop poly.counterclock fuel poly.points 0 (cyclicPred poly.points.length 0)).map
    (fun res => ⟨res, poly.counterclock⟩)

/-- Twice the signed area of the triangle `a b c`: positive for a left turn at `b`. -/
def turn (a b c : DPoint) : Int :=
  (b.m_x - a.m_x) * (c.m_y - b.m_y) - (b.m_y - a.m_y) * (c.m_x - b.m_x)

/-- The polygon is convex: every three cyclically consecutive vertices turn strictly in
the orientation of the polygon. -/
def isConvex (poly : DPolygon) : Bool :=
  (List.range poly.points.length).all (fun k =>
    match poly.points.get? k, poly.points.get? ((k + 1) % poly.points.length),
        poly.points.get? ((k + 2) % poly.points.length) with
    | some a, some b, some c =>
      if poly.counterclock then decide (0 < turn a b c) else decide (turn a b c < 0)
    | _, _, _ => false)

/-- Twice the signed area of the polygon: positive for a counter-clockwise polygon. -/
def area2 (pts : List DPoint) : Int :=
  ((List.range pts.length).map (fun k =>
    match pts.get? k, pts.get? ((k + 1) % pts.length) with
    | some a, some b => a.m_x * b.m_y - b.m_x * a.m_y
    | _, _ => 0)).sum

/-- The orientation flag of the polygon is set correctly. -/
def orientationCorrect (poly : DPolygon) : Bool :=
  if poly.counterclock then decide (0 < area2 poly.points) else decide (area2 poly.points < 0)

/-- The closed segments `a b` and `c d` have a point in common. -/
def segmentsMeet (a b c d : DPoint) : Bool :=
  let onSeg := fun (p q r : DPoint) =>
    decide (turn p q r = 0) && decide (min p.m_x q.m_x ≤ r.m_x) && decide (r.m_x ≤ max p.m_x q.m_x) &&
      decide (min p.m_y q.m_y ≤ r.m_y) && decide (r.m_y ≤ max p.m_y q.m_y)
  (decide (turn a b c * turn a b d < 0) && decide (turn c d a * turn c d b < 0)) ||
    onSeg a b c || onSeg a b d || onSeg c d a || onSeg c d b

/-- The polygon is cross-free: two sides that are not neighbours have no point in
common. -/
def crossFree (poly : DPolygon) : Bool :=
  let n := poly.points.length
  (List.range n).all (fun j => (List.range n).all (fun k =>
    if j = k ∨ (j + 1) % n = k ∨ (k + 1) % n = j then true
    else
      match poly.points.get? j, poly.points.get? ((j + 1) % n), poly.points.get? k,
          poly.points.get? ((k + 1) % n) with
      | some a, some b, some c, some d => !segmentsMeet a b c d
      | _, _, _, _ => false))

/-- A clockwise dart: the corner at `(1, 1)` is reflex. -/
def dartCW : DPolygon := ⟨[⟨0, 0⟩, ⟨0, 4⟩, ⟨1, 1⟩, ⟨4, 0⟩], false⟩

/-- The same dart in counter-clockwise order. -/
def dartCCW : DPolygon := ⟨[⟨0, 0⟩, ⟨4, 0⟩, ⟨1, 1⟩, ⟨0, 4⟩], true⟩

end ConvexHull

/-! # PlanRepUML

A shallow embedding of `expand`, `prepareIncrementalMergers` and `insertGenMerger` of
`src/ogdf/uml/PlanRepUML.cpp`.

A node or an edge is its index, an adjacency entry is an edge with the end it stands for,
and a null handle is `none`.  The classes `Graph` and `PlanRep` that `PlanRepUML` builds on
(ogdf/basic/Graph.h, ogdf/planarity/PlanRep.h) are not among the sources: their
operations are modelled by what their names and their use in `PlanRepUML.cpp` say, and the
documentation of each such definition says so.  A failing `OGDF_ASSERT` and a call through
a null handle end the run: such a run has the result `none`.  The assertions
`representsCombEmbedding()` are left out (they inspect the faces of the embedding and
change nothing). -/

namespace PlanRepUML

open PQPlanarityComponents (AdjEntry)

/-- The values of `Graph::NodeType`. -/
inductive NodeType where
  | vertex
  | dummy
  | generalizationMerger
  | generalizationExpander
  | highDegreeExpander
  | lowDegreeExpander
  | associationClass
  deriving DecidableEq, Repr

/-- The values of `Graph::EdgeType`. -/
inductive EdgeType where
  | association
  | generalization
  | dependency
  deriving DecidableEq, Repr

/-- Modelled from the spec: the class `ogdf::Graph` (ogdf/basic/Graph.h is not among the
sources), as `PlanRepUML.cpp` uses it: the nodes and the edges in the order of the lists
`nodes` and `edges`, the two end nodes of every edge, and for every node the rotation, the
list of its adjacency entries. -/
structure Graph where
  nodes : List Nat
  edges : List Nat
  source : Nat → Nat
  target : Nat → Nat
  adjEntries : Nat → List AdjEntry

/-- `adj->theNode()`: the node whose rotation holds the adjacency entry. -/
def Graph.theNode (g : Graph) (a : AdjEntry) : Nat :=
  if a.isSource then g.source a.theEdge else g.target a.theEdge

/-- `v->degree()`: the number of adjacency entries of `v`. -/
def Graph.degree (g : Graph) (v : Nat) : Nat := (g.adjEntries v).length

/-- `v->firstAdj()`. -/
def Graph.firstAdj (g : Graph) (v : Nat) : Option AdjEntry := (g.adjEntries v).head?

/-- `v->lastAdj()`. -/
def Graph.lastAdj (g : Graph) (v : Nat) : Option AdjEntry := (g.adjEntries v).getLast?

/-- `adj->succ()`: the entry after `adj` in its rotation, null after the last one. -/
def Graph.succ (g : Graph) (a : AdjEntry) : Option AdjEntry :=
  (((g.adjEntries (g.theNode a)).dropWhile (fun b => decide (b ≠ a))).drop 1).head?

/-- The list with `x` put in right after `a` (at the end when `a` is missing). -/
def insertAfter (a x : AdjEntry) : List AdjEntry → List AdjEntry
  | [] => [x]
  | b :: l => if b = a then b :: x :: l else b :: insertAfter a x l

/-- An index above every node index: the index of the next new node. -/
def Graph.freshNode (g : Graph) : Nat := g.nodes.foldr (fun x m => max (x + 1) m) 0

/-- An index above every edge index: the index of the next new edge. -/
def Graph.freshEdge (g : Graph) : Nat := g.edges.foldr (fun x m => max (x + 1) m) 0

/-- `Graph::empty()`: the graph has no node. -/
def Graph.empty (g : Graph) : Bool := g.nodes.isEmpty

/-- Modelled from the spec: `Graph::newNode()` (Graph.h is not among the sources): a new
node without edges is appended to the list of nodes.  The result is the graph and the
new node. -/
def Graph.newNode (g : Graph) : Graph × Nat :=
  ({ g with
      nodes := g.nodes ++ [g.freshNode]
      adjEntries := Function.update g.adjEntries g.freshNode [] }, g.freshNode)

/-- Modelled from the spec: `Graph::newEdge(adjSrc, adjTgt)` (Graph.h is not among the
sources): a new edge from the node of `adjSrc` to the node of `adjTgt`, whose adjacency
entries come right after `adjSrc` and right after `adjTgt` in the two rotations. -/
def Graph.newEdgeAdj (g : Graph) (adjSrc adjTgt : AdjEntry) : Graph × Nat :=
  let e := g.freshEdge
  let adj1 := Function.update g.adjEntries (g.theNode adjSrc)
    (insertAfter adjSrc ⟨e, true⟩ (g.adjEntries (g.theNode adjSrc)))
  let adj2 := Function.update adj1 (g.theNode adjTgt)
    (insertAfter adjTgt ⟨e, false⟩ (adj1 (g.theNode adjTgt)))
  ({ g with
      edges := g.edges ++ [e]
      source := Function.update g.source e (g.theNode adjSrc)
      target := Function.update g.target e (g.theNode adjTgt)
      adjEntries := adj2 }, e)

/-- Modelled from the spec: `Graph::newEdge(v, adjTgt)` (Graph.h is not among the
sources): a new edge from the node `v` to the node of `adjTgt`, whose adjacency entries
come last in the rotation of `v` and right after `adjTgt` in the other rotation. -/
def Graph.newEdgeNodeAdj (g : Graph) (v : Nat) (adjTgt : AdjEntry) : Graph × Nat :=
  let e := g.freshEdge
  let adj1 := Function.update g.adjEntries v (g.adjEntries v ++ [⟨e, true⟩])
  let adj2 := Function.update adj1 (g.theNode adjTgt)
    (insertAfter adjTgt ⟨e, false⟩ (adj1 (g.theNode adjTgt)))
  ({ g with
      edges := g.edges ++ [e]
      source := Function.update g.source e v
      target := Function.update g.target e (g.theNode adjTgt)
      adjEntries := adj2 }, e)

/-- Modelled from the spec: `Graph::moveTarget(e, w)` (Graph.h is not among the sources):
`w` becomes the target of `e`; the adjacency entry of that end leaves the rotation of the
old target and comes last in the rotation of `w`. -/
def Graph.moveTarget (g : Graph) (e w : Nat) : Graph :=
  let adj1 := Function.update g.adjEntries (g.target e)
    ((g.adjEntries (g.target e)).erase ⟨e, false⟩)
  { g with
    target := Function.update g.target e w
    adjEntries := Function.update adj1 w (adj1 w ++ [⟨e, false⟩]) }

/-- Modelled from the spec: `Graph::moveSource(e, w)` (Graph.h is not among the sources):
`w` becomes the source of `e`; the adjacency entry of that end leaves the rotation of the
old source and comes last in the rotation of `w`. -/
def Graph.moveSource (g : Graph) (e w : Nat) : Graph :=
  let adj1 := Function.update g.adjEntries (g.source e)
    ((g.adjEntries (g.source e)).erase ⟨e, true⟩)
  { g with
    source := Function.update g.source e w
    adjEntries := Function.update adj1 w (adj1 w ++ [⟨e, true⟩]) }

/-- The part of the state of a `PlanRepUML` that the three methods read and write: the
graph itself and the arrays and lists of `PlanRep` and `PlanRepUML`.  `m_primaryGen` is
the primary type kept in `m_edgeTypes`, which `isGeneralization` reads. -/
structure PlanRep where
  G : Graph
  m_vType : Nat → NodeType
  m_eType : Nat → EdgeType
  m_primaryGen : Nat → Bool
  m_expansion : Nat → Bool
  m_expansionEdge : Nat → Int
  m_expandedNode : Nat → Option Nat
  m_expandAdj : Nat → Option AdjEntry
  m_faceSplitter : Nat → Bool
  m_mergeEdges : List Nat
  m_incMergers : Nat → List Nat

/-- Modelled from the spec: `PlanRep::newNode()` (PlanRep.h is not among the sources): a
new node of the graph, at which the arrays hold their initial values. -/
def PlanRep.newNode (s : PlanRep) : PlanRep × Nat :=
  ({ s with
      G := s.G.newNode.1
      m_vType := Function.update s.m_vType s.G.freshNode NodeType.dummy
      m_expandedNode := Function.update s.m_expandedNode s.G.freshNode none
      m_expandAdj := Function.update s.m_expandAdj s.G.freshNode none }, s.G.freshNode)

/-- The arrays over the edges hold their initial values at the new edge `e`. -/
def PlanRep.initEdge (s : PlanRep) (g : Graph) (e : Nat) : PlanRep :=
  { s with
    G := g
    m_eType := Function.update s.m_eType e EdgeType.association
    m_primaryGen := Function.update s.m_primaryGen e false
    m_expansion := Function.update s.m_expansion e false
    m_expansionEdge := Function.update s.m_expansionEdge e 0
    m_faceSplitter := Function.update s.m_faceSplitter e false }

/-- Modelled from the spec: `PlanRep::newEdge(adjSrc, adjTgt)` (PlanRep.h is not among the
sources): a new edge of the graph, at which the arrays hold their initial values. -/
def PlanRep.newEdgeAdj (s : PlanRep) (adjSrc adjTgt : AdjEntry) : PlanRep × Nat :=
  (s.initEdge (s.G.newEdgeAdj adjSrc adjTgt).1 s.G.freshEdge, s.G.freshEdge)

/-- Modelled from the spec: `PlanRep::newEdge(v, adjTgt)` (PlanRep.h is not among the
sources): a new edge of the graph, at which the arrays hold their initial values. -/
def PlanRep.newEdgeNodeAdj (s : PlanRep) (v : Nat) (adjTgt : AdjEntry) : PlanRep × Nat :=
  (s.initEdge (s.G.newEdgeNodeAdj v adjTgt).1 s.G.freshEdge, s.G.freshEdge)

/-- `typeOf(v)` for a node. -/
def PlanRep.typeOfNode (s : PlanRep) (v : Nat) : NodeType := s.m_vType v

/-- `typeOf(e)` for an edge. -/
def PlanRep.typeOfEdge (s : PlanRep) (e : Nat) : EdgeType := s.m_eType e

/-- Modelled from the spec: `isGeneralization(e)` (PlanRep.h is not among the sources):
the primary type of `e` is generalization. -/
def PlanRep.isGeneralization (s : PlanRep) (e : Nat) : Bool := s.m_primaryGen e

/-- Modelled from the spec: `setGeneralization(e)` (PlanRep.h is not among the sources):
the primary type of `e` becomes generalization, and so does `typeOf(e)`. -/
def PlanRep.setGeneralization (s : PlanRep) (e : Nat) : PlanRep :=
  { s with
    m_primaryGen := Function.update s.m_primaryGen e true
    m_eType := Function.update s.m_eType e EdgeType.generalization }

/-- Modelled from the spec: `setAssociation(e)` (PlanRep.h is not among the sources): the
primary type of `e` becomes association, and so does `typeOf(e)`. -/
def PlanRep.setAssociation (s : PlanRep) (e : Nat) : PlanRep :=
  { s with
    m_primaryGen := Function.update s.m_primaryGen e false
    m_eType := Function.update s.m_eType e EdgeType.association }

/-- Modelled from the spec: `setExpansion(e)` (PlanRep.h is not among the sources). -/
def PlanRep.setExpansion (s : PlanRep) (e : Nat) : PlanRep :=
  { s with m_expansion := Function.update s.m_expansion e true }

/-- Modelled from the spec: `setExpansionEdge(e, k)` (PlanRep.h is not among the
sources). -/
def PlanRep.setExpansionEdge (s : PlanRep) (e : Nat) (k : Int) : PlanRep :=
  { s with m_expansionEdge := Function.update s.m_expansionEdge e k }

/-- Modelled from the spec: `setExpandedNode(v, w)` (PlanRep.h is not among the
sources). -/
def PlanRep.setExpandedNode (s : PlanRep) (v w : Nat) : PlanRep :=
  { s with m_expandedNode := Function.update s.m_expandedNode v (some w) }

/-- The assignment `typeOf(v) = t` for a node. -/
def PlanRep.setTypeOfNode (s : PlanRep) (v : Nat) (t : NodeType) : PlanRep :=
  { s with m_vType := Function.update s.m_vType v t }

/-- The assignment `typeOf(e) = t` for an edge. -/
def PlanRep.setTypeOfEdge (s : PlanRep) (e : Nat) (t : EdgeType) : PlanRep :=
  { s with m_eType := Function.update s.m_eType e t }

/-- `moveTarget(e, w)` on the graph of the state. -/
def PlanRep.moveTarget (s : PlanRep) (e w : Nat) : PlanRep :=
  { s with G := s.G.moveTarget e w }

/-- `moveSource(e, w)` on the graph of the state. -/
def PlanRep.moveSource (s : PlanRep) (e w : Nat) : PlanRep :=
  { s with G := s.G.moveSource e w }

end PlanRepUML

namespace PlanRepUML

open PQPlanarityComponents (AdjEntry)

/-! ## `expand` -/

/-- The edges of the adjacency entries of `v`, in the order of the rotation. -/
def PlanRep.edgesAt (s : PlanRep) (v : Nat) : List Nat :=
  (s.G.adjEntries v).map (fun a => a.theEdge)

/-- The two loops of the merger branch of `expand` that fill `inGens`: the first puts in
the edges into `v` that come after an edge out of `v`, the second the edges into `v`
before the first edge out of `v`.  The first loop asserts that every edge at `v` is a
generalization. -/
def collectInGens (s : PlanRep) (v : Nat) : Option (List Nat) :=
  if (s.edgesAt v).all (fun e => decide (s.typeOfEdge e = EdgeType.generalization)) then
    some (((s.edgesAt v).foldl
        (fun (st : Bool × List Nat) e =>
          if s.G.target e ≠ v then (true, st.2)
          else if st.1 then (st.1, st.2 ++ [e])
          else st)
        (false, [])).2 ++
      (s.edgesAt v).takeWhile (fun e => decide (s.G.target e = v)))
  else none

/-- The loop `for (int i = 0; i < v->degree() - 1; i++)` that creates the expanders: `k`
new nodes of type `t` with expanded node `v`, appended to the list `expander`. -/
def createExpanders (t : NodeType) (v : Nat) : Nat → PlanRep → List Nat → PlanRep × List Nat
  | 0, s, expander => (s, expander)
  | k + 1, s, expander =>
    createExpanders t v k
      (((s.newNode.1).setTypeOfNode s.newNode.2 t).setExpandedNode s.newNode.2 v)
      (expander ++ [s.newNode.2])

/-- The loop of the merger branch that moves the target of each edge of `inGens` to the
next node of `expander` (the iterator `itn`).  It asserts that the edge is an ingoing
generalization of `v` and that `itn` is valid. -/
def moveInGens (v : Nat) : List Nat → List Nat → PlanRep → Option PlanRep
  | [], _, s => some s
  | _ :: _, [], _ => none
  | e :: es, u :: us, s =>
    if s.G.target e = v ∧ s.typeOfEdge e = EdgeType.generalization then
      moveInGens v es us (s.moveTarget e u)
    else none

/-- One pass of the loop that introduces the new edges along the expanders: the edge
`newEdge(adjPrev, u->firstAdj())` is marked by `mark` and becomes `expandAdj(v)` if that
is still null. -/
def borderEdge (mark : PlanRep → Nat → PlanRep) (v : Nat) (s : PlanRep)
    (adjPrev adjTgt : AdjEntry) : PlanRep :=
  if (mark (s.newEdgeAdj adjPrev adjTgt).1 (s.newEdgeAdj adjPrev adjTgt).2).m_expandAdj v = none
  then
    { mark (s.newEdgeAdj adjPrev adjTgt).1 (s.newEdgeAdj adjPrev adjTgt).2 with
      m_expandAdj := Function.update
        (mark (s.newEdgeAdj adjPrev adjTgt).1 (s.newEdgeAdj adjPrev adjTgt).2).m_expandAdj v
        (some ⟨(s.newEdgeAdj adjPrev adjTgt).2, true⟩) }
  else mark (s.newEdgeAdj adjPrev adjTgt).1 (s.newEdgeAdj adjPrev adjTgt).2

/-- The loop that introduces the new edges along the expanders: for each expander `u` the
edge `newEdge(adjPrev, u->firstAdj())`, then `adjPrev = u->firstAdj()`. -/
def closeFaceLoop (mark : PlanRep → Nat → PlanRep) (v : Nat) :
    List Nat → Option AdjEntry → PlanRep → Option (PlanRep × Option AdjEntry)
  | [], adjPrev, s => some (s, adjPrev)
  | u :: us, adjPrev, s =>
    match adjPrev, s.G.firstAdj u with
    | some ap, some fu =>
      closeFaceLoop mark v us ((borderEdge mark v s ap fu).G.firstAdj u)
        (borderEdge mark v s ap fu)
    | _, _ => none

/-- The border of the new face: the loop over the expanders, started with
`adjPrev = v->firstAdj()`, and the last edge `newEdge(adjPrev, v->lastAdj())`, marked by
`markLast`. -/
def closeFace (mark markLast : PlanRep → Nat → PlanRep) (v : Nat) (expander : List Nat)
    (s : PlanRep) : Option PlanRep :=
  match closeFaceLoop mark v expander (s.G.firstAdj v) s with
  | some (s1, some ap) =>
    match s1.G.lastAdj v with
    | some la => some (markLast (s1.newEdgeAdj ap la).1 (s1.newEdgeAdj ap la).2)
    | none => none
  | _ => none

/-- The branch of `expand` for a node of type `generalizationMerger`. -/
def expandMerger (s : PlanRep) (v : Nat) : Option PlanRep :=
  match collectInGens s v with
  | none => none
  | some inGens =>
    match moveInGens v inGens
        (createExpanders NodeType.generalizationExpander v (s.G.degree v - 1)
          (s.setExpandedNode v v) []).2
        (createExpanders NodeType.generalizationExpander v (s.G.degree v - 1)
          (s.setExpandedNode v v) []).1 with
    | none => none
    | some s3 =>
      closeFace (fun r e => (r.setExpansion e).setGeneralization e)
        (fun r e => (r.setExpansion e).setGeneralization e) v
        (createExpanders NodeType.generalizationExpander v (s.G.degree v - 1)
          (s.setExpandedNode v v) []).2 s3

/-- The loop that counts the generalizations at `v` in `detect`: 0, 1, or 2 for more. -/
def detectGens (s : PlanRep) (v : Nat) : Nat :=
  (s.edgesAt v).foldl
    (fun detect e =>
      if detect = 0 ∧ s.typeOfEdge e = EdgeType.generalization then 1
      else if s.typeOfEdge e = EdgeType.generalization then 2
      else detect)
    0

/-- The super sink check `while (typeOf(e) == generalization) { adjEdges.pushBack(e);
e = adjEdges.popFrontRet(); }`; `fuel` bounds the number of tests of the condition. -/
def superSink (s : PlanRep) : Nat → Nat → List Nat → Option (Nat × List Nat)
  | 0, _, _ => none
  | fuel + 1, e, adjEdges =>
    if s.typeOfEdge e = EdgeType.generalization then
      match adjEdges ++ [e] with
      | [] => none
      | e' :: rest => superSink s fuel e' rest
    else some (e, adjEdges)

/-- The loop of the two cage branches that moves each edge of `adjEdges` from `v` to the
next node of `expander` (the iterator `itn`, asserted to be valid), and puts that node
into `genNodes` if the edge is a generalization. -/
def moveAdjEdges (v : Nat) :
    List Nat → List Nat → PlanRep → List Nat → Option (PlanRep × List Nat)
  | [], _, s, genNodes => some (s, genNodes)
  | _ :: _, [], _, _ => none
  | e :: es, u :: us, s, genNodes =>
    moveAdjEdges v es us
      (if s.G.source e = v then s.moveSource e u else s.moveTarget e u)
      (if s.typeOfEdge e = EdgeType.generalization then genNodes ++ [u] else genNodes)

/-- The end of the two cage branches: with two nodes `u`, `w` in `genNodes`, the edge
`newEdge(u->firstAdj()->succ(), w->firstAdj()->succ())` becomes a face splitter. -/
def splitFace (s : PlanRep) (genNodes : List Nat) : Option PlanRep :=
  match genNodes with
  | [u, w] =>
    match (s.G.firstAdj u).bind s.G.succ, (s.G.firstAdj w).bind s.G.succ with
    | some a, some b =>
      some { (s.newEdgeAdj a b).1 with
        m_faceSplitter := Function.update (s.newEdgeAdj a b).1.m_faceSplitter
          (s.newEdgeAdj a b).2 true }
    | _, _ => none
  | _ => some s

/-- The part of the two cage branches after the first edge has been chosen: `e` stays at
`v`, the edges of `adjEdges` move to new nodes of type `highDegreeExpander`, the border of
the face is closed and the face is split if two nodes have a generalization. -/
def buildCage (mark markLast : PlanRep → Nat → PlanRep) (s : PlanRep) (v e : Nat)
    (adjEdges : List Nat) : Option PlanRep :=
  match moveAdjEdges v adjEdges
      (createExpanders NodeType.highDegreeExpander v (s.G.degree v - 1)
        (s.setExpandedNode v v) []).2
      (createExpanders NodeType.highDegreeExpander v (s.G.degree v - 1)
        (s.setExpandedNode v v) []).1
      (if s.typeOfEdge e = EdgeType.generalization then [v] else []) with
  | none => none
  | some (s4, genNodes) =>
    if genNodes.length ≤ 2 then
      match closeFace mark markLast v
          (createExpanders NodeType.highDegreeExpander v (s.G.degree v - 1)
            (s.setExpandedNode v v) []).2 s4 with
      | none => none
      | some s5 => splitFace s5 genNodes
    else none

/-- The branch of `expand` for a node of degree at least 4 when `lowDegreeExpand` is
false. -/
def expandHighDegree (fuel : Nat) (s : PlanRep) (v : Nat) : Option PlanRep :=
  if s.G.degree v = 4 ∧ detectGens s v < 2 then some s
  else
    match (s.setTypeOfNode v NodeType.highDegreeExpander).edgesAt v with
    | [] => none
    | e0 :: rest =>
      match superSink (s.setTypeOfNode v NodeType.highDegreeExpander) fuel e0 rest with
      | none => none
      | some (e, adjEdges) =>
        buildCage
          (fun r e =>
            ((((r.setExpansionEdge e 2).setExpansion e).setAssociation e).setTypeOfEdge e
              EdgeType.association))
          (fun r e =>
            (((r.setTypeOfEdge e EdgeType.association).setExpansionEdge e 2).setAssociation e))
          (s.setTypeOfNode v NodeType.highDegreeExpander) v e adjEdges

/-- The branch of `expand` for a node of degree at least 2 when `lowDegreeExpand` is
true. -/
def expandLowDegree (s : PlanRep) (v : Nat) : Option PlanRep :=
  match (s.setTypeOfNode v NodeType.highDegreeExpander).edgesAt v with
  | [] => none
  | e :: adjEdges =>
    buildCage
      (fun r e =>
        ((((r.setTypeOfEdge e EdgeType.association).setExpansionEdge e 2).setAssociation e).setExpansion
          e))
      (fun r e => ((r.setTypeOfEdge e EdgeType.association).setExpansionEdge e 2))
      (s.setTypeOfNode v NodeType.highDegreeExpander) v e adjEdges

/-- The body of the node loop of `expand` for the node `v`. -/
def expandNode (lowDegreeExpand : Bool) (fuel : Nat) (s : PlanRep) (v : Nat) : Option PlanRep :=
  if s.typeOfNode v = NodeType.generalizationMerger then expandMerger s v
  else if 4 ≤ s.G.degree v ∧ s.typeOfNode v ≠ NodeType.dummy ∧ lowDegreeExpand = false then
    expandHighDegree fuel s v
  else if 2 ≤ s.G.degree v ∧ s.typeOfNode v ≠ NodeType.dummy ∧ lowDegreeExpand = true then
    expandLowDegree s v
  else some s

/-- The first `n` passes of the node loop `for (node v : nodes)` of `expand`, which
follows the list `nodes` as it grows: the result is the position in `nodes` that the loop
has reached and the state; the loop has ended when the position is the length of
`nodes`. -/
def expandSteps (lowDegreeExpand : Bool) (fuel : Nat) :
    Nat → Nat → PlanRep → Option (Nat × PlanRep)
  | 0, pos, s => some (pos, s)
  | n + 1, pos, s =>
    match s.G.nodes.get? pos with
    | none => some (pos, s)
    | some v =>
      match expandNode lowDegreeExpand fuel s v with
      | none => none
      | some s1 => expandSteps lowDegreeExpand fuel n (pos + 1) s1

/-- The method `expand(lowDegreeExpand)`: `none` when `fuel` passes of the node loop do not
end it (or when a run ends on an assertion). -/
def expand (lowDegreeExpand : Bool) (fuel : Nat) (s : PlanRep) : Option PlanRep :=
  match expandSteps lowDegreeExpand fuel fuel 0 s with
  | some (pos, s1) => if pos = s1.G.nodes.length then some s1 else none
  | none => none

end PlanRepUML

namespace PlanRepUML

open PQPlanarityComponents (AdjEntry)

/-! ## `insertGenMerger` and `prepareIncrementalMergers` -/

/-- The two operations of the class `CombinatorialEmbedding` that `insertGenMerger` calls
(ogdf/basic/CombinatorialEmbedding.h is not among the sources): `rightFace(adj)`, which
reads the embedding, and `updateMerger(e, fRight, fLeft)`, which changes the embedding
only.  A face is its index. -/
structure EmbOps (Emb : Type) where
  rightFace : Emb → AdjEntry → Nat
  updateMerger : Emb → Nat → Nat → Nat → Emb

/-- The method `insertGenMerger(v, inGens, E)`: the returned node (or null), the new
state and the new embedding. -/
def insertGenMerger {Emb : Type} (ops : EmbOps Emb) (s : PlanRep) (_v : Nat)
    (inGens : List Nat) (E : Emb) : Option Nat × PlanRep × Emb :=
  if s.G.empty then (none, s, E)
  else
    match inGens with
    | front :: second :: rest =>
      let u := s.newNode.2
      let s1 := s.newNode.1.setTypeOfNode u NodeType.generalizationMerger
      let back := rest.getLastD second
      let fRight := ops.rightFace E ⟨front, true⟩
      let fLeft := ops.rightFace E ⟨back, false⟩
      let eMerge := (s1.newEdgeNodeAdj u ⟨back, false⟩).2
      let s2 := (s1.newEdgeNodeAdj u ⟨back, false⟩).1.setTypeOfEdge eMerge EdgeType.generalization
      let s3 := { s2 with m_mergeEdges := s2.m_mergeEdges ++ [eMerge] }
      (some u, (front :: second :: rest).foldl (fun r e => r.moveTarget e u) s3,
        ops.updateMerger E eMerge fRight fLeft)
    | _ => (none, s, E)

/-- `cyclicPred` on the positions of a rotation with `n` entries. -/
def posPred (n p : Nat) : Nat := if p = 0 then n - 1 else p - 1

/-- `cyclicSucc` on the positions of a rotation with `n` entries. -/
def posSucc (n p : Nat) : Nat := if p + 1 = n then 0 else p + 1

/-- The edge of the adjacency entry at position `p` of the rotation of `v`. -/
def PlanRep.edgeAt (s : PlanRep) (v p : Nat) : Nat :=
  match (s.G.adjEntries v).get? p with
  | some a => a.theEdge
  | none => 0

/-- The test `e->target() == v && isGeneralization(e)` for the edge at position `p` of the
rotation of `v`. -/
def PlanRep.inGenAt (s : PlanRep) (v p : Nat) : Bool :=
  decide (s.G.target (s.edgeAt v p) = v) && s.isGeneralization (s.edgeAt v p)

/-- The loop that runs back from the first adjacency entry (position 0, which is also
`stopAdj`) while the entry is an ingoing generalization and its predecessor is not
`stopAdj`.  An adjacency entry of `v` is its position in the rotation. -/
def findStart (s : PlanRep) (v : Nat) : Nat → Nat → Option Nat
  | 0, _ => none
  | fuel + 1, ad1 =>
    if posPred (s.G.degree v) ad1 ≠ 0 ∧ s.inGenAt v ad1 = true then
      findStart s v fuel (posPred (s.G.degree v) ad1)
    else some ad1

/-- The loop that changes a sequence into associations: from position `p` on, while the
edge is an ingoing generalization of `v`. -/
def changeSeq (v : Nat) : Nat → Nat → PlanRep → Option PlanRep
  | 0, _, _ => none
  | fuel + 1, p, s =>
    if s.inGenAt v p = true then
      changeSeq v fuel (posSucc (s.G.degree v) p) (s.setAssociation (s.edgeAt v p))
    else some s

/-- The local variables of the scan of one node, and the state. -/
structure Scan where
  maxSeq : Int
  maxSeqRun : Int
  maxSeqAdj : Option Nat
  runSeqAdj : Option Nat
  rep : PlanRep

/-- The body of the scan loop for the adjacency entry at position `ad`. -/
def scanBody (fuel : Nat) (v : Nat) (st : Scan) (ad : Nat) : Option Scan :=
  if st.rep.inGenAt v ad = true then
    if st.maxSeqRun = 0 then
      some { st with runSeqAdj := some ad, maxSeqAdj := some ad, maxSeqRun := st.maxSeqRun + 1 }
    else some { st with maxSeqRun := st.maxSeqRun + 1 }
  else
    match (if st.maxSeqRun > st.maxSeq then
        (if st.maxSeqAdj ≠ st.runSeqAdj then st.maxSeqAdj else none)
      else (if st.maxSeqRun ≠ 0 then st.runSeqAdj else none)) with
    | some changeAdj =>
      (changeSeq v fuel changeAdj st.rep).map (fun r =>
        if st.maxSeqRun > st.maxSeq then
          { st with maxSeq := st.maxSeqRun, maxSeqAdj := st.runSeqAdj, rep := r, maxSeqRun := 0 }
        else { st with rep := r, maxSeqRun := 0 })
    | none =>
      if st.maxSeqRun > st.maxSeq then
        some { st with maxSeq := st.maxSeqRun, maxSeqAdj := st.runSeqAdj, maxSeqRun := 0 }
      else some { st with maxSeqRun := 0 }

/-- The scan loop `while (ad != ad1)`. -/
def scanLoop (v ad1 : Nat) : Nat → Nat → Scan → Option Scan
  | 0, _, _ => none
  | fuel + 1, ad, st =>
    if ad = ad1 then some st
    else
      match scanBody (st.rep.G.degree v + 1) v st ad with
      | none => none
      | some st1 => scanLoop v ad1 fuel (posSucc (st.rep.G.degree v) ad) st1

/-- The loop that collects the best sequence in `inGens`, from `maxSeqAdj` on. -/
def collectSeq (s : PlanRep) (v maxSeqAdj : Nat) : Nat → Nat → List Nat → Option (List Nat)
  | 0, _, _ => none
  | fuel + 1, runAdj, inGens =>
    if s.inGenAt v runAdj = true then
      if posSucc (s.G.degree v) runAdj = maxSeqAdj then some (inGens ++ [s.edgeAt v runAdj])
      else collectSeq s v maxSeqAdj fuel (posSucc (s.G.degree v) runAdj)
        (inGens ++ [s.edgeAt v runAdj])
    else some inGens

/-- The scan of the rotation of one node `v` in `prepareIncrementalMergers`: the state
with the changed edge types and the list `inGens` that is handed to `insertGenMerger`
(`none` in its place when `maxSeqAdj` stays null and `insertGenMerger` is not called). -/
def scanNode (s : PlanRep) (v : Nat) : Option (PlanRep × Option (List Nat)) :=
  match findStart s v (s.G.degree v + 1) 0 with
  | none => none
  | some ad1 =>
    match scanLoop v ad1 (s.G.degree v + 1) (posSucc (s.G.degree v) ad1)
        ⟨0, 0, none, none, s⟩ with
    | none => none
    | some st =>
      match st.maxSeqAdj with
      | none => some (st.rep, none)
      | some m =>
        match collectSeq st.rep v m (s.G.degree v + 1) m [] with
        | none => none
        | some inGens => some (st.rep, some inGens)

/-- The body of the node loop of `prepareIncrementalMergers(indexCC, E)` for the node
`v`. -/
def prepareNode {Emb : Type} (ops : EmbOps Emb) (indexCC : Nat) (s : PlanRep) (E : Emb)
    (v : Nat) : Option (PlanRep × Emb) :=
  if s.G.degree v < 2 then some (s, E)
  else if s.typeOfNode v = NodeType.generalizationMerger then some (s, E)
  else
    match scanNode s v with
    | none => none
    | some (s1, none) => some (s1, E)
    | some (s1, some inGens) =>
      match insertGenMerger ops s1 v inGens E with
      | (some newMerger, s2, E2) =>
        some ({ s2 with
          m_incMergers := Function.update s2.m_incMergers indexCC
            (s2.m_incMergers indexCC ++ [newMerger]) }, E2)
      | (none, s2, E2) => some (s2, E2)

/-- The node loop of `prepareIncrementalMergers(indexCC, E)`, which follows the list
`nodes` as it grows; `none` when `fuel` passes do not end it. -/
def prepareLoop {Emb : Type} (ops : EmbOps Emb) (indexCC : Nat) :
    Nat → Nat → PlanRep → Emb → Option (PlanRep × Emb)
  | 0, _, _, _ => none
  | fuel + 1, pos, s, E =>
    match s.G.nodes.get? pos with
    | none => some (s, E)
    | some v =>
      match prepareNode ops indexCC s E v with
      | none => none
      | some (s1, E1) => prepareLoop ops indexCC fuel (pos + 1) s1 E1

/-- The method `prepareIncrementalMergers(indexCC, E)`. -/
def prepareIncrementalMergers {Emb : Type} (ops : EmbOps Emb) (fuel : Nat) (indexCC : Nat)
    (s : PlanRep) (E : Emb) : Option (PlanRep × Emb) :=
  prepareLoop ops indexCC fuel 0 s E

end PlanRepUML

namespace PlanRepUML

open PQPlanarityComponents (AdjEntry)

/-! ## Example states -/

/-- A state over the given graph: `source`, `target` and `rot` list the end nodes of the
edges 0, 1, ... and the rotations of the nodes 0, 1, ...; the edges of `gens` are
generalizations, the others associations; every node has type `vertex`, and nothing has
been expanded or merged. -/
def Examples.rep (nodes edges source target : List Nat) (rot : List (List AdjEntry))
    (gens : List Nat) : PlanRep :=
  { G := ⟨nodes, edges, fun e => source.getD e 0, fun e => target.getD e 0,
      fun v => rot.getD v []⟩
    m_vType := fun _ => NodeType.vertex
    m_eType := fun e => if e ∈ gens then EdgeType.generalization else EdgeType.association
    m_primaryGen := fun e => decide (e ∈ gens)
    m_expansion := fun _ => false
    m_expansionEdge := fun _ => 0
    m_expandedNode := fun _ => none
    m_expandAdj := fun _ => none
    m_faceSplitter := fun _ => false
    m_mergeEdges := []
    m_incMergers := fun _ => [] }

/-- The node 0 with the two associations 0 (to node 1) and 1 (to node 2). -/
def Examples.twoAssociations : PlanRep :=
  Examples.rep [0, 1, 2] [0, 1] [0, 0] [1, 2]
    [[⟨0, true⟩, ⟨1, true⟩], [⟨0, false⟩], [⟨1, false⟩]] []

/-- The node 0 with the rotation: association 0 (to node 1), generalization 1 (from node
2), association 2 (to node 3), generalization 3 (from node 4). -/
def Examples.twoRuns : PlanRep :=
  Examples.rep [0, 1, 2, 3, 4] [0, 1, 2, 3] [0, 2, 0, 4] [1, 0, 3, 0]
    [[⟨0, true⟩, ⟨1, false⟩, ⟨2, true⟩, ⟨3, false⟩], [⟨0, false⟩], [⟨1, true⟩], [⟨2, false⟩],
      [⟨3, true⟩]] [1, 3]

/-- The node 0 with the rotation: association 0 (to node 1), generalizations 1 and 2
(from the nodes 2 and 3), association 3 (to node 4), generalization 4 (from node 5). -/
def Examples.longRunFirst : PlanRep :=
  Examples.rep [0, 1, 2, 3, 4, 5] [0, 1, 2, 3, 4] [0, 2, 3, 0, 5] [1, 0, 0, 4, 0]
    [[⟨0, true⟩, ⟨1, false⟩, ⟨2, false⟩, ⟨3, true⟩, ⟨4, false⟩], [⟨0, false⟩], [⟨1, true⟩],
      [⟨2, true⟩], [⟨3, false⟩], [⟨4, true⟩]] [1, 2, 4]

/-- The merger node 0 with the generalizations 0, 1, 3 (from the nodes 1, 2, 4) into it and
the generalization 2 out of it (to node 3), in this order in the rotation. -/
def Examples.merger : PlanRep :=
  { Examples.rep [0, 1, 2, 3, 4] [0, 1, 2, 3] [1, 2, 0, 4] [0, 0, 3, 0]
      [[⟨0, false⟩, ⟨1, false⟩, ⟨2, true⟩, ⟨3, false⟩], [⟨0, true⟩], [⟨1, true⟩], [⟨2, false⟩],
        [⟨3, true⟩]] [0, 1, 2, 3] with
    m_vType := fun v => if v = 0 then NodeType.generalizationMerger else NodeType.vertex }

/-- The node 0 of degree 5 with the generalizations 0 and 1 (from the nodes 1 and 2) first
in its rotation, then the associations 2, 3, 4 (to the nodes 3, 4, 5). -/
def Examples.highDegree : PlanRep :=
  Examples.rep [0, 1, 2, 3, 4, 5] [0, 1, 2, 3, 4] [1, 2, 0, 0, 0] [0, 0, 3, 4, 5]
    [[⟨0, false⟩, ⟨1, false⟩, ⟨2, true⟩, ⟨3, true⟩, ⟨4, true⟩], [⟨0, true⟩], [⟨1, true⟩],
      [⟨2, false⟩], [⟨3, false⟩], [⟨4, false⟩]] [0, 1]

/-- An embedding stand-in: the embedding is a counter of the calls of `updateMerger`. -/
def Examples.ops : EmbOps Nat := ⟨fun _ _ => 0, fun E _ _ _ => E + 1⟩

end PlanRepUML

/-! # Theorems -/

namespace PQPlanarityComponents

/-! ## Graphs: neighbours, labels and connectivity -/

/-- Two graphs with the same nodes, edges and rotations are the same graph. -/
theorem Graph.ext_fields {g h : Graph} (h1 : g.nodes = h.nodes) (h2 : g.edges = h.edges)
    (h3 : ∀ m, g.adjEntries m = h.adjEntries m) : g = h := by
  cases g; cases h
  simp only [Graph.mk.injEq] at *
  exact ⟨h1, h2, funext h3⟩

/-- The neighbours of `c` are the nodes adjacent to `c`. -/
theorem Graph.mem_neighbours (g : Graph) (b c : Nat) : b ∈ g.neighbours c ↔ g.Adj b c := by
  unfold Graph.neighbours Graph.Adj
  rw [List.mem_filterMap]
  constructor
  · rintro ⟨e, he, h⟩
    refine ⟨e, he, ?_⟩
    by_cases h1 : e.source = c
    · rw [if_pos h1] at h
      exact Or.inr ⟨h1, Option.some.inj h⟩
    · rw [if_neg h1] at h
      by_cases h2 : e.target = c
      · rw [if_pos h2] at h
        exact Or.inl ⟨Option.some.inj h, h2⟩
      · rw [if_neg h2] at h
        exact absurd h (by simp)
  · rintro ⟨e, he, h | h⟩
    · refine ⟨e, he, ?_⟩
      by_cases h1 : e.source = c
      · rw [if_pos h1, h.2, ← h1, h.1]
      · rw [if_neg h1, if_pos h.2, h.1]
    · exact ⟨e, he, by rw [if_pos h.1, h.2]⟩

/-- A list without repetition whose members all equal `b`, and which has `b`, is `[b]`. -/
theorem List.eq_singleton_of_nodup {l : List Nat} {b : Nat} (hn : l.Nodup) (hb : b ∈ l)
    (hall : ∀ x ∈ l, x = b) : l = [b] := by
  match l, hn, hb, hall with
  | [x], _, _, hall => rw [hall x (by simp)]
  | x :: y :: t, hn, _, hall =>
    have hx := hall x (by simp)
    have hy := hall y (by simp)
    rw [List.nodup_cons] at hn
    exact absurd (by rw [hx, hy]; simp) hn.1

/-- A relation whose steps all lie in the closure of another one has its closure there
too. -/
theorem reflTransGen_of_steps {r r' : Nat → Nat → Prop}
    (H : ∀ x y, r x y → Relation.ReflTransGen r' x y) {u v : Nat}
    (h : Relation.ReflTransGen r u v) : Relation.ReflTransGen r' u v := by
  induction h with
  | refl => exact Relation.ReflTransGen.refl
  | tail _ hbc ih => exact ih.trans (H _ _ hbc)

/-- After the labels have been merged along the pairs `ps`, two nodes have one label
exactly when a chain of steps leads from one to the other, each step joining two nodes
that had one label before or that are joined by a pair. -/
theorem mergeLabels_eq_iff {α : Type} [DecidableEq α] (ps : List (Nat × Nat))
    (lbl : Nat → α) (u v : Nat) :
    mergeLabels ps lbl u = mergeLabels ps lbl v ↔
      Relation.ReflTransGen (fun x y => lbl x = lbl y ∨ AdjP ps x y) u v := by
  induction ps generalizing lbl with
  | nil =>
    constructor
    · intro h
      exact Relation.ReflTransGen.single (Or.inl h)
    · intro h
      induction h with
      | refl => rfl
      | tail _ hbc ih =>
        rcases hbc with hbc | hbc
        · exact ih.trans hbc
        · simp [AdjP] at hbc
  | cons p ps ih =>
    have hstep : mergeLabels (p :: ps) lbl = mergeLabels ps (mergeLabel lbl p.1 p.2) := rfl
    rw [hstep, ih]
    constructor
    · refine reflTransGen_of_steps ?_
      rintro x y (h | h)
      · unfold mergeLabel at h
        have hab : Relation.ReflTransGen (fun x y => lbl x = lbl y ∨ AdjP (p :: ps) x y)
            p.1 p.2 := Relation.ReflTransGen.single (Or.inr (Or.inl (by simp)))
        have hba : Relation.ReflTransGen (fun x y => lbl x = lbl y ∨ AdjP (p :: ps) x y)
            p.2 p.1 := Relation.ReflTransGen.single (Or.inr (Or.inr (by simp)))
        have one : ∀ a b, lbl a = lbl b →
            Relation.ReflTransGen (fun x y => lbl x = lbl y ∨ AdjP (p :: ps) x y) a b :=
          fun a b hab => Relation.ReflTransGen.single (Or.inl hab)
        by_cases hx : lbl x = lbl p.2 <;> by_cases hy : lbl y = lbl p.2
        · exact one _ _ (hx.trans hy.symm)
        · rw [if_pos hx, if_neg hy] at h
          exact ((one _ _ hx).trans hba).trans (one _ _ h)
        · rw [if_neg hx, if_pos hy] at h
          exact ((one _ _ h).trans hab).trans (one _ _ hy.symm)
        · rw [if_neg hx, if_neg hy] at h
          exact one _ _ h
      · refine Relation.ReflTransGen.single (Or.inr ?_)
        rcases h with h | h
        · exact Or.inl (List.mem_cons_of_mem _ h)
        · exact Or.inr (List.mem_cons_of_mem _ h)
    · refine reflTransGen_of_steps ?_
      have hp : mergeLabel lbl p.1 p.2 p.1 = mergeLabel lbl p.1 p.2 p.2 := by
        unfold mergeLabel
        by_cases h : lbl p.1 = lbl p.2 <;> simp [h]
      rintro x y (h | h | h)
      · refine Relation.ReflTransGen.single (Or.inl ?_)
        unfold mergeLabel
        rw [h]
      · rcases List.mem_cons.1 h with h | h
        · refine Relation.ReflTransGen.single (Or.inl ?_)
          subst h
          exact hp
        · exact Relation.ReflTransGen.single (Or.inr (Or.inl h))
      · rcases List.mem_cons.1 h with h | h
        · refine Relation.ReflTransGen.single (Or.inl ?_)
          subst h
          exact hp.symm
        · exact Relation.ReflTransGen.single (Or.inr (Or.inr h))

/-- Every label after merging is a label that some node had before. -/
theorem mergeLabels_range {α : Type} [DecidableEq α] (ps : List (Nat × Nat))
    (lbl : Nat → α) (x : Nat) : ∃ y, mergeLabels ps lbl x = lbl y := by
  induction ps generalizing lbl with
  | nil => exact ⟨x, rfl⟩
  | cons p ps ih =>
    obtain ⟨y, hy⟩ := ih (mergeLabel lbl p.1 p.2)
    have hstep : mergeLabels (p :: ps) lbl = mergeLabels ps (mergeLabel lbl p.1 p.2) := rfl
    rw [hstep, hy]
    unfold mergeLabel
    by_cases h : lbl y = lbl p.2
    · exact ⟨p.1, by rw [if_pos h]⟩
    · exact ⟨y, by rw [if_neg h]⟩

/-- Being joined by a pair of end nodes is being adjacent. -/
theorem Graph.adjP_ends (g : Graph) (x y : Nat) : AdjP g.ends x y ↔ g.Adj x y := by
  unfold AdjP Graph.ends Graph.Adj
  simp only [List.mem_map, Prod.mk.injEq]
  constructor
  · rintro (⟨e, he, h⟩ | ⟨e, he, h⟩)
    · exact ⟨e, he, Or.inl h⟩
    · exact ⟨e, he, Or.inr h⟩
  · rintro ⟨e, he, h | h⟩
    · exact Or.inl ⟨e, he, h⟩
    · exact Or.inr ⟨e, he, h⟩

/-- The component labels of a graph are equal at two nodes exactly when the nodes are
connected. -/
theorem Graph.labels_eq_iff (g : Graph) (u v : Nat) :
    g.labels u = g.labels v ↔ g.Connected u v := by
  unfold Graph.labels Graph.Connected
  rw [mergeLabels_eq_iff]
  constructor
  · refine reflTransGen_of_steps ?_
    rintro x y (h | h)
    · rw [show x = y from h]
    · exact Relation.ReflTransGen.single ((g.adjP_ends x y).1 h)
  · refine reflTransGen_of_steps ?_
    intro x y h
    exact Relation.ReflTransGen.single (Or.inr ((g.adjP_ends x y).2 h))

/-- Adjacency is symmetric. -/
theorem Graph.adj_symm (g : Graph) {x y : Nat} (h : g.Adj x y) : g.Adj y x := by
  obtain ⟨e, he, h⟩ := h
  exact ⟨e, he, h.symm⟩

/-- Being connected is symmetric. -/
theorem Graph.connected_symm (g : Graph) {u v : Nat} (h : g.Connected u v) :
    g.Connected v u := by
  induction h with
  | refl => exact Relation.ReflTransGen.refl
  | tail _ hbc ih => exact Relation.ReflTransGen.head (g.adj_symm hbc) ih

/-- A node with a neighbour has positive degree. -/
theorem Graph.degree_pos_of_adj (g : Graph) {x v : Nat} (h : g.Adj x v) : 0 < g.degree v := by
  obtain ⟨e, he, h | h⟩ := h
  · have : e ∈ g.edges.filter (fun e => e.target = v) :=
      List.mem_filter.2 ⟨he, by simp [h.2]⟩
    have := List.length_pos_of_mem this
    unfold Graph.degree
    omega
  · have : e ∈ g.edges.filter (fun e => e.source = v) :=
      List.mem_filter.2 ⟨he, by simp [h.1]⟩
    have := List.length_pos_of_mem this
    unfold Graph.degree
    omega

/-- A node of degree zero is connected to itself only. -/
theorem Graph.eq_of_connected_of_degree_zero (g : Graph) {u v : Nat}
    (h : g.Connected u v) (hd : g.degree u = 0 ∨ g.degree v = 0) : u = v := by
  rcases hd with hd | hd
  · rcases Relation.ReflTransGen.cases_head h with h | ⟨c, hc, -⟩
    · exact h
    · have := g.degree_pos_of_adj (g.adj_symm hc)
      omega
  · rcases Relation.ReflTransGen.cases_tail h with h | ⟨c, -, hc⟩
    · exact h.symm
    · have := g.degree_pos_of_adj hc
      omega

/-- Adjacency in an induced subgraph: adjacency in the graph between two kept nodes. -/
theorem Graph.induce_adj (g : Graph) (keep : Nat → Bool) (u v : Nat) :
    (g.induce keep).Adj u v ↔ g.Adj u v ∧ keep u = true ∧ keep v = true := by
  unfold Graph.Adj Graph.induce
  simp only [List.mem_filter, Bool.and_eq_true]
  constructor
  · rintro ⟨e, ⟨he, hs, ht⟩, h | h⟩
    · exact ⟨⟨e, he, Or.inl h⟩, by rw [← h.1]; exact hs, by rw [← h.2]; exact ht⟩
    · exact ⟨⟨e, he, Or.inr h⟩, by rw [← h.2]; exact ht, by rw [← h.1]; exact hs⟩
  · rintro ⟨⟨e, he, h | h⟩, hu, hv⟩
    · exact ⟨e, ⟨he, by rw [h.1]; exact hu, by rw [h.2]; exact hv⟩, Or.inl h⟩
    · exact ⟨e, ⟨he, by rw [h.1]; exact hv, by rw [h.2]; exact hu⟩, Or.inr h⟩

/-- A graph whose nodes are pairwise connected has at most one connected component. -/
theorem Graph.numComponents_le_one (g : Graph)
    (h : ∀ u ∈ g.nodes, ∀ v ∈ g.nodes, g.Connected u v) : g.numComponents ≤ 1 := by
  unfold Graph.numComponents
  have hall : ∀ x ∈ (g.nodes.map g.labels).dedup, ∀ y ∈ (g.nodes.map g.labels).dedup,
      x = y := by
    intro x hx y hy
    obtain ⟨u, hu, rfl⟩ := List.mem_map.1 (List.mem_dedup.1 hx)
    obtain ⟨v, hv, rfl⟩ := List.mem_map.1 (List.mem_dedup.1 hy)
    exact (g.labels_eq_iff u v).2 (h u hu v hv)
  have hnd := List.nodup_dedup (g.nodes.map g.labels)
  match hl : (g.nodes.map g.labels).dedup, hall, hnd with
  | [], _, _ => simp
  | [_], _, _ => simp
  | x :: y :: t, hall, hnd =>
    have := hall x (by simp) y (by simp)
    rw [List.nodup_cons] at hnd
    exact absurd (by rw [this]; simp) hnd.1

/-- A graph with a node has at least one connected component. -/
theorem Graph.numComponents_pos (g : Graph) {n : Nat} (hn : n ∈ g.nodes) :
    0 < g.numComponents := by
  unfold Graph.numComponents
  exact List.length_pos_of_mem (List.mem_dedup.2 (List.mem_map.2 ⟨n, hn, rfl⟩))

/-- The fresh index is above exactly the bounds that are above every node. -/
theorem Graph.freshIndex_le_iff (g : Graph) (m : Nat) :
    g.freshIndex ≤ m ↔ ∀ x ∈ g.nodes, x < m := by
  unfold Graph.freshIndex
  induction g.nodes with
  | nil => simp
  | cons a l ih =>
    simp only [List.foldr_cons, max_le_iff, ih, List.mem_cons, forall_eq_or_imp]
    constructor
    · rintro ⟨h1, h2⟩
      exact ⟨by omega, h2⟩
    · rintro ⟨h1, h2⟩
      exact ⟨by omega, h2⟩

/-- Every node is below the fresh index. -/
theorem Graph.lt_freshIndex (g : Graph) {x : Nat} (hx : x ∈ g.nodes) : x < g.freshIndex :=
  (g.freshIndex_le_iff g.freshIndex).1 le_rfl x hx

/-! ## The example graphs -/

/-- Adding edges one after the other keeps the nodes and appends the pairs of ends. -/
theorem Examples.foldl_newEdge_spec (ps : List (Nat × Nat)) (g : Graph) :
    (ps.foldl (fun g p => g.newEdge p.1 p.2) g).nodes = g.nodes ∧
    (ps.foldl (fun g p => g.newEdge p.1 p.2) g).ends = g.ends ++ ps := by
  induction ps generalizing g with
  | nil => simp
  | cons p ps ih =>
    obtain ⟨h1, h2⟩ := ih (g.newEdge p.1 p.2)
    simp only [List.foldl_cons]
    refine ⟨by rw [h1]; rfl, ?_⟩
    rw [h2]
    simp [Graph.ends, Graph.newEdge]

/-- In the cycle on `k` nodes, the nodes are `0, ..., k-1` and `i` is adjacent to
`(i + 1) % k`. -/
theorem Examples.cycle_spec (k : Nat) :
    (Examples.cycle k).nodes = List.range k ∧
    ∀ u v, (Examples.cycle k).Adj u v ↔
      (u < k ∧ v = (u + 1) % k) ∨ (v < k ∧ u = (v + 1) % k) := by
  obtain ⟨h1, h2⟩ := Examples.foldl_newEdge_spec
    ((List.range k).map (fun i => (i, (i + 1) % k))) ⟨List.range k, [], fun _ => []⟩
  refine ⟨h1, fun u v => ?_⟩
  rw [← Graph.adjP_ends]
  unfold Examples.cycle Examples.ofEdges AdjP
  rw [h2]
  simp only [Graph.ends, List.map_nil, List.nil_append, List.mem_map, List.mem_range,
    Prod.mk.injEq]
  constructor
  · rintro (⟨i, hi, rfl, rfl⟩ | ⟨i, hi, rfl, rfl⟩)
    · exact Or.inl ⟨hi, rfl⟩
    · exact Or.inr ⟨hi, rfl⟩
  · rintro (⟨hu, rfl⟩ | ⟨hv, rfl⟩)
    · exact Or.inl ⟨u, hu, rfl, rfl⟩
    · exact Or.inr ⟨v, hv, rfl, rfl⟩

/-- All nodes of a cycle are connected. -/
theorem Examples.cycle_connected (k : Nat) {u v : Nat} (hu : u < k) (hv : v < k) :
    (Examples.cycle k).Connected u v := by
  have h0 : ∀ m, m < k → (Examples.cycle k).Connected 0 m := by
    intro m
    induction m with
    | zero => exact fun _ => Relation.ReflTransGen.refl
    | succ m ih =>
      intro hm
      refine (ih (by omega)).tail (((Examples.cycle_spec k).2 m (m + 1)).2 (Or.inl ⟨by omega, ?_⟩))
      rw [Nat.mod_eq_of_lt hm]
  exact ((Examples.cycle k).connected_symm (h0 u hu)).trans (h0 v hv)

/-- Removing a node from a cycle leaves a graph whose nodes are pairwise connected. -/
theorem Examples.cycle_removeNode_connected (k n : Nat) (hn : n < k) :
    ∀ u ∈ (((Examples.cycle k).componentOf n).removeNode n).nodes,
    ∀ v ∈ (((Examples.cycle k).componentOf n).removeNode n).nodes,
      (((Examples.cycle k).componentOf n).removeNode n).Connected u v := by
  -- the nodes and the adjacency of the graph that is left
  have hnodes : ∀ u, u ∈ (((Examples.cycle k).componentOf n).removeNode n).nodes →
      u < k ∧ u ≠ n ∧ (Examples.cycle k).labels u = (Examples.cycle k).labels n := by
    intro u hu
    simp only [Graph.removeNode, Graph.componentOf, Graph.induce, List.mem_filter,
      decide_eq_true_eq, (Examples.cycle_spec k).1, List.mem_range] at hu
    exact ⟨hu.1.1, hu.2, hu.1.2⟩
  have hadj : ∀ u v, (Examples.cycle k).Adj u v → u < k → v < k → n < k → u ≠ n → v ≠ n →
      (((Examples.cycle k).componentOf n).removeNode n).Adj u v := by
    intro u v h hu hv hn hun hvn
    unfold Graph.removeNode Graph.componentOf
    rw [Graph.induce_adj, Graph.induce_adj]
    simp only [decide_eq_true_eq]
    exact ⟨⟨h, ((Examples.cycle k).labels_eq_iff u n).2 (Examples.cycle_connected k hu hn),
      ((Examples.cycle k).labels_eq_iff v n).2 (Examples.cycle_connected k hv hn)⟩, hun, hvn⟩
  -- a run of consecutive nodes without `n` is connected
  have hseg : ∀ j a, n < k → a + j < k → (∀ i, a ≤ i → i ≤ a + j → i ≠ n) →
      (((Examples.cycle k).componentOf n).removeNode n).Connected a (a + j) := by
    intro j
    induction j with
    | zero => exact fun _ _ _ _ => Relation.ReflTransGen.refl
    | succ j ih =>
      intro a hn hlt hne
      refine (ih a hn (by omega) (fun i h1 h2 => hne i h1 (by omega))).tail ?_
      refine hadj (a + j) (a + (j + 1)) ?_ (by omega) hlt hn (hne _ (by omega) (by omega))
        (hne _ (by omega) (by omega))
      refine ((Examples.cycle_spec k).2 _ _).2 (Or.inl ⟨by omega, ?_⟩)
      rw [Nat.mod_eq_of_lt (by omega)]
      omega
  intro u hu v hv
  obtain ⟨hu1, hu2, -⟩ := hnodes u hu
  obtain ⟨hv1, hv2, -⟩ := hnodes v hv
  -- below `n` every node is connected to 0, above `n` to `k - 1`
  have lo : ∀ w, w < n → (((Examples.cycle k).componentOf n).removeNode n).Connected 0 w := by
    intro w hw
    have := hseg w 0 hn (by omega) (fun i _ _ => by omega)
    rwa [Nat.zero_add] at this
  have hi : ∀ w, n < w → w < k →
      (((Examples.cycle k).componentOf n).removeNode n).Connected w (k - 1) := by
    intro w hw hwk
    have := hseg (k - 1 - w) w hn (by omega) (fun i _ _ => by omega)
    rwa [show w + (k - 1 - w) = k - 1 by omega] at this
  have wrap : 0 < n → n < k - 1 →
      (((Examples.cycle k).componentOf n).removeNode n).Connected (k - 1) 0 := by
    intro h0 h1
    refine Relation.ReflTransGen.single (hadj (k - 1) 0 ?_ (by omega) (by omega) hn
      (by omega) (by omega))
    refine ((Examples.cycle_spec k).2 _ _).2 (Or.inl ⟨by omega, ?_⟩)
    rw [show k - 1 + 1 = k by omega, Nat.mod_self]
  rcases Nat.lt_or_gt_of_ne hu2 with hun | hun <;> rcases Nat.lt_or_gt_of_ne hv2 with hvn | hvn
  · exact (Graph.connected_symm _ (lo u hun)).trans (lo v hvn)
  · exact ((Graph.connected_symm _ (lo u hun)).trans
      (Graph.connected_symm _ (wrap (by omega) (by omega)))).trans
      (Graph.connected_symm _ (hi v hvn hv1))
  · exact ((hi u hun hu1).trans (wrap (by omega) (by omega))).trans (lo v hvn)
  · exact (hi u hun hu1).trans (Graph.connected_symm _ (hi v hvn hv1))

/-- No node of a cycle is a cut vertex. -/
theorem Examples.cycle_not_cutVertex (s : Tracker) (k n : Nat) (hs : s.G = Examples.cycle k)
    (hn : n < k) : isCutVertex s n = false := by
  have h1 := Graph.numComponents_le_one _ (Examples.cycle_removeNode_connected k n hn)
  have h2 : 0 < ((Examples.cycle k).componentOf n).numComponents := by
    refine Graph.numComponents_pos _ (n := n) ?_
    simp only [Graph.componentOf, Graph.induce, List.mem_filter, decide_eq_true_eq,
      (Examples.cycle_spec k).1, List.mem_range]
    exact ⟨hn, trivial⟩
  unfold isCutVertex nodeType
  rw [hs, if_neg (by omega)]
  rfl

/-- The BC-tree given for the path A-B-C-D with an isolated node is valid for it. -/
theorem Examples.pathBC_validFor : Examples.pathBC.ValidFor Examples.pathAndNode := by
  have hp : ∀ n t, Examples.pathBC.bcproper n = some t →
      (n = 0 ∧ t = 0) ∨ (n = 1 ∧ t = 3) ∨ (n = 2 ∧ t = 4) ∨ (n = 3 ∧ t = 2) := by
    intro n t h
    match n, h with
    | 0, h => exact Or.inl ⟨rfl, (Option.some.inj h).symm⟩
    | 1, h => exact Or.inr (Or.inl ⟨rfl, (Option.some.inj h).symm⟩)
    | 2, h => exact Or.inr (Or.inr (Or.inl ⟨rfl, (Option.some.inj h).symm⟩))
    | 3, h => exact Or.inr (Or.inr (Or.inr ⟨rfl, (Option.some.inj h).symm⟩))
    | n + 4, h => exact absurd h (by simp [Examples.pathBC])
  refine ⟨by decide, by decide, ?_, ?_, ?_⟩
  · intro n hn hdeg
    have hn' : n = 0 ∨ n = 1 ∨ n = 2 ∨ n = 3 ∨ n = 4 := by
      simpa [Examples.pathAndNode, Examples.ofEdges, Graph.newEdge] using hn
    rcases hn' with rfl | rfl | rfl | rfl | rfl
    · exact ⟨0, rfl⟩
    · exact ⟨3, rfl⟩
    · exact ⟨4, rfl⟩
    · exact ⟨2, rfl⟩
    · exact absurd hdeg (by decide)
  · intro n t h
    rcases hp n t h with ⟨-, rfl⟩ | ⟨-, rfl⟩ | ⟨-, rfl⟩ | ⟨-, rfl⟩ <;> decide
  · intro u _ v _ t t' hu hv'
    rw [← Graph.labels_eq_iff, ← Graph.labels_eq_iff]
    rcases hp u t hu with ⟨rfl, rfl⟩ | ⟨rfl, rfl⟩ | ⟨rfl, rfl⟩ | ⟨rfl, rfl⟩ <;>
      rcases hp v t' hv' with ⟨rfl, rfl⟩ | ⟨rfl, rfl⟩ | ⟨rfl, rfl⟩ | ⟨rfl, rfl⟩ <;> decide

/-! ## Building the tracker: `insert` and `labelIsolatedNodes` -/

/-- The first step of `insert`, over a list of nodes without repetition: the graph and
`g_bc` stay, the counter advances by the number of nodes, and the new BC-tree nodes get
pairwise different ids between the old and the new value of the counter. -/
theorem foldl_insertNode_spec (tmp : BCTree) (off : Nat) (l : List Nat) (hl : l.Nodup)
    (s : Tracker) :
    (l.foldl (insertNode tmp off) s).G = s.G ∧
    (l.foldl (insertNode tmp off) s).g_bc = s.g_bc ∧
    (l.foldl (insertNode tmp off) s).conn_next_id = s.conn_next_id + l.length ∧
    (l.foldl (insertNode tmp off) s).BC.nodes = s.BC.nodes ++ l.map (fun t => off + t) ∧
    (∀ x, (∀ t ∈ l, x ≠ off + t) →
      (l.foldl (insertNode tmp off) s).bc_conn_id x = s.bc_conn_id x) ∧
    (∀ t ∈ l, s.conn_next_id ≤ (l.foldl (insertNode tmp off) s).bc_conn_id (off + t) ∧
      (l.foldl (insertNode tmp off) s).bc_conn_id (off + t) <
        (l.foldl (insertNode tmp off) s).conn_next_id) ∧
    (∀ t ∈ l, ∀ u ∈ l, (l.foldl (insertNode tmp off) s).bc_conn_id (off + t) =
      (l.foldl (insertNode tmp off) s).bc_conn_id (off + u) → t = u) := by
  induction l generalizing s with
  | nil => simp
  | cons a l ih =>
    rw [List.nodup_cons] at hl
    obtain ⟨h1, h2, h3, h4, h5, h6, h7⟩ := ih hl.2 (insertNode tmp off s a)
    have ha : (l.foldl (insertNode tmp off) (insertNode tmp off s a)).bc_conn_id (off + a) =
        s.conn_next_id := by
      rw [h5 (off + a) (fun t ht h => hl.1 (by rw [show a = t by omega]; exact ht))]
      simp [insertNode]
    have hn : (insertNode tmp off s a).conn_next_id = s.conn_next_id + 1 := rfl
    rw [hn] at h3 h6
    simp only [List.foldl_cons]
    refine ⟨by rw [h1]; rfl, by rw [h2]; rfl, ?_, ?_, ?_, ?_, ?_⟩
    · rw [h3]; simp only [List.length_cons]; push_cast; ring
    · rw [h4]; simp [insertNode, Graph.newNode]
    · intro x hx
      rw [h5 x (fun t ht => hx t (List.mem_cons_of_mem _ ht))]
      have := hx a (List.mem_cons_self _ _)
      simp [insertNode, Function.update_noteq this]
    · intro t ht
      rcases List.mem_cons.1 ht with ht | ht
      · rw [ht, ha, h3]
        constructor <;> omega
      · have := h6 t ht
        exact ⟨by omega, this.2⟩
    · intro t ht u hu h
      rcases List.mem_cons.1 ht with ht | ht <;> rcases List.mem_cons.1 hu with hu | hu
      · rw [ht, hu]
      · have := (h6 u hu).1
        rw [ht, ha] at h
        omega
      · have := (h6 t ht).1
        rw [hu, ha] at h
        omega
      · exact h7 t ht u hu h

/-- The second step of `insert` merges the ids along the copied edges and leaves the
graph, `g_bc`, the counter and the nodes of the BC-tree alone. -/
theorem foldl_insertEdge_spec (off : Nat) (es : List EdgeElement) (s : Tracker) :
    (es.foldl (insertEdge off) s).G = s.G ∧
    (es.foldl (insertEdge off) s).g_bc = s.g_bc ∧
    (es.foldl (insertEdge off) s).conn_next_id = s.conn_next_id ∧
    (es.foldl (insertEdge off) s).BC.nodes = s.BC.nodes ∧
    (es.foldl (insertEdge off) s).bc_conn_id =
      mergeLabels (es.map (fun e => (off + e.source, off + e.target))) s.bc_conn_id := by
  induction es generalizing s with
  | nil => exact ⟨rfl, rfl, rfl, rfl, rfl⟩
  | cons e es ih =>
    obtain ⟨h1, h2, h3, h4, h5⟩ := ih (insertEdge off s e)
    simp only [List.foldl_cons]
    exact ⟨by rw [h1]; rfl, by rw [h2]; rfl, by rw [h3]; rfl, by rw [h4]; rfl, by rw [h5]; rfl⟩

/-- The third step of `insert` sets `g_bc` at the listed nodes that the BC-tree covers and
leaves the graph, the ids, the counter and the BC-tree alone. -/
theorem foldl_insertMap_spec (tmp : BCTree) (off : Nat) (l : List Nat) (s : Tracker) :
    (l.foldl (insertMap tmp off) s).G = s.G ∧
    (l.foldl (insertMap tmp off) s).BC = s.BC ∧
    (l.foldl (insertMap tmp off) s).conn_next_id = s.conn_next_id ∧
    (l.foldl (insertMap tmp off) s).bc_conn_id = s.bc_conn_id ∧
    (∀ n, (l.foldl (insertMap tmp off) s).g_bc n =
      if n ∈ l ∧ tmp.bcproper n ≠ none then (tmp.bcproper n).map (fun t => off + t)
      else s.g_bc n) := by
  induction l generalizing s with
  | nil => simp
  | cons a l ih =>
    obtain ⟨h1, h2, h3, h4, h5⟩ := ih (insertMap tmp off s a)
    have hs : (insertMap tmp off s a).G = s.G ∧ (insertMap tmp off s a).BC = s.BC ∧
        (insertMap tmp off s a).conn_next_id = s.conn_next_id ∧
        (insertMap tmp off s a).bc_conn_id = s.bc_conn_id ∧
        ∀ n, (insertMap tmp off s a).g_bc n =
          if n = a ∧ tmp.bcproper n ≠ none then (tmp.bcproper n).map (fun t => off + t)
          else s.g_bc n := by
      unfold insertMap
      cases hp : tmp.bcproper a with
      | none =>
        refine ⟨rfl, rfl, rfl, rfl, fun n => ?_⟩
        by_cases hn : n = a
        · subst hn; simp [hp]
        · simp [hn]
      | some t =>
        refine ⟨rfl, rfl, rfl, rfl, fun n => ?_⟩
        by_cases hn : n = a
        · subst hn; simp [hp]
        · simp [hn, Function.update_noteq hn]
    simp only [List.foldl_cons]
    refine ⟨by rw [h1, hs.1], by rw [h2, hs.2.1], by rw [h3, hs.2.2.1], by rw [h4, hs.2.2.2.1],
      fun n => ?_⟩
    rw [h5 n, hs.2.2.2.2 n]
    by_cases hna : n = a
    · subst hna
      by_cases hp : tmp.bcproper n = none <;> simp [hp]
    · simp [hna]

/-- What `insert` does to a tracker in which every id in use is below the counter: the
graph stays; `g_bc` is set at the nodes of the graph that the BC-tree covers; two copied
BC-tree nodes get one id exactly when they are connected in the fresh BC-tree; every id
stays below the counter; the copied nodes are nodes of the tracked BC-tree. -/
theorem insert_spec (s : Tracker) (tmp : BCTree) (hnd : tmp.bcTree.nodes.Nodup)
    (hends : ∀ e ∈ tmp.bcTree.edges,
      e.source ∈ tmp.bcTree.nodes ∧ e.target ∈ tmp.bcTree.nodes)
    (hold : ∀ x, s.bc_conn_id x < s.conn_next_id) :
    (insert s tmp).G = s.G ∧
    (∀ n, (insert s tmp).g_bc n =
      if n ∈ s.G.nodes ∧ tmp.bcproper n ≠ none
      then (tmp.bcproper n).map (fun t => s.BC.freshIndex + t) else s.g_bc n) ∧
    (∀ t ∈ tmp.bcTree.nodes, ∀ u ∈ tmp.bcTree.nodes,
      (insert s tmp).bc_conn_id (s.BC.freshIndex + t) =
        (insert s tmp).bc_conn_id (s.BC.freshIndex + u) ↔ tmp.bcTree.Connected t u) ∧
    (∀ x, (insert s tmp).bc_conn_id x < (insert s tmp).conn_next_id) ∧
    (∀ t ∈ tmp.bcTree.nodes, s.BC.freshIndex + t < (insert s tmp).BC.freshIndex) := by
  obtain ⟨a1, a2, a3, a4, a5, a6, a7⟩ :=
    foldl_insertNode_spec tmp s.BC.freshIndex tmp.bcTree.nodes hnd s
  obtain ⟨b1, b2, b3, b4, b5⟩ := foldl_insertEdge_spec s.BC.freshIndex tmp.bcTree.edges
    (tmp.bcTree.nodes.foldl (insertNode tmp s.BC.freshIndex) s)
  obtain ⟨c1, c2, c3, c4, c5⟩ := foldl_insertMap_spec tmp s.BC.freshIndex s.G.nodes
    (tmp.bcTree.edges.foldl (insertEdge s.BC.freshIndex)
      (tmp.bcTree.nodes.foldl (insertNode tmp s.BC.freshIndex) s))
  have hins : insert s tmp = s.G.nodes.foldl (insertMap tmp s.BC.freshIndex)
    (tmp.bcTree.edges.foldl (insertEdge s.BC.freshIndex)
      (tmp.bcTree.nodes.foldl (insertNode tmp s.BC.freshIndex) s)) := rfl
  rw [hins]
  generalize s.BC.freshIndex = off at *
  generalize tmp.bcTree.nodes.foldl (insertNode tmp off) s = s1 at *
  generalize tmp.bcTree.edges.foldl (insertEdge off) s1 = s2 at *
  generalize s.G.nodes.foldl (insertMap tmp off) s2 = s3 at *
  -- every id after the first step is below the counter
  have hlt1 : ∀ x, s1.bc_conn_id x < s1.conn_next_id := by
    intro x
    by_cases hx : ∃ t ∈ tmp.bcTree.nodes, x = off + t
    · obtain ⟨t, ht, rfl⟩ := hx
      exact (a6 t ht).2
    · rw [a5 x (fun t ht h => hx ⟨t, ht, h⟩), a3]
      have := hold x
      omega
  refine ⟨by rw [c1, b1, a1], ?_, ?_, ?_, ?_⟩
  · intro n
    rw [c5 n, b2, a2]
  · intro t ht u hu
    rw [c4, b5, mergeLabels_eq_iff]
    constructor
    · intro h
      have key : ∀ x y, Relation.ReflTransGen (fun x y => s1.bc_conn_id x = s1.bc_conn_id y ∨
          AdjP (tmp.bcTree.edges.map (fun e => (off + e.source, off + e.target))) x y) x y →
          ∀ t ∈ tmp.bcTree.nodes, x = off + t →
          ∃ v ∈ tmp.bcTree.nodes, y = off + v ∧ tmp.bcTree.Connected t v := by
        intro x y hxy
        induction hxy with
        | refl => exact fun t ht hx => ⟨t, ht, hx, Relation.ReflTransGen.refl⟩
        | @tail y z _ hbc ih =>
          intro t ht hx
          obtain ⟨v, hv, hy, hconn⟩ := ih t ht hx
          rcases hbc with hbc | hbc | hbc
          · by_cases hz : ∃ w ∈ tmp.bcTree.nodes, z = off + w
            · obtain ⟨w, hw, hz⟩ := hz
              rw [hy, hz] at hbc
              have := a7 v hv w hw hbc
              exact ⟨w, hw, hz, this ▸ hconn⟩
            · have h1 := a5 z (fun w hw h => hz ⟨w, hw, h⟩)
              have h2 := (a6 v hv).1
              have h3 := hold z
              rw [hy, h1] at hbc
              omega
          · obtain ⟨e, he, hpair⟩ := List.mem_map.1 hbc
            simp only [Prod.mk.injEq] at hpair
            have hsrc : e.source = v := by omega
            exact ⟨e.target, (hends e he).2, hpair.2.symm,
              hconn.tail ⟨e, he, Or.inl ⟨hsrc, rfl⟩⟩⟩
          · obtain ⟨e, he, hpair⟩ := List.mem_map.1 hbc
            simp only [Prod.mk.injEq] at hpair
            have htgt : e.target = v := by omega
            exact ⟨e.source, (hends e he).1, hpair.1.symm,
              hconn.tail ⟨e, he, Or.inr ⟨rfl, htgt⟩⟩⟩
      obtain ⟨v, _, hv, hconn⟩ := key _ _ h t ht rfl
      have : u = v := by omega
      rw [this]
      exact hconn
    · intro h
      refine Relation.ReflTransGen.lift (fun t => off + t) ?_ h
      rintro a b ⟨e, he, hab | hab⟩
      · refine Or.inr (Or.inl (List.mem_map.2 ⟨e, he, ?_⟩))
        rw [hab.1, hab.2]
      · refine Or.inr (Or.inr (List.mem_map.2 ⟨e, he, ?_⟩))
        rw [hab.1, hab.2]
  · intro x
    rw [c4, c3, b5, b3]
    obtain ⟨y, hy⟩ := mergeLabels_range
      (tmp.bcTree.edges.map (fun e => (off + e.source, off + e.target))) s1.bc_conn_id x
    rw [hy]
    exact hlt1 y
  · intro t ht
    refine Graph.lt_freshIndex _ ?_
    rw [c2, b4, a4]
    exact List.mem_append_right _ (List.mem_map.2 ⟨t, ht, rfl⟩)

/-- `connectedId` is undefined exactly at the nodes that `g_bc` maps to null. -/
theorem connectedId_eq_none (s : Tracker) (n : Nat) :
    connectedId s n = none ↔ s.g_bc n = none := by
  unfold connectedId bcConnectedId biconnectedComponent
  cases s.g_bc n <;> simp

/-- One step of `labelIsolatedNodes` on a tracker with its ids in range: the ids stay in
range, the graph stays, and `connectedId` changes only at a node that gets labelled, where it
becomes the old value of the counter, which then advances by one. -/
theorem labelIsolatedNode_spec (s : Tracker) (a : Nat) (hinv : s.IdsInRange) :
    (labelIsolatedNode s a).IdsInRange ∧ (labelIsolatedNode s a).G = s.G ∧
    (labelIsolatedNode s a).conn_next_id =
      (if s.G.degree a = 0 ∧ s.g_bc a = none then s.conn_next_id + 1 else s.conn_next_id) ∧
    (∀ m, connectedId (labelIsolatedNode s a) m =
      if (s.G.degree a = 0 ∧ s.g_bc a = none) ∧ m = a then some s.conn_next_id
      else connectedId s m) := by
  by_cases hc : s.G.degree a = 0 ∧ s.g_bc a = none
  · have hfresh : s.BC.freshIndex < (s.BC.newNode s.BC.freshIndex).freshIndex :=
      Graph.lt_freshIndex _ (by simp [Graph.newNode])
    have hs : labelIsolatedNode s a =
      { s with
        BC := s.BC.newNode s.BC.freshIndex
        bc_type := Function.update s.bc_type s.BC.freshIndex BNodeType.BComp
        bc_size := Function.update s.bc_size s.BC.freshIndex 1
        bc_conn_id := Function.update s.bc_conn_id s.BC.freshIndex s.conn_next_id
        bc_g := Function.update s.bc_g s.BC.freshIndex (some a)
        g_bc := Function.update s.g_bc a (some s.BC.freshIndex)
        conn_next_id := s.conn_next_id + 1
        conn_count := s.conn_count + 1 } := by
      unfold labelIsolatedNode
      rw [if_pos hc]
    rw [hs]
    refine ⟨?_, rfl, by rw [if_pos hc], fun m => ?_⟩
    · intro n b hb
      simp only at hb ⊢
      by_cases hn : n = a
      · subst hn
        rw [Function.update_same] at hb
        have hb' : s.BC.freshIndex = b := Option.some.inj hb
        subst hb'
        rw [Function.update_same]
        exact ⟨hfresh, by omega⟩
      · rw [Function.update_noteq hn] at hb
        obtain ⟨h1, h2⟩ := hinv n b hb
        rw [Function.update_noteq (by omega : b ≠ s.BC.freshIndex)]
        exact ⟨by omega, by omega⟩
    · unfold connectedId bcConnectedId biconnectedComponent
      simp only
      by_cases hm : m = a
      · subst hm
        simp [hc]
      · rw [Function.update_noteq hm, if_neg (fun h => hm h.2)]
        cases hg : s.g_bc m with
        | none => rfl
        | some b =>
          have := (hinv m b hg).1
          simp only [Option.map_some']
          rw [Function.update_noteq (by omega : b ≠ s.BC.freshIndex)]
  · have hs : labelIsolatedNode s a = s := by
      unfold labelIsolatedNode
      rw [if_neg hc]
    rw [hs]
    exact ⟨hinv, rfl, by rw [if_neg hc], fun m => by rw [if_neg (fun h => hc h.1)]⟩

/-- The loop of `labelIsolatedNodes` over a list of nodes, on a tracker with its ids in
range: ids that were defined stay; an unlabelled node of the list with degree zero gets an
id; the ids given out lie between the old and the new value of the counter and differ
from node to node. -/
theorem foldl_labelIsolatedNode_spec (l : List Nat) (s : Tracker) (hinv : s.IdsInRange) :
    (l.foldl labelIsolatedNode s).IdsInRange ∧
    (l.foldl labelIsolatedNode s).G = s.G ∧
    s.conn_next_id ≤ (l.foldl labelIsolatedNode s).conn_next_id ∧
    (∀ m i, connectedId s m = some i → connectedId (l.foldl labelIsolatedNode s) m = some i) ∧
    (∀ m, connectedId s m = none → m ∈ l → s.G.degree m = 0 →
      ∃ i, connectedId (l.foldl labelIsolatedNode s) m = some i) ∧
    (∀ m i, connectedId s m = none → connectedId (l.foldl labelIsolatedNode s) m = some i →
      s.conn_next_id ≤ i ∧ i < (l.foldl labelIsolatedNode s).conn_next_id) ∧
    (∀ m n i, connectedId s m = none → connectedId s n = none →
      connectedId (l.foldl labelIsolatedNode s) m = some i →
      connectedId (l.foldl labelIsolatedNode s) n = some i → m = n) := by
  induction l generalizing s with
  | nil =>
    refine ⟨hinv, rfl, le_rfl, fun m i h => h, ?_, ?_, ?_⟩
    · intro m _ hm
      exact absurd hm (List.not_mem_nil m)
    · intro m i h1 h2
      simp only [List.foldl_nil] at h2
      rw [h1] at h2
      exact absurd h2 (by simp)
    · intro m n i h1 _ h2
      simp only [List.foldl_nil] at h2
      rw [h1] at h2
      exact absurd h2 (by simp)
  | cons a l ih =>
    obtain ⟨s1, s2, s3, s4⟩ := labelIsolatedNode_spec s a hinv
    obtain ⟨h1, h2, h3, h4, h5, h6, h7⟩ := ih (labelIsolatedNode s a) s1
    simp only [List.foldl_cons]
    have hnext : s.conn_next_id ≤ (labelIsolatedNode s a).conn_next_id := by
      rw [s3]; split <;> omega
    -- what one step does to an undefined id
    have hnone : ∀ m, connectedId s m = none →
        connectedId (labelIsolatedNode s a) m = none ∨
        (m = a ∧ connectedId (labelIsolatedNode s a) m = some s.conn_next_id ∧
          (labelIsolatedNode s a).conn_next_id = s.conn_next_id + 1) := by
      intro m hm
      by_cases hc : (s.G.degree a = 0 ∧ s.g_bc a = none) ∧ m = a
      · exact Or.inr ⟨hc.2, by rw [s4 m, if_pos hc], by rw [s3, if_pos hc.1]⟩
      · exact Or.inl (by rw [s4 m, if_neg hc, hm])
    have hsome : ∀ m i, connectedId s m = some i →
        connectedId (labelIsolatedNode s a) m = some i := by
      intro m i hm
      rw [s4 m, if_neg, hm]
      rintro ⟨⟨-, hg⟩, rfl⟩
      rw [(connectedId_eq_none s m).2 hg] at hm
      exact absurd hm (by simp)
    refine ⟨h1, by rw [h2, s2], by omega, fun m i hm => h4 m i (hsome m i hm), ?_, ?_, ?_⟩
    · intro m hm hml hdeg
      rcases hnone m hm with hn | ⟨-, hn, -⟩
      · rcases List.mem_cons.1 hml with hma | hml
        · subst hma
          have hg := (connectedId_eq_none s m).1 hm
          rw [s4 m, if_pos ⟨⟨hdeg, hg⟩, rfl⟩] at hn
          exact absurd hn (by simp)
        · exact h5 m hn hml (by rw [s2]; exact hdeg)
      · exact ⟨_, h4 m _ hn⟩
    · intro m i hm hi
      rcases hnone m hm with hn | ⟨-, hn, hnx⟩
      · have := h6 m i hn hi
        exact ⟨by omega, this.2⟩
      · have := h4 m _ hn
        rw [this] at hi
        have hi' : s.conn_next_id = i := Option.some.inj hi
        exact ⟨by omega, by omega⟩
    · intro m n i hm hn him hin
      rcases hnone m hm with hm1 | ⟨hma, hm1, hmx⟩ <;>
        rcases hnone n hn with hn1 | ⟨hna, hn1, hnx⟩
      · exact h7 m n i hm1 hn1 him hin
      · have e1 := h4 n _ hn1
        rw [e1] at hin
        have := (h6 m i hm1 him).1
        have hi' : s.conn_next_id = i := Option.some.inj hin
        omega
      · have e1 := h4 m _ hm1
        rw [e1] at him
        have := (h6 n i hn1 hin).1
        have hi' : s.conn_next_id = i := Option.some.inj him
        omega
      · rw [hma, hna]

/-- The tracker after `insert` of a valid BC-tree into the freshly constructed tracker has
its ids in range, and `connectedId` is defined exactly at the covered nodes of the graph,
where it is the id of the copy of the BC-tree node. -/
theorem insert_construct_spec (g : Graph) (tmp : BCTree) (junk : Tracker)
    (hv : tmp.ValidFor g) :
    (insert (construct g junk) tmp).IdsInRange ∧
    (insert (construct g junk) tmp).G = g ∧
    (∀ n ∈ g.nodes, connectedId (insert (construct g junk) tmp) n =
      (tmp.bcproper n).map (fun t =>
        (insert (construct g junk) tmp).bc_conn_id ((construct g junk).BC.freshIndex + t))) := by
  have hold : ∀ x, (construct g junk).bc_conn_id x < (construct g junk).conn_next_id := by
    intro x
    simp [construct, reset, NodeArray.init]
  obtain ⟨a, b, -, d, e⟩ := insert_spec (construct g junk) tmp hv.nodup hv.ends_mem hold
  have hG : (construct g junk).G = g := rfl
  have hnone : ∀ n, (construct g junk).g_bc n = none := fun _ => rfl
  refine ⟨?_, by rw [a, hG], ?_⟩
  · intro n bn hn
    rw [b n, hnone n] at hn
    split at hn
    · cases hp : tmp.bcproper n with
      | none => rw [hp] at hn; exact absurd hn (by simp)
      | some t =>
        rw [hp] at hn
        have : (construct g junk).BC.freshIndex + t = bn := Option.some.inj hn
        rw [← this]
        exact ⟨e t (hv.proper_mem n t hp), d _⟩
    · exact absurd hn (by simp)
  · intro n hn
    unfold connectedId bcConnectedId biconnectedComponent
    rw [b n, hnone n, hG]
    cases hp : tmp.bcproper n with
    | none => simp
    | some t => simp [hn]

/-- After the tracker has been built with a valid BC-tree, `connectedId` is defined at
every node of the graph. -/
theorem build_connectedId_defined (g : Graph) (tmp : BCTree) (junk : Tracker)
    (hv : tmp.ValidFor g) :
    ∀ n ∈ g.nodes, ∃ i, connectedId (build g tmp junk) n = some i := by
  obtain ⟨hinv, hG, hcid⟩ := insert_construct_spec g tmp junk hv
  obtain ⟨-, -, -, h4, h5, -, -⟩ :=
    foldl_labelIsolatedNode_spec (insert (construct g junk) tmp).G.nodes
      (insert (construct g junk) tmp) hinv
  have hb : build g tmp junk = (insert (construct g junk) tmp).G.nodes.foldl labelIsolatedNode
      (insert (construct g junk) tmp) := rfl
  rw [← hb] at h4 h5
  rw [hG] at h5
  intro n hn
  cases hp : tmp.bcproper n with
  | none =>
    have h3 : connectedId (insert (construct g junk) tmp) n = none := by
      rw [hcid n hn, hp]; rfl
    refine h5 n h3 hn ?_
    by_contra hne
    obtain ⟨t, ht⟩ := hv.covered n hn (by omega)
    rw [hp] at ht
    exact absurd ht (by simp)
  | some t =>
    refine ⟨(insert (construct g junk) tmp).bc_conn_id ((construct g junk).BC.freshIndex + t),
      h4 n _ ?_⟩
    rw [hcid n hn, hp]
    rfl

/-- The nodes of the tracked BC-tree after `insert` of a BC-tree without repeated nodes:
the old nodes, then the copies of the nodes of the fresh BC-tree. -/
theorem insert_BC_nodes (s : Tracker) (tmp : BCTree) (hnd : tmp.bcTree.nodes.Nodup) :
    (insert s tmp).BC.nodes =
      s.BC.nodes ++ tmp.bcTree.nodes.map (fun t => s.BC.freshIndex + t) := by
  obtain ⟨-, -, -, a4, -, -, -⟩ :=
    foldl_insertNode_spec tmp s.BC.freshIndex tmp.bcTree.nodes hnd s
  obtain ⟨-, -, -, b4, -⟩ := foldl_insertEdge_spec s.BC.freshIndex tmp.bcTree.edges
    (tmp.bcTree.nodes.foldl (insertNode tmp s.BC.freshIndex) s)
  obtain ⟨-, c2, -, -, -⟩ := foldl_insertMap_spec tmp s.BC.freshIndex s.G.nodes
    (tmp.bcTree.edges.foldl (insertEdge s.BC.freshIndex)
      (tmp.bcTree.nodes.foldl (insertNode tmp s.BC.freshIndex) s))
  show (s.G.nodes.foldl (insertMap tmp s.BC.freshIndex)
    (tmp.bcTree.edges.foldl (insertEdge s.BC.freshIndex)
      (tmp.bcTree.nodes.foldl (insertNode tmp s.BC.freshIndex) s))).BC.nodes = _
  rw [c2, b4, a4]

/-- One step of `labelIsolatedNodes` keeps every value of `g_bc` among the nodes of the
tracked BC-tree. -/
theorem labelIsolatedNode_g_bc_mem (s : Tracker) (a : Nat)
    (h : ∀ n b, s.g_bc n = some b → b ∈ s.BC.nodes) :
    ∀ n b, (labelIsolatedNode s a).g_bc n = some b → b ∈ (labelIsolatedNode s a).BC.nodes := by
  unfold labelIsolatedNode
  split
  · intro n b hb
    simp only at hb ⊢
    by_cases hn : n = a
    · subst hn
      rw [Function.update_same] at hb
      have hb' : s.BC.freshIndex = b := Option.some.inj hb
      subst hb'
      simp [Graph.newNode]
    · rw [Function.update_noteq hn] at hb
      simp [Graph.newNode, h n b hb]
  · exact h

/-- The loop of `labelIsolatedNodes` keeps every value of `g_bc` among the nodes of the
tracked BC-tree. -/
theorem foldl_labelIsolatedNode_g_bc_mem (l : List Nat) (s : Tracker)
    (h : ∀ n b, s.g_bc n = some b → b ∈ s.BC.nodes) :
    ∀ n b, (l.foldl labelIsolatedNode s).g_bc n = some b →
      b ∈ (l.foldl labelIsolatedNode s).BC.nodes := by
  induction l generalizing s with
  | nil => exact h
  | cons a l ih => exact ih (labelIsolatedNode s a) (labelIsolatedNode_g_bc_mem s a h)

/-- In the tracker built for a graph with a valid BC-tree, every value of `g_bc` is a node
of the tracked BC-tree. -/
theorem build_g_bc_mem (g : Graph) (tmp : BCTree) (junk : Tracker) (hv : tmp.ValidFor g) :
    ∀ n b, (build g tmp junk).g_bc n = some b → b ∈ (build g tmp junk).BC.nodes := by
  have hold : ∀ x, (construct g junk).bc_conn_id x < (construct g junk).conn_next_id := by
    intro x
    simp [construct, reset, NodeArray.init]
  obtain ⟨-, hg, -, -, -⟩ := insert_spec (construct g junk) tmp hv.nodup hv.ends_mem hold
  have hnodes := insert_BC_nodes (construct g junk) tmp hv.nodup
  have hnone : ∀ n, (construct g junk).g_bc n = none := fun _ => rfl
  refine foldl_labelIsolatedNode_g_bc_mem _ _ ?_
  intro n b hb
  rw [hg n, hnone n] at hb
  split at hb
  · cases hp : tmp.bcproper n with
    | none => rw [hp] at hb; exact absurd hb (by simp)
    | some t =>
      rw [hp] at hb
      have hb' : (construct g junk).BC.freshIndex + t = b := Option.some.inj hb
      rw [hnodes, ← hb']
      exact List.mem_append_right _ (List.mem_map.2 ⟨t, hv.proper_mem n t hp, rfl⟩)
  · exact absurd hb (by simp)

/-! ## Restoring a biconnected isolation -/

/-- Restoring the rotations from a snapshot leaves nodes and edges alone and makes the
rotation at every listed node the recorded one. -/
theorem foldl_sort_spec (snap : Nat → List AdjEntry) (l : List Nat) (g : Graph) :
    (l.foldl (fun g n => g.sort n (snap n)) g).nodes = g.nodes ∧
    (l.foldl (fun g n => g.sort n (snap n)) g).edges = g.edges ∧
    ∀ m, (l.foldl (fun g n => g.sort n (snap n)) g).adjEntries m =
      if m ∈ l then snap m else g.adjEntries m := by
  induction l generalizing g with
  | nil => simp
  | cons a l ih =>
    obtain ⟨h1, h2, h3⟩ := ih (g.sort a (snap a))
    refine ⟨by simpa [Graph.sort] using h1, by simpa [Graph.sort] using h2, fun m => ?_⟩
    rw [List.foldl_cons, h3 m]
    by_cases hm : m ∈ l
    · simp [hm]
    · by_cases hma : m = a
      · subst hma; simp [hm, Graph.sort]
      · simp [hm, hma, Graph.sort, Function.update_noteq hma]

/-- Restoring the rotations twice from one snapshot is the same as restoring them once. -/
theorem foldl_sort_idem (snap : Nat → List AdjEntry) (l : List Nat) (g : Graph) :
    l.foldl (fun g n => g.sort n (snap n)) (l.foldl (fun g n => g.sort n (snap n)) g) =
      l.foldl (fun g n => g.sort n (snap n)) g := by
  obtain ⟨h1, h2, h3⟩ := foldl_sort_spec snap l (l.foldl (fun g n => g.sort n (snap n)) g)
  obtain ⟨-, -, k3⟩ := foldl_sort_spec snap l g
  refine Graph.ext_fields h1 h2 (fun m => ?_)
  rw [h3 m]
  by_cases hm : m ∈ l
  · simp [hm, k3 m]
  · simp [hm]

/-- A call of `restore` on an isolation that has been restored changes nothing, whatever
the two values of `restore_embedding` are. -/
theorem restore_restore (restoreEdge : Graph → EdgeElement → Graph)
    (s : BiconnectedIsolation) (b1 b : Bool) :
    (s.restore restoreEdge b1).restore restoreEdge b = s.restore restoreEdge b1 := by
  cases b <;> simp [BiconnectedIsolation.restore]

/-! ## The claims -/

/-- C1: `reset()` leaves the tracker representing zero components, whatever the state was
before: `connectedCount()` and `conn_next_id` are 0 and every entry of the node arrays has
its default value (`bc_conn_id` -1, `g_bc` null, `bc_g` null, `bc_size` 0, `bc_type`
`BComp`); the same holds after construction over any graph. -/
theorem reset_represents_zero_components :
    (∀ s : Tracker,
      connectedCount (reset s) = 0 ∧ (reset s).conn_next_id = 0 ∧
      (∀ b, (reset s).bc_conn_id b = -1) ∧ (∀ n, (reset s).g_bc n = none) ∧
      (∀ b, (reset s).bc_g b = none) ∧ (∀ b, (reset s).bc_size b = 0) ∧
      (∀ b, (reset s).bc_type b = BNodeType.BComp)) ∧
    (∀ (g : Graph) (junk : Tracker),
      connectedCount (construct g junk) = 0 ∧ (construct g junk).conn_next_id = 0 ∧
      (∀ b, (construct g junk).bc_conn_id b = -1) ∧ (∀ n, (construct g junk).g_bc n = none) ∧
      (∀ b, (construct g junk).bc_g b = none) ∧ (∀ b, (construct g junk).bc_size b = 0) ∧
      (∀ b, (construct g junk).bc_type b = BNodeType.BComp) ∧
      (construct g junk).G = g) := by
  refine ⟨fun s => ?_, fun g junk => ?_⟩
  · simp [connectedCount, reset, NodeArray.init]
  · simp [connectedCount, construct, reset, NodeArray.init]

/-- C2: after the tracker has been built for a graph (construction, `insert` of the
BC-tree that the external routine computed for the graph, `labelIsolatedNodes`),
`connectedId(n)` is defined for every node `n` of the graph, and two nodes of the graph
have equal `connectedId` if and only if they are connected in the graph. -/
theorem connectedId_eq_iff_connected (g : Graph) (tmp : BCTree) (junk : Tracker)
    (hv : tmp.ValidFor g) :
    (∀ n ∈ g.nodes, ∃ i, connectedId (build g tmp junk) n = some i) ∧
    (∀ u ∈ g.nodes, ∀ v ∈ g.nodes,
      connectedId (build g tmp junk) u = connectedId (build g tmp junk) v ↔
        g.Connected u v) := by
  have hdef := build_connectedId_defined g tmp junk hv
  obtain ⟨hinv, hG, hcid⟩ := insert_construct_spec g tmp junk hv
  have hold : ∀ x, (construct g junk).bc_conn_id x < (construct g junk).conn_next_id := by
    intro x
    simp [construct, reset, NodeArray.init]
  obtain ⟨-, -, hc, hd, -⟩ := insert_spec (construct g junk) tmp hv.nodup hv.ends_mem hold
  obtain ⟨-, -, -, h4, h5, h6, h7⟩ :=
    foldl_labelIsolatedNode_spec (insert (construct g junk) tmp).G.nodes
      (insert (construct g junk) tmp) hinv
  have hb : build g tmp junk = (insert (construct g junk) tmp).G.nodes.foldl labelIsolatedNode
      (insert (construct g junk) tmp) := rfl
  rw [← hb] at h4 h5 h6 h7
  rw [hG] at h5
  generalize build g tmp junk = sF at *
  generalize (construct g junk).BC.freshIndex = off at *
  generalize insert (construct g junk) tmp = s3 at *
  -- a node of the graph that the BC-tree does not cover has degree zero
  have hdeg : ∀ n ∈ g.nodes, tmp.bcproper n = none → g.degree n = 0 := by
    intro n hn hp
    by_contra hne
    obtain ⟨t, ht⟩ := hv.covered n hn (by omega)
    rw [hp] at ht
    exact absurd ht (by simp)
  -- the final id of a covered node, and of a node that is not covered
  have hsome : ∀ n ∈ g.nodes, ∀ t, tmp.bcproper n = some t →
      connectedId sF n = some (s3.bc_conn_id (off + t)) := by
    intro n hn t hp
    refine h4 n _ ?_
    rw [hcid n hn, hp]
    rfl
  have hnone : ∀ n ∈ g.nodes, tmp.bcproper n = none →
      connectedId s3 n = none ∧ ∃ i, connectedId sF n = some i ∧ s3.conn_next_id ≤ i := by
    intro n hn hp
    have h3 : connectedId s3 n = none := by rw [hcid n hn, hp]; rfl
    obtain ⟨i, hi⟩ := h5 n h3 hn (hdeg n hn hp)
    exact ⟨h3, i, hi, (h6 n i h3 hi).1⟩
  refine ⟨hdef, ?_⟩
  · intro u hu v hvn
    cases hpu : tmp.bcproper u with
    | some t =>
      cases hpv : tmp.bcproper v with
      | some t' =>
        rw [hsome u hu t hpu, hsome v hvn t' hpv, ← hv.connected_iff u hu v hvn t t' hpu hpv,
          ← hc t (hv.proper_mem u t hpu) t' (hv.proper_mem v t' hpv)]
        constructor
        · exact fun h => Option.some.inj h
        · exact fun h => by rw [h]
      | none =>
        obtain ⟨-, j, hj, hjge⟩ := hnone v hvn hpv
        rw [hsome u hu t hpu, hj]
        constructor
        · intro h
          have := hd (off + t)
          have : s3.bc_conn_id (off + t) = j := Option.some.inj h
          omega
        · intro h
          have := g.eq_of_connected_of_degree_zero h (Or.inr (hdeg v hvn hpv))
          rw [this, hpv] at hpu
          exact absurd hpu (by simp)
    | none =>
      obtain ⟨hu3, i, hi, hige⟩ := hnone u hu hpu
      cases hpv : tmp.bcproper v with
      | some t' =>
        rw [hsome v hvn t' hpv, hi]
        constructor
        · intro h
          have := hd (off + t')
          have : i = s3.bc_conn_id (off + t') := Option.some.inj h
          omega
        · intro h
          have := g.eq_of_connected_of_degree_zero h (Or.inl (hdeg u hu hpu))
          rw [← this, hpu] at hpv
          exact absurd hpv (by simp)
      | none =>
        obtain ⟨hv3, j, hj, -⟩ := hnone v hvn hpv
        constructor
        · intro h
          rw [hi] at h
          rw [h7 u v i hu3 hv3 hi h.symm]
          exact Relation.ReflTransGen.refl
        · intro h
          rw [g.eq_of_connected_of_degree_zero h (Or.inl (hdeg u hu hpu))]

/-- A witness for C2: the path A-B-C-D with the isolated node 4.  The isolated node has an
id, A and D have one id, and A and the isolated node have different ids. -/
theorem connectedId_eq_iff_connected_witness :
    (∃ i, connectedId (build Examples.pathAndNode Examples.pathBC Examples.junk) 4 = some i) ∧
    (connectedId (build Examples.pathAndNode Examples.pathBC Examples.junk) 0 =
      connectedId (build Examples.pathAndNode Examples.pathBC Examples.junk) 3 ↔
        Examples.pathAndNode.Connected 0 3) ∧
    (connectedId (build Examples.pathAndNode Examples.pathBC Examples.junk) 0 =
      connectedId (build Examples.pathAndNode Examples.pathBC Examples.junk) 4 ↔
        Examples.pathAndNode.Connected 0 4) ∧
    connectedId (build Examples.pathAndNode Examples.pathBC Examples.junk) 0 = some 0 ∧
    connectedId (build Examples.pathAndNode Examples.pathBC Examples.junk) 3 = some 0 ∧
    connectedId (build Examples.pathAndNode Examples.pathBC Examples.junk) 4 = some 5 :=
  ⟨(connectedId_eq_iff_connected _ _ _ Examples.pathBC_validFor).1 4 (by decide),
   (connectedId_eq_iff_connected _ _ _ Examples.pathBC_validFor).2 0 (by decide) 3 (by decide),
   (connectedId_eq_iff_connected _ _ _ Examples.pathBC_validFor).2 0 (by decide) 4 (by decide),
   by decide, by decide, by decide⟩

/-- C3: `isCutVertex(n)` is true if and only if removing `n` from its connected component
strictly increases the number of connected components; on the path A-B-C-D exactly B and C
are cut vertices, and on a simple cycle (of any length from 3 on) no node is. -/
theorem isCutVertex_iff_removal_splits :
    (∀ (s : Tracker) (n : Nat), isCutVertex s n = true ↔
      (s.G.componentOf n).numComponents < ((s.G.componentOf n).removeNode n).numComponents) ∧
    (∀ s : Tracker, s.G = Examples.path →
      [0, 1, 2, 3].map (isCutVertex s) = [false, true, true, false]) ∧
    (∀ (s : Tracker) (k : Nat), 3 ≤ k → s.G = Examples.cycle k →
      ∀ n, n < k → isCutVertex s n = false) := by
  refine ⟨fun s n => ?_, fun s hs => ?_, fun s k _ hs n hn => ?_⟩
  · unfold isCutVertex nodeType
    by_cases h : (s.G.componentOf n).numComponents <
        ((s.G.componentOf n).removeNode n).numComponents
    · simp [h]
    · simp [h]
  · simp only [List.map, isCutVertex, nodeType, hs]
    decide
  · exact Examples.cycle_not_cutVertex s k n hs hn

/-- A witness for C3: the tracker constructed over the path A-B-C-D, and over the cycle
with 5 nodes. -/
theorem isCutVertex_witness :
    [0, 1, 2, 3].map (isCutVertex (construct Examples.path Examples.junk)) =
      [false, true, true, false] ∧
    isCutVertex (construct (Examples.cycle 5) Examples.junk) 2 = false :=
  ⟨isCutVertex_iff_removal_splits.2.1 _ rfl,
   isCutVertex_iff_removal_splits.2.2 _ 5 (by decide) rfl 2 (by decide)⟩

/-- C5: `restore()` is idempotent: after a first call `restore(b1)`, with either value of
`restore_embedding`, a second call `restore(b2)`, the call that the destructor makes, and
any sequence of further calls are defined and change nothing: neither the edge set nor
any rotation of the graph (nor anything else of the state).  On the isolation of the block
BC of the path A-B-C-D: `restore(false)` puts the two hidden edges back and leaves the
rotation of B as it is, not as recorded, and the destructor after it leaves all that as it
is; `restore(true)` makes the rotation of B the recorded one. -/
theorem restore_idempotent :
    (∀ (restoreEdge : Graph → EdgeElement → Graph) (s : BiconnectedIsolation) (b1 b2 : Bool),
      (s.restore restoreEdge b1).restore restoreEdge b2 = s.restore restoreEdge b1 ∧
      (s.restore restoreEdge b1).destructor restoreEdge = s.restore restoreEdge b1 ∧
      ((s.restore restoreEdge b1).restore restoreEdge b2).m_comps.G.edges =
        (s.restore restoreEdge b1).m_comps.G.edges ∧
      (∀ n, ((s.restore restoreEdge b1).restore restoreEdge b2).m_comps.G.adjEntries n =
        (s.restore restoreEdge b1).m_comps.G.adjEntries n) ∧
      ((s.restore restoreEdge b1).destructor restoreEdge).m_comps.G.edges =
        (s.restore restoreEdge b1).m_comps.G.edges ∧
      (∀ n, ((s.restore restoreEdge b1).destructor restoreEdge).m_comps.G.adjEntries n =
        (s.restore restoreEdge b1).m_comps.G.adjEntries n) ∧
      ∀ bs : List Bool,
        bs.foldl (fun t b => t.restore restoreEdge b) (s.restore restoreEdge b1) =
          s.restore restoreEdge b1) ∧
    (Examples.isolation.restore Examples.restoreLast false).m_comps.G.edges =
      [⟨1, 1, 2⟩, ⟨0, 0, 1⟩, ⟨2, 2, 3⟩] ∧
    (Examples.isolation.restore Examples.restoreLast false).m_comps.G.adjEntries 1 =
      [⟨1, true⟩, ⟨0, false⟩] ∧
    ((Examples.isolation.restore Examples.restoreLast false).destructor
      Examples.restoreLast).m_comps.G.edges = [⟨1, 1, 2⟩, ⟨0, 0, 1⟩, ⟨2, 2, 3⟩] ∧
    ((Examples.isolation.restore Examples.restoreLast false).destructor
      Examples.restoreLast).m_comps.G.adjEntries 1 = [⟨1, true⟩, ⟨0, false⟩] ∧
    (Examples.isolation.restore Examples.restoreLast true).m_comps.G.adjEntries 1 =
      [⟨0, false⟩, ⟨1, true⟩] ∧
    ((Examples.isolation.restore Examples.restoreLast true).restore
      Examples.restoreLast false).m_comps.G.adjEntries 1 = [⟨0, false⟩, ⟨1, true⟩] := by
  refine ⟨fun restoreEdge s b1 b2 => ?_, by decide, by decide, by decide, by decide, by decide,
    by decide⟩
  have key : ∀ b, (s.restore restoreEdge b1).restore restoreEdge b = s.restore restoreEdge b1 :=
    restore_restore restoreEdge s b1
  have hd : (s.restore restoreEdge b1).destructor restoreEdge = s.restore restoreEdge b1 :=
    key true
  refine ⟨key b2, hd, by rw [key b2], fun n => by rw [key b2], by rw [hd],
    fun n => by rw [hd], fun bs => ?_⟩
  induction bs with
  | nil => rfl
  | cons b bs ih => rw [List.foldl_cons, key b, ih]

/-- C6: destroying a `BiconnectedIsolation` is calling `restore(true)` on it, in every
state, also a state in which `restore` was called before. -/
theorem destructor_is_restore_true (restoreEdge : Graph → EdgeElement → Graph) :
    (∀ s : BiconnectedIsolation,
      s.destructor restoreEdge = s.restore restoreEdge true) ∧
    (∀ (s : BiconnectedIsolation) (b : Bool),
      (s.restore restoreEdge b).destructor restoreEdge =
        (s.restore restoreEdge b).restore restoreEdge true) :=
  ⟨fun _ => rfl, fun _ _ => rfl⟩

/-- C7: `findCommonBiconComp(bc1, bc2)` returns the block node adjacent to both arguments
in the BC-tree when exactly one such block exists, and the null handle when no block is
adjacent to both; it is defined on all arguments. -/
theorem findCommonBiconComp_unique_or_null (s : Tracker) (bc1 bc2 : Nat) :
    (∀ b, s.bc_type b = BNodeType.BComp → s.BC.Adj b bc1 → s.BC.Adj b bc2 →
      (∀ c, s.bc_type c = BNodeType.BComp → s.BC.Adj c bc1 → s.BC.Adj c bc2 → c = b) →
      findCommonBiconComp s bc1 bc2 = some b) ∧
    ((∀ b, ¬ (s.bc_type b = BNodeType.BComp ∧ s.BC.Adj b bc1 ∧ s.BC.Adj b bc2)) →
      findCommonBiconComp s bc1 bc2 = none) := by
  have hmem : ∀ b, b ∈ ((s.BC.neighbours bc1).filter (fun b =>
      decide (b ∈ s.BC.neighbours bc2) && decide (s.bc_type b = BNodeType.BComp))).dedup ↔
      (s.bc_type b = BNodeType.BComp ∧ s.BC.Adj b bc1 ∧ s.BC.Adj b bc2) := by
    intro b
    rw [List.mem_dedup, List.mem_filter, Graph.mem_neighbours]
    simp only [Bool.and_eq_true, decide_eq_true_eq, Graph.mem_neighbours]
    tauto
  constructor
  · intro b hb h1 h2 huniq
    have hl := List.eq_singleton_of_nodup (List.nodup_dedup _) ((hmem b).2 ⟨hb, h1, h2⟩)
      (fun x hx => huniq x ((hmem x).1 hx).1 ((hmem x).1 hx).2.1 ((hmem x).1 hx).2.2)
    unfold findCommonBiconComp
    rw [hl]
  · intro hnone
    have hl : ((s.BC.neighbours bc1).filter (fun b =>
        decide (b ∈ s.BC.neighbours bc2) && decide (s.bc_type b = BNodeType.BComp))).dedup = [] :=
      List.eq_nil_iff_forall_not_mem.2 (fun b hb => hnone b ((hmem b).1 hb))
    unfold findCommonBiconComp
    rw [hl]

/-- A witness for C7 on the BC-tree of the path A-B-C-D: the cut nodes of B and C have the
one common block BC; the blocks AB and CD have no common neighbour that is a block. -/
theorem findCommonBiconComp_witness :
    findCommonBiconComp (build Examples.path Examples.pathBC Examples.junk) 3 4 = some 1 ∧
    findCommonBiconComp (build Examples.path Examples.pathBC Examples.junk) 0 2 = none := by
  have hE : (build Examples.path Examples.pathBC Examples.junk).BC.edges =
      [⟨0, 0, 3⟩, ⟨1, 3, 1⟩, ⟨2, 1, 4⟩, ⟨3, 4, 2⟩] := by decide
  constructor
  · refine (findCommonBiconComp_unique_or_null _ 3 4).1 1 (by decide) ?_ ?_ ?_
    · exact ⟨⟨1, 3, 1⟩, by rw [hE]; simp, by simp⟩
    · exact ⟨⟨2, 1, 4⟩, by rw [hE]; simp, by simp⟩
    · rintro c - ⟨e, he, h3⟩ ⟨f, hf, h4⟩
      rw [hE] at he hf
      simp only [List.mem_cons, List.mem_singleton, List.not_mem_nil, or_false] at he hf
      rcases he with rfl | rfl | rfl | rfl <;> rcases hf with rfl | rfl | rfl | rfl <;>
        simp at h3 h4 <;> omega
  · refine (findCommonBiconComp_unique_or_null _ 0 2).2 ?_
    rintro b ⟨-, ⟨e, he, h3⟩, ⟨f, hf, h4⟩⟩
    rw [hE] at he hf
    simp only [List.mem_cons, List.mem_singleton, List.not_mem_nil, or_false] at he hf
    rcases he with rfl | rfl | rfl | rfl <;> rcases hf with rfl | rfl | rfl | rfl <;>
      simp at h3 h4
    omega

/-- C8, the claim fails: right after construction over the one-node graph, the node 0 of
the tracked graph is mapped by `g_bc` to no BC-tree node; the same after `reset()` of a
tracker that had been built. -/
theorem g_bc_not_total_after_construction :
    0 ∈ (construct Examples.oneNode Examples.junk).G.nodes ∧
    (¬ ∃ b, (construct Examples.oneNode Examples.junk).g_bc 0 = some b) ∧
    0 ∈ (reset (build Examples.oneNode Examples.noBC Examples.junk)).G.nodes ∧
    (¬ ∃ b, (reset (build Examples.oneNode Examples.noBC Examples.junk)).g_bc 0 = some b) := by
  refine ⟨by decide, ?_, by decide, ?_⟩
  · rintro ⟨b, hb⟩
    exact absurd hb (by simp [construct, reset, NodeArray.init])
  · rintro ⟨b, hb⟩
    exact absurd hb (by simp [reset, NodeArray.init])

/-- C8 as amended: right after construction or `reset()` every node is mapped by `g_bc`
to null; once the tracker has been built for the graph (`insert` of a valid BC-tree, then
`labelIsolatedNodes`), every node of the graph is mapped by `g_bc` to exactly one handle,
which is not null and is a node of the tracked BC-tree. -/
theorem g_bc_null_after_reset_total_after_build :
    (∀ (s : Tracker) (n : Nat), (reset s).g_bc n = none) ∧
    (∀ (g : Graph) (junk : Tracker) (n : Nat), (construct g junk).g_bc n = none) ∧
    (∀ (g : Graph) (tmp : BCTree) (junk : Tracker), tmp.ValidFor g →
      ∀ n ∈ g.nodes, ∃ b, (build g tmp junk).g_bc n = some b ∧
        b ∈ (build g tmp junk).BC.nodes ∧
        ∀ c, (build g tmp junk).g_bc n = some c → c = b) := by
  refine ⟨fun _ _ => rfl, fun _ _ _ => rfl, fun g tmp junk hv n hn => ?_⟩
  obtain ⟨i, hi⟩ := build_connectedId_defined g tmp junk hv n hn
  cases hg : (build g tmp junk).g_bc n with
  | none =>
    rw [(connectedId_eq_none _ n).2 hg] at hi
    exact absurd hi (by simp)
  | some b =>
    exact ⟨b, rfl, build_g_bc_mem g tmp junk hv n b hg, fun c hc => (Option.some.inj hc).symm⟩

/-- A witness for C8 as amended: in the tracker built for the path A-B-C-D with an
isolated node, the isolated node 4 is mapped to the node 5 of the tracked BC-tree, the
node that `labelIsolatedNodes` has added to the five nodes of the BC-tree of the path. -/
theorem g_bc_total_after_build_witness :
    (∃ b, (build Examples.pathAndNode Examples.pathBC Examples.junk).g_bc 4 = some b ∧
      b ∈ (build Examples.pathAndNode Examples.pathBC Examples.junk).BC.nodes ∧
      ∀ c, (build Examples.pathAndNode Examples.pathBC Examples.junk).g_bc 4 = some c → c = b) ∧
    (build Examples.pathAndNode Examples.pathBC Examples.junk).g_bc 4 = some 5 ∧
    (build Examples.pathAndNode Examples.pathBC Examples.junk).BC.nodes = [0, 1, 2, 3, 4, 5] :=
  ⟨g_bc_null_after_reset_total_after_build.2.2 _ _ _ Examples.pathBC_validFor 4 (by decide),
    by decide, by decide⟩

/-- C9, the claim fails: `reset()` of a tracker that was built for the one-node graph
lowers `conn_next_id` from 1 to 0, and the id 0 that had been handed out is handed out
again when the isolated node is labelled after the reset; in general `reset()` lowers the
counter in every state in which it is positive. -/
theorem reset_lowers_conn_next_id :
    (Op.run Op.reset (build Examples.oneNode Examples.noBC Examples.junk)).conn_next_id <
      (build Examples.oneNode Examples.noBC Examples.junk).conn_next_id ∧
    connectedId (build Examples.oneNode Examples.noBC Examples.junk) 0 = some 0 ∧
    connectedId (labelIsolatedNodes
      (Op.run Op.reset (build Examples.oneNode Examples.noBC Examples.junk))) 0 = some 0 ∧
    (∀ s : Tracker, 0 < s.conn_next_id →
      (Op.run Op.reset s).conn_next_id < s.conn_next_id) :=
  ⟨by decide, by decide, by decide, fun _ h => h⟩

/-- C9 as amended: no query changes `conn_next_id`; `reset()` and construction set it
to 0. -/
theorem conn_next_id_kept_by_queries :
    (∀ (q : Query) (s : Tracker), (Op.run (Op.query q) s).conn_next_id = s.conn_next_id) ∧
    (∀ s : Tracker, (Op.run Op.reset s).conn_next_id = 0) ∧
    (∀ (g : Graph) (junk : Tracker), (construct g junk).conn_next_id = 0) :=
  ⟨fun _ _ => rfl, fun _ => rfl, fun _ _ => rfl⟩

/-- C10: `connectedId` factors through the designated block: `connectedId(n)` is
`bcConnectedId(biconnectedComponent(n))`, so two nodes with the same designated block have
the same connected-component id. -/
theorem connectedId_factors (s : Tracker) :
    (∀ n, connectedId s n = bcConnectedId s (biconnectedComponent s n)) ∧
    (∀ u v, biconnectedComponent s u = biconnectedComponent s v →
      connectedId s u = connectedId s v) :=
  ⟨fun _ => rfl, fun u v h => by unfold connectedId; rw [h]⟩

/-- A witness for C10: all nodes of a triangle have the same designated block. -/
theorem connectedId_factors_witness :
    biconnectedComponent (build (Examples.cycle 3) (Examples.cycleBC 3) Examples.junk) 0 =
      biconnectedComponent (build (Examples.cycle 3) (Examples.cycleBC 3) Examples.junk) 1 ∧
    connectedId (build (Examples.cycle 3) (Examples.cycleBC 3) Examples.junk) 0 =
      connectedId (build (Examples.cycle 3) (Examples.cycleBC 3) Examples.junk) 1 :=
  ⟨by decide, (connectedId_factors _).2 0 1 (by decide)⟩

end PQPlanarityComponents

namespace PQPlanarityComponents

/-- C11: `biconnectedId(n)` is the index of the BC-tree node `biconnectedComponent(n)`;
given that distinct live BC-tree nodes have distinct indices, two nodes whose designated
blocks are live (or null) have equal `biconnectedId` if and only if they have the same
`biconnectedComponent`. -/
theorem biconnectedId_eq_iff (index : Nat → Int) (s : Tracker) (u v : Nat)
    (hinj : ∀ a ∈ s.BC.nodes, ∀ b ∈ s.BC.nodes, index a = index b → a = b)
    (hu : ∀ b, biconnectedComponent s u = some b → b ∈ s.BC.nodes)
    (hv : ∀ b, biconnectedComponent s v = some b → b ∈ s.BC.nodes) :
    biconnectedId index s u = (biconnectedComponent s u).map index ∧
    (biconnectedId index s u = biconnectedId index s v ↔
      biconnectedComponent s u = biconnectedComponent s v) := by
  refine ⟨rfl, ?_⟩
  unfold biconnectedId
  constructor
  · intro h
    cases hbu : biconnectedComponent s u with
    | none =>
      cases hbv : biconnectedComponent s v with
      | none => rfl
      | some b => rw [hbu, hbv] at h; exact absurd h (by simp)
    | some a =>
      cases hbv : biconnectedComponent s v with
      | none => rw [hbu, hbv] at h; exact absurd h (by simp)
      | some b =>
        rw [hbu, hbv] at h
        rw [hinj a (hu a hbu) b (hv b hbv) (Option.some.inj h)]
  · intro h
    rw [h]

/-- A witness for C11: two nodes of a triangle in the tracker built for it, with the
index of a BC-tree node being its number. -/
theorem biconnectedId_eq_iff_witness :
    biconnectedId Int.ofNat (build (Examples.cycle 3) (Examples.cycleBC 3) Examples.junk) 0 =
      biconnectedId Int.ofNat (build (Examples.cycle 3) (Examples.cycleBC 3) Examples.junk) 1 ↔
    biconnectedComponent (build (Examples.cycle 3) (Examples.cycleBC 3) Examples.junk) 0 =
      biconnectedComponent (build (Examples.cycle 3) (Examples.cycleBC 3) Examples.junk) 1 := by
  have h0 : biconnectedComponent (build (Examples.cycle 3) (Examples.cycleBC 3) Examples.junk) 0 =
      some 0 := by decide
  have h1 : biconnectedComponent (build (Examples.cycle 3) (Examples.cycleBC 3) Examples.junk) 1 =
      some 0 := by decide
  have hn : (build (Examples.cycle 3) (Examples.cycleBC 3) Examples.junk).BC.nodes = [0] := by
    decide
  refine (biconnectedId_eq_iff Int.ofNat _ 0 1 (fun a _ b _ h => Int.ofNat.inj h) ?_ ?_).2
  · intro b hb
    rw [h0] at hb
    rw [hn, ← Option.some.inj hb]
    exact List.mem_singleton.2 rfl
  · intro b hb
    rw [h1] at hb
    rw [hn, ← Option.some.inj hb]
    exact List.mem_singleton.2 rfl

/-- C12: `isCutVertex(n)` is true exactly when `nodeType(n)` is `CutVertex` and false
exactly when it is `Normal`, these being the only two classifications, and the call leaves
the tracker as it is. -/
theorem isCutVertex_iff_nodeType (s : Tracker) (n : Nat) :
    (isCutVertex s n = true ↔ nodeType s n = GNodeType.CutVertex) ∧
    (isCutVertex s n = false ↔ nodeType s n = GNodeType.Normal) ∧
    (∀ t : GNodeType, t = GNodeType.Normal ∨ t = GNodeType.CutVertex) ∧
    Op.run (Op.query (Query.isCutVertex n)) s = s := by
  refine ⟨?_, ?_, ?_, rfl⟩
  · unfold isCutVertex
    exact decide_eq_true_iff
  · unfold isCutVertex
    cases nodeType s n <;> simp
  · intro t
    cases t
    · exact Or.inl rfl
    · exact Or.inr rfl

end PQPlanarityComponents

namespace PlanarSubgraphEmpty

/-- C13: `doCall` returns `Feasible` for every graph, its result does not depend on
`preferredEdges`, `pCost` and `preferedImplyPlanar`, and, `allEdges` making its container
the list of all edges of the graph, `delEdges` ends as that list whatever it held before:
every edge as often as in the edge list of the graph, and no edge of the graph is left
outside `delEdges`. -/
theorem doCall_deletes_all_edges {TCost : Type}
    (allEdges : PQPlanarityComponents.Graph → List Nat → List Nat) :
    (∀ graph pe del (pc : Option (Nat → TCost)) b,
      (doCall allEdges graph pe del pc b).1 = ReturnType.Feasible) ∧
    (∀ graph pe pe' del (pc pc' : Option (Nat → TCost)) b b',
      doCall allEdges graph pe del pc b = doCall allEdges graph pe' del pc' b') ∧
    ((∀ g l, allEdges g l = edgeIds g) →
      ∀ graph pe del (pc : Option (Nat → TCost)) b,
        (doCall allEdges graph pe del pc b).2 = edgeIds graph ∧
        (∀ e, (doCall allEdges graph pe del pc b).2.count e = (edgeIds graph).count e) ∧
        (edgeIds graph).filter (fun e => decide (e ∉ (doCall allEdges graph pe del pc b).2)) =
          []) := by
  refine ⟨fun _ _ _ _ _ => rfl, fun _ _ _ _ _ _ _ _ => rfl, fun h graph pe del pc b => ?_⟩
  have hres : (doCall allEdges graph pe del pc b).2 = edgeIds graph := h graph del
  refine ⟨hres, fun e => by rw [hres], ?_⟩
  rw [hres]
  exact List.filter_eq_nil_iff.2 (fun e he => by simpa using he)

/-- A witness for C13: the path A-B-C-D, with `delEdges` holding two stale entries before
the call. -/
theorem doCall_deletes_all_edges_witness :
    (@doCall Int (fun g _ => edgeIds g) PQPlanarityComponents.Examples.path [1]
      [7, 7] none true).2 = [0, 1, 2] :=
  ((@doCall_deletes_all_edges Int (fun g _ => edgeIds g)).2.2 (fun _ _ => rfl)
    PQPlanarityComponents.Examples.path [1] [7, 7] none true).1.trans (by decide)

end PlanarSubgraphEmpty

namespace SimDrawCreator

/-- A number in the range of `int` is its own 32-bit value. -/
theorem wrapInt32_of_range {x : Int} (h1 : -2 ^ 31 ≤ x) (h2 : x < 2 ^ 31) :
    wrapInt32 x = x := by
  unfold wrapInt32
  rw [Int.emod_eq_of_lt (by omega) (by omega)]
  omega

/-- What `randomESG` ensures for up to 29 basic graphs and non-negative values of `rand()`:
every edge of the loop ends with a value between 1 and `2^(graphNumber+1) - 1`. -/
theorem randomESG_range (graphNumber : Int) (h0 : 0 < graphNumber) (h30 : graphNumber < 30)
    (rand : Nat → Int) (hr : ∀ k, 0 ≤ rand k) (edges : List Nat) (bits : Nat → Int) :
    ∀ e ∈ edges, 1 ≤ randomESG graphNumber rand edges bits e ∧
      randomESG graphNumber rand edges bits e ≤ 2 ^ (graphNumber + 1).toNat - 1 := by
  have hpow : (2 : Int) ^ (graphNumber + 1).toNat ≤ 2 ^ 30 :=
    pow_le_pow_right₀ (by norm_num) (by omega)
  have hpow2 : (2 : Int) ^ 1 ≤ 2 ^ (graphNumber + 1).toNat :=
    pow_le_pow_right₀ (by norm_num) (by omega)
  have hmax : wrapInt32 (wrapInt32 (1 * 2 ^ (graphNumber + 1).toNat) - 1) =
      2 ^ (graphNumber + 1).toNat - 1 := by
    rw [one_mul, wrapInt32_of_range (x := 2 ^ (graphNumber + 1).toNat) (by omega) (by omega),
      wrapInt32_of_range (by omega) (by omega)]
  unfold randomESG
  rw [hmax]
  generalize hM : (2 : Int) ^ (graphNumber + 1).toNat - 1 = M
  have hM1 : 1 ≤ M := by omega
  have hM2 : M < 2 ^ 30 := by omega
  have hval : ∀ k, 1 ≤ wrapInt32 (1 + (rand k).tmod M) ∧ wrapInt32 (1 + (rand k).tmod M) ≤ M := by
    intro k
    have h1 : (rand k).tmod M = rand k % M := Int.tmod_eq_emod (hr k) (by omega)
    have h2 := Int.emod_nonneg (rand k) (by omega : M ≠ 0)
    have h3 := Int.emod_lt_of_pos (rand k) (by omega : 0 < M)
    rw [h1, wrapInt32_of_range (by omega) (by omega)]
    omega
  -- the loop keeps the values in range at the edges it has passed
  have key : ∀ (l : List Nat) (st : (Nat → Int) × Nat) (e : Nat),
      (e ∈ l ∨ (1 ≤ st.1 e ∧ st.1 e ≤ M)) →
      1 ≤ (l.foldl (fun (st : (Nat → Int) × Nat) e =>
          (Function.update st.1 e (wrapInt32 (1 + (rand st.2).tmod M)), st.2 + 1)) st).1 e ∧
        (l.foldl (fun (st : (Nat → Int) × Nat) e =>
          (Function.update st.1 e (wrapInt32 (1 + (rand st.2).tmod M)), st.2 + 1)) st).1 e ≤ M := by
    intro l
    induction l with
    | nil =>
      intro st e h
      rcases h with h | h
      · exact absurd h (List.not_mem_nil e)
      · exact h
    | cons a l ih =>
      intro st e h
      rw [List.foldl_cons]
      apply ih
      by_cases hea : e = a
      · right
        subst hea
        simp only [Function.update_same]
        exact hval st.2
      · rcases h with h | h
        · rcases List.mem_cons.1 h with h | h
          · exact absurd h hea
          · exact Or.inl h
        · right
          simp only [Function.update_noteq hea]
          exact h
  intro e he
  exact key edges (bits, 0) e (Or.inl he)

/-- C14, the code at a failing input: with `graphNumber = 1`, a single edge 0 and `rand()`
returning 1, the edge ends with `subGraphBits = 2`, above `2^1 - 1 = 1`: it belongs to the
basic graph 1 and not to the basic graph 0.  With `rand()` returning 2 it ends with 3. -/
theorem randomESG_exceeds_graphNumber :
    randomESG 1 (fun _ => 1) [0] (fun _ => 0) 0 = 2 ∧
    ¬ (randomESG 1 (fun _ => 1) [0] (fun _ => 0) 0 ≤ 2 ^ 1 - 1) ∧
    inSubGraph (randomESG 1 (fun _ => 1) [0] (fun _ => 0) 0) 1 = true ∧
    inSubGraph (randomESG 1 (fun _ => 1) [0] (fun _ => 0) 0) 0 = false ∧
    randomESG 1 (fun _ => 2) [0] (fun _ => 0) 0 = 3 := by
  decide

end SimDrawCreator

namespace ConvexHull

/-- C15, the code at a failing input: the clockwise dart `(0,0), (0,4), (1,1), (4,0)` is
cross-free and its orientation flag is set correctly, yet `conv` returns it unchanged,
with the reflex corner at `(1,1)`: the result is not convex.  The loop ends when `i`
reaches `lastChange`, which starts as the last vertex, so the corner at the vertex before
the last is never tested when nothing is deleted.  The same holds for the dart in
counter-clockwise order. -/
theorem conv_keeps_reflex_corner :
    conv 10 dartCW = some dartCW ∧
    crossFree dartCW = true ∧ orientationCorrect dartCW = true ∧ isConvex dartCW = false ∧
    conv 10 dartCCW = some dartCCW ∧
    crossFree dartCCW = true ∧ orientationCorrect dartCCW = true ∧ isConvex dartCCW = false := by
  decide

end ConvexHull

namespace PlanRepUML

open PQPlanarityComponents (AdjEntry)

/-- C16, the code at failing inputs.  At the node 0 of `twoRuns` (rotation: association,
generalization 1, association, generalization 3) the scan ends with both generalizations
still typed generalization, in two runs, and hands only `[3]` to `insertGenMerger`.  At
the node 0 of `longRunFirst` (rotation: association, generalizations 1 and 2, association,
generalization 4) all three stay generalizations and the run handed over is `[4]`, not
the longest run `[1, 2]`. -/
theorem scanNode_leaves_two_runs :
    (scanNode Examples.twoRuns 0).map (fun r => r.2) = some (some [3]) ∧
    (scanNode Examples.twoRuns 0).map (fun r => [0, 1, 2, 3].map r.1.isGeneralization) =
      some [false, true, false, true] ∧
    (scanNode Examples.longRunFirst 0).map (fun r => r.2) = some (some [4]) ∧
    (scanNode Examples.longRunFirst 0).map (fun r => [0, 1, 2, 3, 4].map r.1.isGeneralization) =
      some [false, true, true, false, true] := by
  decide

/-- C20, the code at a failing input: `expand(true)` on the node 0 with two associations.
The first pass of the node loop expands node 0 and creates the cage node 3, which is no
node on entry; node 3 has type `highDegreeExpander` and degree 3, so the fourth pass,
which reaches it, expands it again: its expanded node becomes itself and the cage nodes 4
and 5 are created; the sixth pass has expanded the nodes 4 and 5 in turn, and the loop
stands at position 6 of 10 nodes. -/
theorem expand_lowDegree_expands_cage_nodes :
    3 ∉ Examples.twoAssociations.G.nodes ∧
    (expandSteps true 3 1 0 Examples.twoAssociations).map
      (fun r => (r.1, r.2.G.nodes, r.2.m_expandedNode 3, r.2.typeOfNode 3, r.2.G.degree 3)) =
      some (1, [0, 1, 2, 3], some 0, NodeType.highDegreeExpander, 3) ∧
    (expandSteps true 3 4 0 Examples.twoAssociations).map
      (fun r => (r.1, r.2.G.nodes, r.2.m_expandedNode 3)) =
      some (4, [0, 1, 2, 3, 4, 5], some 3) ∧
    (expandSteps true 3 6 0 Examples.twoAssociations).map
      (fun r => (r.1, r.2.G.nodes.length, r.2.m_expandedNode 4, r.2.m_expandedNode 5)) =
      some (6, 10, some 4, some 5) := by
  decide!

end PlanRepUML

namespace PlanRepUML

open PQPlanarityComponents (AdjEntry)

/-- A list with an element that fails `p` splits at the first such element. -/
theorem exists_first_not {p : Nat → Prop} (l : List Nat) (h : ∃ e ∈ l, ¬ p e) :
    ∃ pre x post, l = pre ++ x :: post ∧ (∀ g ∈ pre, p g) ∧ ¬ p x := by
  induction l with
  | nil =>
    obtain ⟨e, he, -⟩ := h
    exact absurd he (List.not_mem_nil e)
  | cons a l ih =>
    by_cases ha : p a
    · have h' : ∃ e ∈ l, ¬ p e := by
        obtain ⟨e, he, hpe⟩ := h
        rcases List.mem_cons.1 he with rfl | he
        · exact absurd ha hpe
        · exact ⟨e, he, hpe⟩
      obtain ⟨pre, x, post, hl, hpre, hx⟩ := ih h'
      refine ⟨a :: pre, x, post, by rw [hl]; rfl, ?_, hx⟩
      intro g hg
      rcases List.mem_cons.1 hg with rfl | hg
      · exact ha
      · exact hpre g hg
    · exact ⟨[], a, l, rfl, fun g hg => absurd hg (List.not_mem_nil g), ha⟩

/-- The super sink check on a queue that starts with generalizations `pre`, followed by an
edge `x` that is no generalization: it ends with `x` as the edge that stays, and the
generalizations have moved to the end of the list. -/
theorem superSink_run (s : PlanRep) (x : Nat) (post : List Nat)
    (hx : s.typeOfEdge x ≠ EdgeType.generalization) :
    ∀ (pre acc : List Nat) (fuel : Nat),
      (∀ g ∈ pre, s.typeOfEdge g = EdgeType.generalization) → pre.length < fuel →
      ∀ e0 rest, pre ++ x :: post = e0 :: rest →
        superSink s fuel e0 (rest ++ acc) = some (x, post ++ acc ++ pre) := by
  intro pre
  induction pre with
  | nil =>
    intro acc fuel _ hfuel e0 rest hl
    obtain ⟨k, rfl⟩ : ∃ k, fuel = k + 1 := ⟨fuel - 1, by simp at hfuel; omega⟩
    simp only [List.nil_append, List.cons.injEq] at hl
    obtain ⟨rfl, rfl⟩ := hl
    simp [superSink, hx]
  | cons g pre ih =>
    intro acc fuel hpre hfuel e0 rest hl
    obtain ⟨k, rfl⟩ : ∃ k, fuel = k + 1 := ⟨fuel - 1, by simp at hfuel; omega⟩
    simp only [List.cons_append, List.cons.injEq] at hl
    obtain ⟨rfl, rfl⟩ := hl
    have hg := hpre g (List.mem_cons_self _ _)
    have hpre' : ∀ g' ∈ pre, s.typeOfEdge g' = EdgeType.generalization :=
      fun g' h => hpre g' (List.mem_cons_of_mem _ h)
    have hk : pre.length < k := by simp at hfuel; omega
    obtain ⟨e1, rest1, h1⟩ : ∃ e1 rest1, pre ++ x :: post = e1 :: rest1 := by
      cases pre with
      | nil => exact ⟨x, post, rfl⟩
      | cons a t => exact ⟨a, t ++ x :: post, rfl⟩
    have := ih (acc ++ [g]) k hpre' hk e1 rest1 h1
    unfold superSink
    rw [if_pos hg, h1]
    simp only [List.cons_append, List.append_assoc] at this ⊢
    rw [this]
    simp

/-- C19: in `expand(false)` on a node `v` of degree at least 4 that is no dummy (and no
merger), with at least one incident edge that is not a generalization: the super sink
check ends (within `degree(v)` tests), the edge `x` that stays at `v` is the first edge
of the rotation that is no generalization, so `v` is not put into `genNodes`, and
`adjEdges` holds the other edges of `v` in rotated order: those after `x`, then those
before `x`.  Unless the node is skipped (degree 4 with at most one generalization), the
cage is built for this edge and this list. -/
theorem superSink_keeps_first_non_generalization (s : PlanRep) (v fuel : Nat)
    (hdeg : 4 ≤ s.G.degree v) (hdummy : s.typeOfNode v ≠ NodeType.dummy)
    (hmerger : s.typeOfNode v ≠ NodeType.generalizationMerger)
    (hfuel : s.G.degree v ≤ fuel)
    (hex : ∃ e ∈ s.edgesAt v, s.typeOfEdge e ≠ EdgeType.generalization) :
    ∃ pre x post, s.edgesAt v = pre ++ x :: post ∧
      (∀ g ∈ pre, s.typeOfEdge g = EdgeType.generalization) ∧
      s.typeOfEdge x ≠ EdgeType.generalization ∧
      (∀ e0 rest, s.edgesAt v = e0 :: rest →
        superSink (s.setTypeOfNode v NodeType.highDegreeExpander) fuel e0 rest =
          some (x, post ++ pre)) ∧
      (if s.typeOfEdge x = EdgeType.generalization then [v] else []) = [] ∧
      (¬ (s.G.degree v = 4 ∧ detectGens s v < 2) →
        expandNode false fuel s v =
          buildCage
            (fun r e =>
              ((((r.setExpansionEdge e 2).setExpansion e).setAssociation e).setTypeOfEdge e
                EdgeType.association))
            (fun r e =>
              (((r.setTypeOfEdge e EdgeType.association).setExpansionEdge e 2).setAssociation e))
            (s.setTypeOfNode v NodeType.highDegreeExpander) v x (post ++ pre)) := by
  obtain ⟨pre, x, post, hl, hpre, hx⟩ :=
    exists_first_not (p := fun e => s.typeOfEdge e = EdgeType.generalization) (s.edgesAt v) hex
  have hlen : pre.length < fuel := by
    have : (s.edgesAt v).length = s.G.degree v := by simp [PlanRep.edgesAt, Graph.degree]
    rw [hl] at this
    simp at this
    omega
  have hrun : ∀ e0 rest, s.edgesAt v = e0 :: rest →
      superSink (s.setTypeOfNode v NodeType.highDegreeExpander) fuel e0 rest =
        some (x, post ++ pre) := by
    intro e0 rest h0
    have := superSink_run (s.setTypeOfNode v NodeType.highDegreeExpander) x post hx pre [] fuel
      hpre hlen e0 rest (by rw [← hl, h0])
    simpa using this
  refine ⟨pre, x, post, hl, hpre, hx, hrun, if_neg hx, fun hskip => ?_⟩
  obtain ⟨e0, rest, h0⟩ : ∃ e0 rest, s.edgesAt v = e0 :: rest := by
    cases pre with
    | nil => exact ⟨x, post, hl⟩
    | cons a t => exact ⟨a, t ++ x :: post, hl⟩
  have h0' : (s.setTypeOfNode v NodeType.highDegreeExpander).edgesAt v = e0 :: rest := h0
  unfold expandNode
  rw [if_neg hmerger, if_pos ⟨hdeg, hdummy, rfl⟩]
  unfold expandHighDegree
  rw [if_neg hskip, h0']
  simp only [hrun e0 rest h0]

end PlanRepUML

namespace PlanRepUML

open PQPlanarityComponents (AdjEntry)

/-- The witness of C19: the node 0 of `Examples.highDegree`, whose rotation starts with two
generalizations. -/
theorem superSink_keeps_first_non_generalization_witness :
    ∃ pre x post, Examples.highDegree.edgesAt 0 = pre ++ x :: post ∧
      (∀ g ∈ pre, Examples.highDegree.typeOfEdge g = EdgeType.generalization) ∧
      Examples.highDegree.typeOfEdge x ≠ EdgeType.generalization ∧
      (∀ e0 rest, Examples.highDegree.edgesAt 0 = e0 :: rest →
        superSink (Examples.highDegree.setTypeOfNode 0 NodeType.highDegreeExpander) 5 e0 rest =
          some (x, post ++ pre)) ∧
      (if Examples.highDegree.typeOfEdge x = EdgeType.generalization then [0] else []) = [] ∧
      (¬ (Examples.highDegree.G.degree 0 = 4 ∧ detectGens Examples.highDegree 0 < 2) →
        expandNode false 5 Examples.highDegree 0 =
          buildCage
            (fun r e =>
              ((((r.setExpansionEdge e 2).setExpansion e).setAssociation e).setTypeOfEdge e
                EdgeType.association))
            (fun r e =>
              (((r.setTypeOfEdge e EdgeType.association).setExpansionEdge e 2).setAssociation e))
            (Examples.highDegree.setTypeOfNode 0 NodeType.highDegreeExpander) 0 x (post ++ pre)) :=
  superSink_keeps_first_non_generalization Examples.highDegree 0 5 (by decide) (by decide)
    (by decide) (by decide) ⟨2, by decide, by decide⟩

/-- Every element of a list of indices is below the index that `freshNode` and `freshEdge`
compute from it. -/
theorem lt_foldr_max (l : List Nat) (x : Nat) (h : x ∈ l) :
    x < l.foldr (fun x m => max (x + 1) m) 0 := by
  induction l with
  | nil => cases h
  | cons a l ih =>
    simp only [List.foldr_cons]
    rcases List.mem_cons.1 h with rfl | h
    · exact lt_of_lt_of_le (Nat.lt_succ_self _) (le_max_left _ _)
    · exact lt_of_lt_of_le (ih h) (le_max_right _ _)

/-- The new node is not a node of the graph. -/
theorem freshNode_not_mem (g : Graph) : g.freshNode ∉ g.nodes :=
  fun h => lt_irrefl _ (lt_foldr_max g.nodes g.freshNode h)

/-- The new edge is not an edge of the graph. -/
theorem freshEdge_not_mem (g : Graph) : g.freshEdge ∉ g.edges :=
  fun h => lt_irrefl _ (lt_foldr_max g.edges g.freshEdge h)

/-- The loop that creates the expanders: `k` new, distinct nodes of type `t` with expanded
node `v` are appended to the graph and to `expander`; the edges and the old nodes keep
what they had. -/
theorem createExpanders_spec (t : NodeType) (v : Nat) :
    ∀ (k : Nat) (s : PlanRep) (acc : List Nat),
      ∃ new : List Nat,
        (createExpanders t v k s acc).2 = acc ++ new ∧
        new.length = k ∧ new.Nodup ∧
        (createExpanders t v k s acc).1.G.nodes = s.G.nodes ++ new ∧
        (∀ u ∈ new, u ∉ s.G.nodes ∧ (createExpanders t v k s acc).1.typeOfNode u = t ∧
            (createExpanders t v k s acc).1.m_expandedNode u = some v) ∧
        (createExpanders t v k s acc).1.G.edges = s.G.edges ∧
        (createExpanders t v k s acc).1.G.target = s.G.target ∧
        (createExpanders t v k s acc).1.m_eType = s.m_eType ∧
        (∀ x ∈ s.G.nodes, (createExpanders t v k s acc).1.m_vType x = s.m_vType x ∧
            (createExpanders t v k s acc).1.m_expandedNode x = s.m_expandedNode x ∧
            (createExpanders t v k s acc).1.G.adjEntries x = s.G.adjEntries x) := by
  intro k
  induction k with
  | zero =>
    intro s acc
    exact ⟨[], by simp [createExpanders], rfl, List.nodup_nil, by simp [createExpanders],
      fun u hu => absurd hu (List.not_mem_nil u), rfl, rfl, rfl, fun x _ => ⟨rfl, rfl, rfl⟩⟩
  | succ k ih =>
    intro s acc
    obtain ⟨new, h2, hlen, hnd, hnodes, hnew, hedges, htgt, hety, hold⟩ :=
      ih (((s.newNode.1).setTypeOfNode s.newNode.2 t).setExpandedNode s.newNode.2 v)
        (acc ++ [s.newNode.2])
    have hfresh : s.G.freshNode ∉ s.G.nodes := freshNode_not_mem s.G
    have hmem0 : s.G.freshNode ∈
        (((s.newNode.1).setTypeOfNode s.newNode.2 t).setExpandedNode s.newNode.2 v).G.nodes := by
      show s.G.freshNode ∈ s.G.nodes ++ [s.G.freshNode]
      simp
    refine ⟨s.G.freshNode :: new, ?_, by simp [hlen], ?_, ?_, ?_, ?_, ?_, ?_, ?_⟩
    · show (createExpanders t v k _ _).2 = _
      rw [h2]
      simp [PlanRep.newNode]
    · refine List.nodup_cons.2 ⟨fun hin => (hnew _ hin).1 hmem0, hnd⟩
    · show (createExpanders t v k _ _).1.G.nodes = _
      rw [hnodes]
      show (s.G.nodes ++ [s.G.freshNode]) ++ new = _
      simp
    · intro u hu
      rcases List.mem_cons.1 hu with rfl | hu
      · refine ⟨hfresh, ?_, ?_⟩
        · show (createExpanders t v k _ _).1.m_vType _ = t
          rw [(hold _ hmem0).1]
          simp [PlanRep.setExpandedNode, PlanRep.setTypeOfNode, PlanRep.newNode]
        · show (createExpanders t v k _ _).1.m_expandedNode _ = some v
          rw [(hold _ hmem0).2.1]
          simp [PlanRep.setExpandedNode, PlanRep.setTypeOfNode, PlanRep.newNode]
      · obtain ⟨h1, h3, h4⟩ := hnew u hu
        refine ⟨fun hin => h1 ?_, h3, h4⟩
        show u ∈ s.G.nodes ++ [s.G.freshNode]
        simp [hin]
    · exact hedges
    · exact htgt
    · exact hety
    · intro x hx
      have hx' : x ∈
          (((s.newNode.1).setTypeOfNode s.newNode.2 t).setExpandedNode s.newNode.2 v).G.nodes := by
        show x ∈ s.G.nodes ++ [s.G.freshNode]
        simp [hx]
      have hne : x ≠ s.G.freshNode := fun h => hfresh (h ▸ hx)
      obtain ⟨h1, h3, h4⟩ := hold x hx'
      refine ⟨?_, ?_, ?_⟩
      · show (createExpanders t v k _ _).1.m_vType x = _
        rw [h1]
        simp [PlanRep.setExpandedNode, PlanRep.setTypeOfNode, PlanRep.newNode, hne]
      · show (createExpanders t v k _ _).1.m_expandedNode x = _
        rw [h3]
        simp [PlanRep.setExpandedNode, PlanRep.setTypeOfNode, PlanRep.newNode, hne]
      · show (createExpanders t v k _ _).1.G.adjEntries x = _
        rw [h4]
        simp [PlanRep.setExpandedNode, PlanRep.setTypeOfNode, PlanRep.newNode, Graph.newNode, hne]

/-- The loop that moves the edges of `inGens`: on distinct ingoing generalizations of `v`
and as many expanders, no assertion fails, and each edge gets the expander at its own
position as its target; nothing else changes but the rotations. -/
theorem moveInGens_spec (v : Nat) :
    ∀ (es us : List Nat) (s : PlanRep), es.Nodup → es.length = us.length →
      (∀ e ∈ es, s.G.target e = v ∧ s.typeOfEdge e = EdgeType.generalization) →
      ∃ s3, moveInGens v es us s = some s3 ∧
        List.Forall₂ (fun e u => s3.G.target e = u) es us ∧
        s3.G.nodes = s.G.nodes ∧ s3.G.edges = s.G.edges ∧ s3.m_vType = s.m_vType ∧
        s3.m_expandedNode = s.m_expandedNode ∧
        (∀ x, x ∉ es → s3.G.target x = s.G.target x) := by
  intro es
  induction es with
  | nil =>
    intro us s _ hlen _
    have : us = [] := List.length_eq_zero.1 hlen.symm
    subst this
    exact ⟨s, rfl, List.Forall₂.nil, rfl, rfl, rfl, rfl, fun _ _ => rfl⟩
  | cons e es ih =>
    intro us s hnd hlen hin
    cases us with
    | nil => simp at hlen
    | cons u us =>
      obtain ⟨hnot, hnd'⟩ := List.nodup_cons.1 hnd
      have hin' : ∀ e' ∈ es, (s.moveTarget e u).G.target e' = v ∧
          (s.moveTarget e u).typeOfEdge e' = EdgeType.generalization := by
        intro e' he'
        have hne : e' ≠ e := fun h => hnot (h ▸ he')
        have := hin e' (List.mem_cons_of_mem _ he')
        refine ⟨?_, this.2⟩
        show Function.update s.G.target e u e' = v
        rw [Function.update_noteq hne]
        exact this.1
      obtain ⟨s3, h1, h2, h3, h4, h5, h6, h7⟩ :=
        ih us (s.moveTarget e u) hnd' (by simpa using hlen) hin'
      refine ⟨s3, ?_, List.Forall₂.cons ?_ h2, h3, h4, h5, h6, ?_⟩
      · unfold moveInGens
        rw [if_pos (hin e (List.mem_cons_self _ _))]
        exact h1
      · rw [h7 e hnot]
        show Function.update s.G.target e u e = u
        simp
      · intro x hx
        have hxe : x ≠ e := fun h => hx (h ▸ List.mem_cons_self _ _)
        rw [h7 x (fun h => hx (List.mem_cons_of_mem _ h))]
        show Function.update s.G.target e u x = _
        rw [Function.update_noteq hxe]

/-- The first loop of the merger branch on edges into `v`: the flag `detect` stays, and
the edges are put into `inGens` when it is set. -/
theorem collect_fold_in (s : PlanRep) (v : Nat) (l : List Nat)
    (h : ∀ e ∈ l, s.G.target e = v) (b : Bool) (acc : List Nat) :
    l.foldl
      (fun (st : Bool × List Nat) e =>
        if s.G.target e ≠ v then (true, st.2)
        else if st.1 then (st.1, st.2 ++ [e])
        else st)
      (b, acc) = (b, if b then acc ++ l else acc) := by
  induction l generalizing acc with
  | nil => cases b <;> simp
  | cons a l ih =>
    have ha := h a (List.mem_cons_self _ _)
    have hl : ∀ e ∈ l, s.G.target e = v := fun e he => h e (List.mem_cons_of_mem _ he)
    cases b
    · simp only [List.foldl_cons, ha, ne_eq, not_true_eq_false, if_false]
      simpa using ih hl acc
    · simp only [List.foldl_cons, ha, ne_eq, not_true_eq_false, if_false, if_true]
      simpa using ih hl (acc ++ [a])

/-- The second loop of the merger branch stops at the first edge out of `v`. -/
theorem takeWhile_in (s : PlanRep) (v o : Nat) (pre post : List Nat)
    (hpre : ∀ e ∈ pre, s.G.target e = v) (ho : s.G.target o ≠ v) :
    (pre ++ o :: post).takeWhile (fun e => decide (s.G.target e = v)) = pre := by
  induction pre with
  | nil => simp [List.takeWhile, ho]
  | cons a l ih =>
    have ha := hpre a (List.mem_cons_self _ _)
    have := ih (fun e he => hpre e (List.mem_cons_of_mem _ he))
    simp [List.takeWhile_cons, ha, this]

/-- The two loops that fill `inGens` at a node whose rotation has one edge `o` out of `v`:
the list holds the edges behind `o`, then those before `o`. -/
theorem collectInGens_rotation (s : PlanRep) (v o : Nat) (pre post : List Nat)
    (hrot : s.edgesAt v = pre ++ o :: post) (hout : s.G.target o ≠ v)
    (hin : ∀ e ∈ pre ++ post, s.G.target e = v)
    (hgen : ∀ e ∈ s.edgesAt v, s.typeOfEdge e = EdgeType.generalization) :
    collectInGens s v = some (post ++ pre) := by
  have hpre : ∀ e ∈ pre, s.G.target e = v := fun e he => hin e (List.mem_append_left _ he)
  have hpost : ∀ e ∈ post, s.G.target e = v := fun e he => hin e (List.mem_append_right _ he)
  unfold collectInGens
  rw [if_pos (by simpa using hgen), hrot, List.foldl_append, collect_fold_in s v pre hpre,
    List.foldl_cons, takeWhile_in s v o pre post hpre hout]
  simp only [Bool.false_eq_true, if_false, ne_eq, hout, not_false_eq_true, if_true]
  rw [collect_fold_in s v post hpost]
  simp

end PlanRepUML

namespace PlanRepUML

open PQPlanarityComponents (AdjEntry)

/-- C18: in `expand`, at a node `v` of type `generalizationMerger` whose rotation is
`pre ++ o :: post`, where `o` is the one edge out of `v` (its target is not `v`) and the
other entries are distinct generalizations into `v`: the list `inGens` is `post ++ pre`
and has `degree(v) - 1` edges; exactly `degree(v) - 1` nodes are created, all new,
distinct, of type `generalizationExpander` and with expanded node `v`; the loop that
moves the targets fails on no assertion (`itn` is valid at every step) and gives every
edge of `inGens` the expander at its own position as target; the pass of the node loop
goes on with the border of the face. -/
theorem expand_merger_one_expander_per_inGen (s : PlanRep) (v o : Nat) (pre post : List Nat)
    (lowDegreeExpand : Bool) (fuel : Nat)
    (hty : s.typeOfNode v = NodeType.generalizationMerger)
    (hrot : s.edgesAt v = pre ++ o :: post) (hout : s.G.target o ≠ v)
    (hin : ∀ e ∈ pre ++ post, s.G.target e = v)
    (hgen : ∀ e ∈ s.edgesAt v, s.typeOfEdge e = EdgeType.generalization)
    (hnd : (pre ++ post).Nodup) :
    collectInGens s v = some (post ++ pre) ∧
    (post ++ pre).length = s.G.degree v - 1 ∧
    ∃ expander s2 s3,
      createExpanders NodeType.generalizationExpander v (s.G.degree v - 1)
        (s.setExpandedNode v v) [] = (s2, expander) ∧
      expander.length = s.G.degree v - 1 ∧ expander.Nodup ∧
      s2.G.nodes = s.G.nodes ++ expander ∧
      (∀ u ∈ expander, u ∉ s.G.nodes ∧
        s2.typeOfNode u = NodeType.generalizationExpander ∧ s2.m_expandedNode u = some v) ∧
      moveInGens v (post ++ pre) expander s2 = some s3 ∧
      List.Forall₂ (fun e u => s3.G.target e = u) (post ++ pre) expander ∧
      s3.G.nodes = s.G.nodes ++ expander ∧ s3.G.edges = s.G.edges ∧
      (∀ u ∈ expander,
        s3.typeOfNode u = NodeType.generalizationExpander ∧ s3.m_expandedNode u = some v) ∧
      expandNode lowDegreeExpand fuel s v =
        closeFace (fun r e => (r.setExpansion e).setGeneralization e)
          (fun r e => (r.setExpansion e).setGeneralization e) v expander s3 := by
  have hcollect := collectInGens_rotation s v o pre post hrot hout hin hgen
  have hdeg : (post ++ pre).length = s.G.degree v - 1 := by
    have : (s.edgesAt v).length = s.G.degree v := by simp [PlanRep.edgesAt, Graph.degree]
    rw [hrot] at this
    simp at this ⊢
    omega
  obtain ⟨new, h2, hlen, hnd2, hnodes, hnew, hedges, htgt, hety, -⟩ :=
    createExpanders_spec NodeType.generalizationExpander v (s.G.degree v - 1)
      (s.setExpandedNode v v) []
  have hc : createExpanders NodeType.generalizationExpander v (s.G.degree v - 1)
      (s.setExpandedNode v v) [] =
      ((createExpanders NodeType.generalizationExpander v (s.G.degree v - 1)
        (s.setExpandedNode v v) []).1, new) := by
    rw [← List.nil_append new, ← h2]
  have hin2 : ∀ e ∈ post ++ pre,
      (createExpanders NodeType.generalizationExpander v (s.G.degree v - 1)
        (s.setExpandedNode v v) []).1.G.target e = v ∧
      (createExpanders NodeType.generalizationExpander v (s.G.degree v - 1)
        (s.setExpandedNode v v) []).1.typeOfEdge e = EdgeType.generalization := by
    intro e he
    have he1 : e ∈ pre ++ post := by
      rcases List.mem_append.1 he with h | h
      · exact List.mem_append_right _ h
      · exact List.mem_append_left _ h
    have he2 : e ∈ s.edgesAt v := by
      rw [hrot]
      rcases List.mem_append.1 he with h | h
      · exact List.mem_append_right _ (List.mem_cons_of_mem _ h)
      · exact List.mem_append_left _ h
    refine ⟨?_, ?_⟩
    · rw [htgt]
      exact hin e he1
    · show (createExpanders NodeType.generalizationExpander v (s.G.degree v - 1)
        (s.setExpandedNode v v) []).1.m_eType e = EdgeType.generalization
      rw [hety]
      exact hgen e he2
  obtain ⟨s3, hm, hfa, hn3, he3, hv3, hx3, -⟩ :=
    moveInGens_spec v (post ++ pre) new _ (List.nodup_append_comm.1 hnd)
      (by rw [hdeg, hlen]) hin2
  refine ⟨hcollect, hdeg, new, _, s3, hc, hlen, hnd2, hnodes, hnew, hm, hfa, ?_, ?_, ?_, ?_⟩
  · rw [hn3, hnodes]
    rfl
  · rw [he3, hedges]
    rfl
  · intro u hu
    obtain ⟨-, h4, h5⟩ := hnew u hu
    refine ⟨?_, ?_⟩
    · show s3.m_vType u = _
      rw [hv3]
      exact h4
    · rw [hx3]
      exact h5
  · unfold expandNode
    rw [if_pos hty]
    unfold expandMerger
    rw [hcollect]
    simp only []
    rw [hc]
    simp only [hm]

/-- The witness of C18: the merger node 0 of `Examples.merger`, with the rotation
`[0, 1] ++ 2 :: [3]`. -/
theorem expand_merger_one_expander_per_inGen_witness :
    collectInGens Examples.merger 0 = some ([3] ++ [0, 1]) ∧
    ([3] ++ [0, 1]).length = Examples.merger.G.degree 0 - 1 ∧
    ∃ expander s2 s3,
      createExpanders NodeType.generalizationExpander 0 (Examples.merger.G.degree 0 - 1)
        (Examples.merger.setExpandedNode 0 0) [] = (s2, expander) ∧
      expander.length = Examples.merger.G.degree 0 - 1 ∧ expander.Nodup ∧
      s2.G.nodes = Examples.merger.G.nodes ++ expander ∧
      (∀ u ∈ expander, u ∉ Examples.merger.G.nodes ∧
        s2.typeOfNode u = NodeType.generalizationExpander ∧ s2.m_expandedNode u = some 0) ∧
      moveInGens 0 ([3] ++ [0, 1]) expander s2 = some s3 ∧
      List.Forall₂ (fun e u => s3.G.target e = u) ([3] ++ [0, 1]) expander ∧
      s3.G.nodes = Examples.merger.G.nodes ++ expander ∧
      s3.G.edges = Examples.merger.G.edges ∧
      (∀ u ∈ expander,
        s3.typeOfNode u = NodeType.generalizationExpander ∧ s3.m_expandedNode u = some 0) ∧
      expandNode false 4 Examples.merger 0 =
        closeFace (fun r e => (r.setExpansion e).setGeneralization e)
          (fun r e => (r.setExpansion e).setGeneralization e) 0 expander s3 :=
  expand_merger_one_expander_per_inGen Examples.merger 0 2 [0, 1] [3] false 4 (by decide)
    (by decide) (by decide) (by decide) (by decide) (by decide)

end PlanRepUML

namespace PlanRepUML

open PQPlanarityComponents (AdjEntry)

/-- The loop `moveTarget(*it, u)` over a list of edges: the edges of the list get the
target `u`; every other target, the sources, the nodes, the edges, the types and
`m_mergeEdges` stay. -/
theorem foldl_moveTarget_spec (u : Nat) :
    ∀ (l : List Nat) (s : PlanRep),
      (l.foldl (fun r e => r.moveTarget e u) s).G.nodes = s.G.nodes ∧
      (l.foldl (fun r e => r.moveTarget e u) s).G.edges = s.G.edges ∧
      (l.foldl (fun r e => r.moveTarget e u) s).G.source = s.G.source ∧
      (∀ x, (l.foldl (fun r e => r.moveTarget e u) s).G.target x =
        if x ∈ l then u else s.G.target x) ∧
      (l.foldl (fun r e => r.moveTarget e u) s).m_vType = s.m_vType ∧
      (l.foldl (fun r e => r.moveTarget e u) s).m_eType = s.m_eType ∧
      (l.foldl (fun r e => r.moveTarget e u) s).m_mergeEdges = s.m_mergeEdges := by
  intro l
  induction l with
  | nil => intro s; simp
  | cons a l ih =>
    intro s
    obtain ⟨h1, h2, h3, h4, h5, h6, h7⟩ := ih (s.moveTarget a u)
    refine ⟨h1, h2, h3, ?_, h5, h6, h7⟩
    intro x
    rw [List.foldl_cons, h4 x]
    by_cases hx : x ∈ l
    · simp [hx]
    · by_cases hxa : x = a
      · subst hxa
        simp [hx, PlanRep.moveTarget, Graph.moveTarget]
      · simp [hx, hxa, PlanRep.moveTarget, Graph.moveTarget]

/-- The loop `moveTarget(*it, u)` over distinct edges whose targets are not `u`: their
adjacency entries come last in the rotation of `u`, in the order of the list. -/
theorem foldl_moveTarget_rotation (u : Nat) :
    ∀ (l : List Nat) (s : PlanRep), l.Nodup → (∀ e ∈ l, s.G.target e ≠ u) →
      (l.foldl (fun r e => r.moveTarget e u) s).G.adjEntries u =
        s.G.adjEntries u ++ l.map (fun e => (⟨e, false⟩ : AdjEntry)) := by
  intro l
  induction l with
  | nil => intro s _ _; simp
  | cons a l ih =>
    intro s hnd hne
    obtain ⟨hnot, hnd'⟩ := List.nodup_cons.1 hnd
    have ha : s.G.target a ≠ u := hne a (List.mem_cons_self _ _)
    have hne' : ∀ e ∈ l, (s.moveTarget a u).G.target e ≠ u := by
      intro e he
      have hea : e ≠ a := fun h => hnot (h ▸ he)
      show Function.update s.G.target a u e ≠ u
      rw [Function.update_noteq hea]
      exact hne e (List.mem_cons_of_mem _ he)
    rw [List.foldl_cons, ih (s.moveTarget a u) hnd' hne']
    have : (s.moveTarget a u).G.adjEntries u = s.G.adjEntries u ++ [⟨a, false⟩] := by
      simp [PlanRep.moveTarget, Graph.moveTarget, Function.update_noteq (Ne.symm ha)]
    rw [this]
    simp

/-- The result of `insertGenMerger` on a graph with a node and a list of at least two
edges: the new node `u` and the new edge `eMerge` are put into the state `s3`, then the
loop moves the targets. -/
theorem insertGenMerger_cons {Emb : Type} (ops : EmbOps Emb) (s : PlanRep) (v : Nat)
    (front second : Nat) (rest : List Nat) (E : Emb) (h : s.G.empty = false) :
    ∃ s3 : PlanRep,
      insertGenMerger ops s v (front :: second :: rest) E =
        (some s.G.freshNode,
          (front :: second :: rest).foldl (fun r e => r.moveTarget e s.G.freshNode) s3,
          ops.updateMerger E s.G.freshEdge (ops.rightFace E ⟨front, true⟩)
            (ops.rightFace E ⟨rest.getLastD second, false⟩)) ∧
      s3.G.nodes = s.G.nodes ++ [s.G.freshNode] ∧
      s3.G.edges = s.G.edges ++ [s.G.freshEdge] ∧
      s3.G.source = Function.update s.G.source s.G.freshEdge s.G.freshNode ∧
      s3.G.target =
        Function.update s.G.target s.G.freshEdge (s.G.target (rest.getLastD second)) ∧
      s3.m_vType s.G.freshNode = NodeType.generalizationMerger ∧
      s3.m_eType s.G.freshEdge = EdgeType.generalization ∧
      s3.m_mergeEdges = s.m_mergeEdges ++ [s.G.freshEdge] ∧
      (s.G.target (rest.getLastD second) ≠ s.G.freshNode →
        s3.G.adjEntries s.G.freshNode = [⟨s.G.freshEdge, true⟩]) := by
  refine ⟨{ (((s.newNode.1.setTypeOfNode s.G.freshNode
                NodeType.generalizationMerger).newEdgeNodeAdj s.G.freshNode
                ⟨rest.getLastD second, false⟩).1.setTypeOfEdge s.G.freshEdge
                EdgeType.generalization) with
            m_mergeEdges := s.m_mergeEdges ++ [s.G.freshEdge] }, ?_, rfl, rfl, rfl, rfl, ?_, ?_,
    rfl, ?_⟩
  · simp only [insertGenMerger, h]
    rfl
  · simp [PlanRep.setTypeOfEdge, PlanRep.newEdgeNodeAdj, PlanRep.initEdge,
      PlanRep.setTypeOfNode, PlanRep.newNode]
  · simp [PlanRep.setTypeOfEdge, PlanRep.newEdgeNodeAdj, PlanRep.initEdge,
      PlanRep.setTypeOfNode, PlanRep.newNode, Graph.newNode]
  · intro hne
    refine (Function.update_noteq (Ne.symm hne) _ _).trans ?_
    refine (Function.update_same _ _ _).trans ?_
    show Function.update s.G.adjEntries s.G.freshNode [] s.G.freshNode ++ _ = _
    rw [Function.update_same]
    rfl

/-- C17: `insertGenMerger(v, inGens, E)` returns a node exactly when the graph has a node
and `inGens` has at least two edges.  When it returns null, the state and the embedding
are the ones before the call.  When it returns the node `u`: `u` is new and is the one
node added, its type is `generalizationMerger`, every edge of `inGens` has the target
`u`, and one edge `eMerge` is added: it is new, leaves `u`, is a generalization and is
appended to `m_mergeEdges`.  In a graph whose edges have their end nodes among its nodes,
with `inGens` a list of edges of the graph, `eMerge` does not end at `u`, and the edges at
`u` are `eMerge` and the edges of `inGens` and no other; for distinct edges in `inGens`
the rotation of `u` is the entry of `eMerge` followed by those of `inGens`. -/
theorem insertGenMerger_returns_merger {Emb : Type} (ops : EmbOps Emb) (s : PlanRep)
    (v : Nat) (inGens : List Nat) (E : Emb) :
    ((insertGenMerger ops s v inGens E).1.isSome = true ↔
      s.G.nodes ≠ [] ∧ 2 ≤ inGens.length) ∧
    ((insertGenMerger ops s v inGens E).1 = none →
      (insertGenMerger ops s v inGens E).2.1 = s ∧
      (insertGenMerger ops s v inGens E).2.2 = E) ∧
    (∀ u, (insertGenMerger ops s v inGens E).1 = some u →
      u ∉ s.G.nodes ∧
      (insertGenMerger ops s v inGens E).2.1.G.nodes = s.G.nodes ++ [u] ∧
      (insertGenMerger ops s v inGens E).2.1.typeOfNode u = NodeType.generalizationMerger ∧
      (∀ e ∈ inGens, (insertGenMerger ops s v inGens E).2.1.G.target e = u) ∧
      ∃ eMerge, eMerge ∉ s.G.edges ∧
        (insertGenMerger ops s v inGens E).2.1.G.edges = s.G.edges ++ [eMerge] ∧
        (insertGenMerger ops s v inGens E).2.1.G.source eMerge = u ∧
        (insertGenMerger ops s v inGens E).2.1.typeOfEdge eMerge = EdgeType.generalization ∧
        (insertGenMerger ops s v inGens E).2.1.m_mergeEdges = s.m_mergeEdges ++ [eMerge] ∧
        ((∀ e ∈ s.G.edges, s.G.source e ∈ s.G.nodes ∧ s.G.target e ∈ s.G.nodes) →
          (∀ e ∈ inGens, e ∈ s.G.edges) →
          (insertGenMerger ops s v inGens E).2.1.G.target eMerge ≠ u ∧
          (∀ e ∈ (insertGenMerger ops s v inGens E).2.1.G.edges,
            ((insertGenMerger ops s v inGens E).2.1.G.source e = u ∨
              (insertGenMerger ops s v inGens E).2.1.G.target e = u) ↔
            (e = eMerge ∨ e ∈ inGens)) ∧
          (inGens.Nodup →
            (insertGenMerger ops s v inGens E).2.1.G.adjEntries u =
              ⟨eMerge, true⟩ :: inGens.map (fun e => (⟨e, false⟩ : AdjEntry))))) := by
  cases hempty : s.G.empty with
  | true =>
    have hnil : s.G.nodes = [] := List.isEmpty_iff.1 hempty
    have hres : insertGenMerger ops s v inGens E = (none, s, E) := by
      simp [insertGenMerger, hempty]
    rw [hres]
    simp [hnil]
  | false =>
    have hne : s.G.nodes ≠ [] := by
      intro h
      have : s.G.empty = true := List.isEmpty_iff.2 h
      rw [hempty] at this
      cases this
    match inGens with
    | [] =>
      have hres : insertGenMerger ops s v [] E = (none, s, E) := by
        simp [insertGenMerger, hempty]
      rw [hres]
      simp
    | [a] =>
      have hres : insertGenMerger ops s v [a] E = (none, s, E) := by
        simp [insertGenMerger, hempty]
      rw [hres]
      simp
    | front :: second :: rest =>
      obtain ⟨s3, hres, hn, he, hsrc, htgt, hvt, het, hme, hadj⟩ :=
        insertGenMerger_cons ops s v front second rest E hempty
      obtain ⟨h1, h2, h3, h4, h5, h6, h7⟩ :=
        foldl_moveTarget_spec s.G.freshNode (front :: second :: rest) s3
      rw [hres]
      refine ⟨by simp [hne], ?_, ?_⟩
      · intro h
        exact absurd h (by simp)
      intro u hu
      have hu' : s.G.freshNode = u := by
        simpa using hu
      subst hu'
      refine ⟨freshNode_not_mem s.G, h1.trans hn, ?_, ?_, s.G.freshEdge, freshEdge_not_mem s.G,
        h2.trans he, ?_, ?_, h7.trans hme, ?_⟩
      · show (List.foldl _ s3 _).m_vType _ = _
        rw [h5]
        exact hvt
      · intro e hin
        show (List.foldl _ s3 _).G.target e = _
        rw [h4 e, if_pos hin]
      · show (List.foldl _ s3 _).G.source _ = _
        rw [h3, hsrc]
        simp
      · show (List.foldl _ s3 _).m_eType _ = _
        rw [h6]
        exact het
      · intro wf hsub
        have heM : s.G.freshEdge ∉ front :: second :: rest :=
          fun h => freshEdge_not_mem s.G (hsub _ h)
        have hback : rest.getLastD second ∈ front :: second :: rest :=
          List.mem_cons_of_mem _ (List.getLastD_mem_cons rest second)
        have htb : s.G.target (rest.getLastD second) ≠ s.G.freshNode :=
          fun h => freshNode_not_mem s.G (h ▸ (wf _ (hsub _ hback)).2)
        refine ⟨?_, ?_, ?_⟩
        · show (List.foldl _ s3 _).G.target _ ≠ _
          rw [h4, if_neg heM, htgt]
          simpa using htb
        · intro e hin
          have hin' : e ∈ s.G.edges ++ [s.G.freshEdge] := by
            have : e ∈ (List.foldl (fun r e => r.moveTarget e s.G.freshNode) s3
                (front :: second :: rest)).G.edges := hin
            rwa [h2, he] at this
          show ((List.foldl _ s3 _).G.source e = _ ∨ (List.foldl _ s3 _).G.target e = _) ↔ _
          rw [h3, hsrc, h4 e, htgt]
          rcases List.mem_append.1 hin' with hold | hnew
          · have hne1 : e ≠ s.G.freshEdge := fun h => freshEdge_not_mem s.G (h ▸ hold)
            have hs : s.G.source e ≠ s.G.freshNode :=
              fun h => freshNode_not_mem s.G (h ▸ (wf e hold).1)
            have ht : s.G.target e ≠ s.G.freshNode :=
              fun h => freshNode_not_mem s.G (h ▸ (wf e hold).2)
            by_cases hl : e ∈ front :: second :: rest
            · simp [hl]
            · simp [hl, hne1, hs, ht, Function.update_noteq hne1]
          · have : e = s.G.freshEdge := by simpa using hnew
            subst this
            simp
        · intro hnd
          have hts : ∀ e ∈ front :: second :: rest, s3.G.target e ≠ s.G.freshNode := by
            intro e hin
            have hold := hsub e hin
            have hne1 : e ≠ s.G.freshEdge := fun h => freshEdge_not_mem s.G (h ▸ hold)
            rw [htgt, Function.update_noteq hne1]
            exact fun h => freshNode_not_mem s.G (h ▸ (wf e hold).2)
          show (List.foldl _ s3 _).G.adjEntries _ = _
          rw [foldl_moveTarget_rotation s.G.freshNode _ s3 hnd hts, hadj htb]
          rfl

/-- The witness of C17: the call for the run of the generalizations 1 and 2 at the node 0
of `Examples.longRunFirst`, which returns the new node 6. -/
theorem insertGenMerger_returns_merger_witness :
    (∀ e ∈ Examples.longRunFirst.G.edges,
      Examples.longRunFirst.G.source e ∈ Examples.longRunFirst.G.nodes ∧
      Examples.longRunFirst.G.target e ∈ Examples.longRunFirst.G.nodes) ∧
    (∀ e ∈ [1, 2], e ∈ Examples.longRunFirst.G.edges) ∧ [1, 2].Nodup ∧
    (insertGenMerger Examples.ops Examples.longRunFirst 0 [1, 2] 0).1 = some 6 ∧
    ∃ eMerge,
      (insertGenMerger Examples.ops Examples.longRunFirst 0 [1, 2] 0).2.1.G.target eMerge ≠ 6 ∧
      (∀ e ∈ (insertGenMerger Examples.ops Examples.longRunFirst 0 [1, 2] 0).2.1.G.edges,
        ((insertGenMerger Examples.ops Examples.longRunFirst 0 [1, 2] 0).2.1.G.source e = 6 ∨
          (insertGenMerger Examples.ops Examples.longRunFirst 0 [1, 2] 0).2.1.G.target e = 6) ↔
        (e = eMerge ∨ e ∈ [1, 2])) ∧
      (insertGenMerger Examples.ops Examples.longRunFirst 0 [1, 2] 0).2.1.G.adjEntries 6 =
        ⟨eMerge, true⟩ :: [1, 2].map (fun e => (⟨e, false⟩ : AdjEntry)) := by
  obtain ⟨-, -, -, -, eM, -, -, -, -, -, h⟩ :=
    (insertGenMerger_returns_merger Examples.ops Examples.longRunFirst 0 [1, 2] 0).2.2 6
      (by decide)
  have hwf : ∀ e ∈ Examples.longRunFirst.G.edges,
      Examples.longRunFirst.G.source e ∈ Examples.longRunFirst.G.nodes ∧
      Examples.longRunFirst.G.target e ∈ Examples.longRunFirst.G.nodes := by decide
  have hsub : ∀ e ∈ [1, 2], e ∈ Examples.longRunFirst.G.edges := by decide
  obtain ⟨h1, h2, h3⟩ := h hwf hsub
  exact ⟨hwf, hsub, by decide, by decide, eM, h1, h2, h3 (by decide)⟩

end PlanRepUML

namespace SimDrawCreator

/-- After `clearESG()` every edge of the loop has `subGraphBits = 0`. -/
theorem clearESG_of_mem (edges : List Nat) (bits : Nat → Int) (e : Nat) (he : e ∈ edges) :
    clearESG edges bits e = 0 := by
  have key : ∀ (l : List Nat) (b : Nat → Int), (e ∈ l ∨ b e = 0) →
      (l.foldl (fun bits e => Function.update bits e 0) b) e = 0 := by
    intro l
    induction l with
    | nil =>
      intro b h
      rcases h with h | h
      · exact absurd h (List.not_mem_nil e)
      · exact h
    | cons a l ih =>
      intro b h
      rw [List.foldl_cons]
      apply ih
      by_cases hea : e = a
      · right
        subst hea
        simp
      · rcases h with h | h
        · rcases List.mem_cons.1 h with h | h
          · exact absurd h hea
          · exact Or.inl h
        · right
          rw [Function.update_noteq hea]
          exact h
  exact key edges bits (Or.inl he)

/-- The passes of the loop of `randomESG2` for other edges leave `subGraphBits(x)` as it
is. -/
theorem foldl_randomESG2Body_of_not_mem (p : Int) (rand : Nat → Int) (x : Nat) :
    ∀ (l : List Nat) (st : (Nat → Int) × Nat), x ∉ l →
      (l.foldl (randomESG2Body p rand) st).1 x = st.1 x := by
  intro l
  induction l with
  | nil => intro st _; rfl
  | cons a l ih =>
    intro st hx
    have hxa : x ≠ a := fun h => hx (h ▸ List.mem_cons_self _ _)
    have hxl : x ∉ l := fun h => hx (List.mem_cons_of_mem _ h)
    rw [List.foldl_cons, ih _ hxl]
    unfold randomESG2Body
    split
    · simp [addSubGraph, Function.update_noteq hxa]
    · simp [addSubGraph, Function.update_noteq hxa]

/-- The pass of the loop of `randomESG2` for an edge `e` with `subGraphBits(e) = 0`: the
edge gets 3 when the first draw is below `p`, else bit `rand() % 2` of the second draw. -/
theorem randomESG2Body_value (p : Int) (rand : Nat → Int) (hr : ∀ k, 0 ≤ rand k)
    (st : (Nat → Int) × Nat) (e : Nat) (hb : st.1 e = 0) :
    (randomESG2Body p rand st e).1 e =
      if (rand st.2).tmod 100 < p then 3 else 2 ^ ((rand (st.2 + 1)).tmod 2).toNat := by
  unfold randomESG2Body
  split
  · simp only [addSubGraph, Function.update_same, hb]
    decide
  · have h2 : (rand (st.2 + 1)).tmod 2 = 0 ∨ (rand (st.2 + 1)).tmod 2 = 1 := by
      have := Int.tmod_eq_emod (hr (st.2 + 1)) (by norm_num : (0 : Int) ≤ 2)
      omega
    simp only [addSubGraph, Function.update_same, hb]
    rcases h2 with h2 | h2
    · rw [h2]
      decide
    · rw [h2]
      decide

/-- The loop of `randomESG2` over distinct edges, seen at the edge `e` behind the edges
`pre`, with `k` calls of `rand()` in the passes for `pre`: `e` ends with 3 when the draw
`k` is below `p`, else with bit `rand() % 2` of the draw `k + 1`. -/
theorem foldl_randomESG2Body_value (p : Int) (rand : Nat → Int) (hr : ∀ k, 0 ≤ rand k)
    (l pre post : List Nat) (e : Nat) (hl : l = pre ++ e :: post) (hnd : l.Nodup)
    (st : (Nat → Int) × Nat) (hb : st.1 e = 0) :
    (l.foldl (randomESG2Body p rand) st).1 e =
      if (rand (pre.foldl (randomESG2Body p rand) st).2).tmod 100 < p then 3
      else 2 ^ ((rand ((pre.foldl (randomESG2Body p rand) st).2 + 1)).tmod 2).toNat := by
  subst hl
  have hpre : e ∉ pre := by
    intro h
    have := List.nodup_append.1 hnd
    exact this.2.2 h (List.mem_cons_self _ _)
  have hpost : e ∉ post := by
    have := (List.nodup_append.1 hnd).2.1
    exact (List.nodup_cons.1 this).1
  rw [List.foldl_append, List.foldl_cons, foldl_randomESG2Body_of_not_mem p rand e post _ hpost]
  apply randomESG2Body_value p rand hr
  rw [foldl_randomESG2Body_of_not_mem p rand e pre st hpre]
  exact hb

/-- C21: `randomESG2(p)` with `0 <= p <= 100` on the distinct edges `pre ++ e :: post`,
for every previous content of `subGraphBits` and every stream of non-negative values of
`rand()`, where `k` calls of `rand()` are made in the passes for `pre`: no assertion
fails; `e` ends with `subGraphBits = 3`, in both basic graphs 0 and 1, if and only if its
first draw `rand() % 100` (draw `k`) is below `p`; otherwise it ends with 1 or 2, in
exactly the basic graph `rand() % 2` of its second draw (draw `k + 1`); with `p = 100`
every edge ends with 3, and with `p = 0` every edge ends with 1 or 2. -/
theorem randomESG2_both_iff_first_draw (p : Int) (h0 : 0 ≤ p) (h100 : p ≤ 100)
    (rand : Nat → Int) (hr : ∀ k, 0 ≤ rand k) (pre post : List Nat) (e : Nat)
    (hnd : (pre ++ e :: post).Nodup) (bits : Nat → Int) (k : Nat)
    (hk : k = (pre.foldl (randomESG2Body p rand) (clearESG (pre ++ e :: post) bits, 0)).2) :
    ∃ res, randomESG2 p rand (pre ++ e :: post) bits = some res ∧
      (res e = 3 ↔ (rand k).tmod 100 < p) ∧
      ((inSubGraph (res e) 0 = true ∧ inSubGraph (res e) 1 = true) ↔ (rand k).tmod 100 < p) ∧
      (¬ (rand k).tmod 100 < p →
        (res e = 1 ∨ res e = 2) ∧
        (inSubGraph (res e) 0 = true ↔ (rand (k + 1)).tmod 2 = 0) ∧
        (inSubGraph (res e) 1 = true ↔ (rand (k + 1)).tmod 2 = 1)) ∧
      (p = 100 → ∀ x ∈ pre ++ e :: post, res x = 3) ∧
      (p = 0 → ∀ x ∈ pre ++ e :: post, res x = 1 ∨ res x = 2) := by
  have hmod2 : ∀ j, (rand j).tmod 2 = 0 ∨ (rand j).tmod 2 = 1 := by
    intro j
    have := Int.tmod_eq_emod (hr j) (by norm_num : (0 : Int) ≤ 2)
    omega
  have hmod100 : ∀ j, 0 ≤ (rand j).tmod 100 ∧ (rand j).tmod 100 < 100 := by
    intro j
    have := Int.tmod_eq_emod (hr j) (by norm_num : (0 : Int) ≤ 100)
    omega
  have hval := foldl_randomESG2Body_value p rand hr (pre ++ e :: post) pre post e rfl hnd
    (clearESG (pre ++ e :: post) bits, 0)
    (clearESG_of_mem _ bits e (List.mem_append_right _ (List.mem_cons_self _ _)))
  rw [← hk] at hval
  refine ⟨((pre ++ e :: post).foldl (randomESG2Body p rand)
    (clearESG (pre ++ e :: post) bits, 0)).1, ?_, ?_, ?_, ?_, ?_, ?_⟩
  · unfold randomESG2
    rw [if_pos ⟨h100, h0⟩]
  · by_cases hd : (rand k).tmod 100 < p
    · rw [hval, if_pos hd]
      simp [hd]
    · rw [hval, if_neg hd]
      rcases hmod2 (k + 1) with h | h <;> rw [h] <;> simp [hd]
  · by_cases hd : (rand k).tmod 100 < p
    · rw [hval, if_pos hd]
      simp only [hd, iff_true]
      decide
    · rw [hval, if_neg hd]
      simp only [hd, iff_false]
      rcases hmod2 (k + 1) with h | h <;> rw [h] <;> decide
  · intro hd
    rw [hval, if_neg hd]
    rcases hmod2 (k + 1) with h | h <;> rw [h] <;> decide
  · intro hp x hx
    obtain ⟨s, t, hst⟩ := List.append_of_mem hx
    rw [foldl_randomESG2Body_value p rand hr (pre ++ e :: post) s t x hst hnd
      (clearESG (pre ++ e :: post) bits, 0) (clearESG_of_mem _ bits x hx),
      if_pos (by rw [hp]; exact (hmod100 _).2)]
  · intro hp x hx
    obtain ⟨s, t, hst⟩ := List.append_of_mem hx
    rw [foldl_randomESG2Body_value p rand hr (pre ++ e :: post) s t x hst hnd
      (clearESG (pre ++ e :: post) bits, 0) (clearESG_of_mem _ bits x hx),
      if_neg (by rw [hp]; exact not_lt.2 (hmod100 _).1)]
    rcases hmod2 ((s.foldl (randomESG2Body p rand)
      (clearESG (pre ++ e :: post) bits, 0)).2 + 1) with h | h <;> rw [h] <;> decide

/-- The witness of C21: `randomESG2(50)` on the edges 0, 1, 2 with `subGraphBits = 7`
before the call and the draws 37, 80, 1, 0, 0, ...; the edge 1 is reached after one call of
`rand()`. -/
theorem randomESG2_both_iff_first_draw_witness :
    ∃ res, randomESG2 50 (fun j => Int.ofNat ([37, 80, 1].getD j 0)) ([0] ++ 1 :: [2])
        (fun _ => 7) = some res ∧
      (res 1 = 3 ↔ (Int.ofNat ([37, 80, 1].getD 1 0)).tmod 100 < 50) ∧
      ((inSubGraph (res 1) 0 = true ∧ inSubGraph (res 1) 1 = true) ↔
        (Int.ofNat ([37, 80, 1].getD 1 0)).tmod 100 < 50) ∧
      (¬ (Int.ofNat ([37, 80, 1].getD 1 0)).tmod 100 < 50 →
        (res 1 = 1 ∨ res 1 = 2) ∧
        (inSubGraph (res 1) 0 = true ↔ (Int.ofNat ([37, 80, 1].getD (1 + 1) 0)).tmod 2 = 0) ∧
        (inSubGraph (res 1) 1 = true ↔ (Int.ofNat ([37, 80, 1].getD (1 + 1) 0)).tmod 2 = 1)) ∧
      ((50 : Int) = 100 → ∀ x ∈ [0] ++ 1 :: [2], res x = 3) ∧
      ((50 : Int) = 0 → ∀ x ∈ [0] ++ 1 :: [2], res x = 1 ∨ res x = 2) :=
  randomESG2_both_iff_first_draw 50 (by decide) (by decide)
    (fun j => Int.ofNat ([37, 80, 1].getD j 0)) (fun _ => Int.ofNat_zero_le _) [0] [2] 1
    (by decide) (fun _ => 7) 1 (by decide)

end SimDrawCreator
